import Mathlib

/-!
# Implicit-list allocator (`mm-implicit.c`)

A shallow embedding of the allocator: the heap is a byte-addressed store together
with the arena bounds kept by `memlib`; chunk headers are read from and written to
that store, so payload bytes and (stale) headers share the same memory.
Pointers are natural numbers, `0` is `NULL`.  `size_t` arithmetic is taken
modulo `2 ^ 64`.  Loops take fuel; `none` stands for a walk that does not finish
(or, in `ask_os_for_chunk`, for a store through the failed result of `mem_sbrk`).
-/

namespace MMImplicit

/-- The arena of `memlib` and the bytes of memory. -/
structure Heap where
  heap_lo : Nat
  heap_size : Nat
  heap_max : Nat
  mem : Nat → Nat

/-- Modelled from the spec: `memlib.c` is not in the sources; `heap_low_address()`. -/
def mem_heap_lo (s : Heap) : Nat := s.heap_lo

/-- Modelled from the spec: `memlib.c` is not in the sources; `heap_high_address()`,
the last valid byte of the region. -/
def mem_heap_hi (s : Heap) : Nat := s.heap_lo + s.heap_size - 1

/-- Modelled from the spec: `memlib.c` is not in the sources; `current_heap_size()`. -/
def mem_heapsize (s : Heap) : Nat := s.heap_size

/-- Modelled from the spec: `memlib.c` is not in the sources; `grow_heap(delta_bytes)`
extends the region and returns the address at which the new space begins, or fails. -/
def mem_sbrk (s : Heap) (incr : Nat) : Option (Nat × Heap) :=
  if s.heap_size + incr ≤ s.heap_max then
    some (s.heap_lo + s.heap_size, { s with heap_size := s.heap_size + incr })
  else none

/-- Modelled from the spec: `mm-common.h` is not in the sources; `sizeof(header_t)`,
16 bytes in the reference sizing. -/
def hdr_size : Nat := 16

/-- Modelled from the spec: `mm-common.h` is not in the sources; `align` rounds a
`size_t` up to the 16-byte alignment boundary. -/
def align (n : Nat) : Nat := (n + 15) % 2 ^ 64 / 16 * 16

/-- Modelled from the spec: `header_t` of `mm-common.h` is not in the sources; the
`size` field is a `size_t` in the first eight bytes of the header (little-endian). -/
def load_size (m : Nat → Nat) (h : Nat) : Nat :=
  m h % 256 + 256 * (m (h + 1) % 256) + 65536 * (m (h + 2) % 256)
    + 16777216 * (m (h + 3) % 256) + 4294967296 * (m (h + 4) % 256)
    + 1099511627776 * (m (h + 5) % 256) + 281474976710656 * (m (h + 6) % 256)
    + 72057594037927936 * (m (h + 7) % 256)

/-- The store `h->size = v`. -/
def store_size (m : Nat → Nat) (h v : Nat) : Nat → Nat :=
  fun x => if h ≤ x ∧ x < h + 8 then v / 256 ^ (x - h) % 256 else m x

/-- Modelled from the spec: `header_t` of `mm-common.h` is not in the sources; the
`allocated` field is a `bool` in the byte after the `size` field. -/
def load_allocated (m : Nat → Nat) (h : Nat) : Bool :=
  decide (m (h + 8) % 256 ≠ 0)

/-- The store `h->allocated = b`. -/
def store_allocated (m : Nat → Nat) (h : Nat) (b : Bool) : Nat → Nat :=
  fun x => if x = h + 8 then (if b then 1 else 0) else m x

/-- The library call `memcpy(dst, src, n)`. -/
def memcpy (m : Nat → Nat) (dst src n : Nat) : Nat → Nat :=
  fun x => if dst ≤ x ∧ x < dst + n then m (src + (x - dst)) else m x

/-- The code of `init_chunk`. -/
def init_chunk (s : Heap) (p csz : Nat) (allocated : Bool) : Heap :=
  { s with mem := store_allocated (store_size s.mem p csz) p allocated }

/-- The code of `next_chunk`. -/
def next_chunk (s : Heap) (h : Nat) : Nat :=
  if h = 0 then
    if mem_heapsize s ≠ 0 then mem_heap_lo s else 0
  else
    if h + load_size s.mem h > mem_heap_hi s then 0 else h + load_size s.mem h

/-- The code of `mm_init`: the assertion on the header size, then `0`. -/
def mm_init : Option Nat :=
  if hdr_size = align hdr_size then some 0 else none

/-- The loop of `coalesce`. -/
def coalesce_loop : Nat → Heap → Nat → Option Heap
  | 0, _, _ => none
  | fuel + 1, s, h =>
    if next_chunk s h ≠ 0 then
      if load_allocated s.mem (next_chunk s h) = false then
        coalesce_loop fuel
          { s with mem := (store_size s.mem h
              ((load_size s.mem h + load_size s.mem (next_chunk s h)) % 2 ^ 64)) } h
      else some s
    else some s

/-- The code of `coalesce`.  The fuel `heap_size + 1` exceeds the number of chunks of
any heap whose chunks have positive sizes, so it runs out only when the loop stalls. -/
def coalesce (s : Heap) (h : Nat) : Option Heap :=
  coalesce_loop (s.heap_size + 1) s h

/-- The loop of `first_fit`. -/
def first_fit_loop : Nat → Heap → Nat → Nat → Option (Nat × Heap)
  | 0, _, _, _ => none
  | fuel + 1, s, csz, cur =>
    if cur ≠ 0 ∧ cur < mem_heap_hi s then
      match (if load_allocated s.mem cur = false then coalesce s cur else some s) with
      | none => none
      | some s1 =>
        if load_size s1.mem cur ≥ csz ∧ load_allocated s1.mem cur = false then
          some (cur, s1)
        else first_fit_loop fuel s1 csz (next_chunk s1 cur)
    else some (0, s)

/-- The code of `first_fit`, with the same fuel as `coalesce`. -/
def first_fit (s : Heap) (csz : Nat) : Option (Nat × Heap) :=
  first_fit_loop (s.heap_size + 1) s csz (mem_heap_lo s)

/-- The code of `split`. -/
def split (s : Heap) (original csz : Nat) : Heap :=
  if load_size s.mem original ≥ (csz + 32) % 2 ^ 64 then
    let s1 := init_chunk s (original + csz)
      ((load_size s.mem original + 2 ^ 64 - csz) % 2 ^ 64) false
    { s1 with mem := store_size s1.mem original csz }
  else s

/-- The code of `ask_os_for_chunk`; the result of `mem_sbrk` is used unchecked. -/
def ask_os_for_chunk (s : Heap) (csz : Nat) : Option (Nat × Heap) :=
  match mem_sbrk s (align csz) with
  | none => none
  | some (n, s1) => some (n, init_chunk s1 n (align csz) false)

/-- The code of `mm_malloc`. -/
def mm_malloc (s : Heap) (size : Nat) : Option (Nat × Heap) :=
  let size := align size
  let csz := (hdr_size + align size) % 2 ^ 64
  match first_fit s csz with
  | none => none
  | some (p, s1) =>
    match (if p = 0 then ask_os_for_chunk s1 csz else some (p, s1)) with
    | none => none
    | some (p, s2) =>
      let s3 := split s2 p csz
      some (p + hdr_size, { s3 with mem := store_allocated s3.mem p true })

/-- The code of `payload2header`. -/
def payload2header (p : Nat) : Nat := p - hdr_size

/-- The code of `mm_free`. -/
def mm_free (s : Heap) (p : Nat) : Option Heap :=
  let h := payload2header p
  coalesce { s with mem := store_allocated s.mem h false } h

/-- The code of `mm_realloc`. -/
def mm_realloc (s : Heap) (ptr size : Nat) : Option (Nat × Heap) :=
  let size := align size
  if ptr = 0 then
    match mm_malloc s size with
    | none => none
    | some (_, s1) => some (0, s1)
  else if size = 0 then
    match mm_free s ptr with
    | none => none
    | some s1 => some (0, s1)
  else
    let r := payload2header ptr
    let originalsize := load_size s.mem r
    match coalesce s r with
    | none => none
    | some s1 =>
      if load_size s1.mem r < (size + hdr_size) % 2 ^ 64 then
        match mm_malloc s1 size with
        | none => none
        | some (q, s2) =>
          let n := q - hdr_size
          let nptr := n + hdr_size
          let s3 : Heap :=
            { s2 with mem := memcpy s2.mem nptr ptr ((originalsize + 2 ^ 64 - 16) % 2 ^ 64) }
          match mm_free s3 ptr with
          | none => none
          | some s4 => some (n + hdr_size, s4)
      else some (ptr, split s1 r ((size + hdr_size) % 2 ^ 64))

/-- Modelled from the spec: `heap_info_t` of `mm-common.h` is not in the sources; the
statistics record of the auditor. -/
structure heap_info_t where
  num_allocated_chunks : Nat
  num_free_chunks : Nat
  allocated_size : Nat
  free_size : Nat
deriving DecidableEq

/-- The loop of `mm_checkheap`. -/
def checkheap_loop : Nat → Heap → Nat → heap_info_t → Option heap_info_t
  | 0, _, _, _ => none
  | fuel + 1, s, cur, info =>
    if cur ≠ 0 then
      if load_allocated s.mem cur = false then
        checkheap_loop fuel s (next_chunk s cur)
          { info with num_free_chunks := info.num_free_chunks + 1,
                      free_size := info.free_size + load_size s.mem cur }
      else
        checkheap_loop fuel s (next_chunk s cur)
          { info with num_allocated_chunks := info.num_allocated_chunks + 1,
                      allocated_size := info.allocated_size + load_size s.mem cur }
    else some info

/-- The traversal of `mm_checkheap`, before its assertion; the fuel allows for the visit
of `mem_heap_lo()` that the loop makes even on an empty heap. -/
def checkheap_scan (s : Heap) : Option heap_info_t :=
  checkheap_loop (s.heap_size + 2) s (mem_heap_lo s) ⟨0, 0, 0, 0⟩

/-- The code of `mm_checkheap`; a failed assertion gives `none`. -/
def mm_checkheap (s : Heap) : Option heap_info_t :=
  match checkheap_scan s with
  | none => none
  | some info =>
    if mem_heapsize s = info.allocated_size + info.free_size then some info else none

/-- A chunk as a heap walk sees it: its size and its allocation flag. -/
abbrev Chunk := Nat × Bool

/-- Sum of the sizes of a sequence of chunks. -/
def total : List Chunk → Nat
  | [] => 0
  | c :: cs => c.1 + total cs

/-- The chunks `cs` lie back to back in memory from address `a` on: each header
holds the size and the flag listed, and the next chunk starts `size` bytes further. -/
def Tiled (m : Nat → Nat) : Nat → List Chunk → Prop
  | _, [] => True
  | a, c :: cs => load_size m a = c.1 ∧ load_allocated m a = c.2 ∧ Tiled m (a + c.1) cs

/-- Every chunk is a multiple of 16 bytes and holds at least its header. -/
def sizes_ok (cs : List Chunk) : Prop := ∀ c ∈ cs, 16 ≤ c.1 ∧ c.1 % 16 = 0

/-- The arena is a region of the 64-bit address space that does not start at `NULL`. -/
def arena_ok (s : Heap) : Prop :=
  0 < s.heap_lo ∧ s.heap_size ≤ s.heap_max ∧ s.heap_lo + s.heap_max + 32 ≤ 2 ^ 64

/-- The heap is well formed and its chunks, from the heap start to the heap end,
are exactly `cs`. -/
def Rep (s : Heap) (cs : List Chunk) : Prop :=
  arena_ok s ∧ Tiled s.mem s.heap_lo cs ∧ sizes_ok cs ∧ total cs = s.heap_size

/-- Two states with the same arena bounds. -/
def same_arena (s s' : Heap) : Prop :=
  s'.heap_lo = s.heap_lo ∧ s'.heap_size = s.heap_size ∧ s'.heap_max = s.heap_max

/-- A free chunk. -/
def is_free (c : Chunk) : Bool := !c.2

/-- Address `x` lies inside a free chunk of the sequence `cs` laid out from `a`. -/
def in_free : Nat → List Chunk → Nat → Prop
  | _, [], _ => False
  | a, c :: cs, x => (c.2 = false ∧ a ≤ x ∧ x < a + c.1) ∨ in_free (a + c.1) cs x

/-- The first-fit scan on a sequence of chunks: the chunks it passes over (each free
one merged with the free chunks after it), and, when a chunk fits, the size of that
chunk after merging together with the chunks after it. -/
def fit (csz : Nat) : List Chunk → List Chunk × Option (Nat × List Chunk)
  | [] => ([], none)
  | (sz, true) :: cs => ((sz, true) :: (fit csz cs).1, (fit csz cs).2)
  | (sz, false) :: cs =>
    if csz ≤ sz + total (cs.takeWhile is_free) then
      ([], some (sz + total (cs.takeWhile is_free), cs.dropWhile is_free))
    else
      ((sz + total (cs.takeWhile is_free), false) :: (fit csz (cs.dropWhile is_free)).1,
        (fit csz (cs.dropWhile is_free)).2)
termination_by cs => cs.length
decreasing_by
  all_goals simp_wf
  all_goals first
    | omega
    | exact Nat.lt_succ_of_le (List.dropWhile_sublist _).length_le

/-- The chunk sequence a first-fit scan leaves behind. -/
def fit_layout (csz : Nat) (cs : List Chunk) : List Chunk :=
  (fit csz cs).1 ++
    (match (fit csz cs).2 with
     | none => []
     | some (sz, rest) => (sz, false) :: rest)

/-- The chunk sequence after `mm_malloc` with chunk size `csz`. -/
def malloc_layout (csz : Nat) (cs : List Chunk) : List Chunk :=
  (fit csz cs).1 ++
    (match (fit csz cs).2 with
     | none => [(csz, true)]
     | some (sz, rest) =>
       if csz + 32 ≤ sz then (csz, true) :: (sz - csz, false) :: rest
       else (sz, true) :: rest)

/-- Deciding `Tiled` on a given chunk sequence. -/
instance decTiled (m : Nat → Nat) : (a : Nat) → (cs : List Chunk) → Decidable (Tiled m a cs)
  | _, [] => isTrue trivial
  | a, c :: cs =>
    have := decTiled m (a + c.1) cs
    inferInstanceAs (Decidable (load_size m a = c.1 ∧ load_allocated m a = c.2 ∧
      Tiled m (a + c.1) cs))

instance decSizesOk (cs : List Chunk) : Decidable (sizes_ok cs) :=
  inferInstanceAs (Decidable (∀ c ∈ cs, 16 ≤ c.1 ∧ c.1 % 16 = 0))

instance decArenaOk (s : Heap) : Decidable (arena_ok s) :=
  inferInstanceAs (Decidable (0 < s.heap_lo ∧ s.heap_size ≤ s.heap_max ∧
    s.heap_lo + s.heap_max + 32 ≤ 2 ^ 64))

instance decRep (s : Heap) (cs : List Chunk) : Decidable (Rep s cs) :=
  inferInstanceAs (Decidable (arena_ok s ∧ Tiled s.mem s.heap_lo cs ∧ sizes_ok cs ∧
    total cs = s.heap_size))

/-- The chunk headers visited by a walk with `next_chunk` that starts at `cur`. -/
def walk : Nat → Heap → Nat → List Nat
  | 0, _, _ => []
  | fuel + 1, s, cur => if cur = 0 then [] else cur :: walk fuel s (next_chunk s cur)

/-- The walk of the whole heap, started with `next_chunk(NULL)`. -/
def heap_walk (s : Heap) : List Nat := walk (s.heap_size + 1) s (next_chunk s 0)

/-- The chunks of the heap as the walk reads them. -/
def chunks (s : Heap) : List Chunk :=
  (heap_walk s).map (fun h => (load_size s.mem h, load_allocated s.mem h))

/-- The walk covers the heap exactly, with chunks of legal sizes, inside a legal arena. -/
def well_formed (s : Heap) : Prop :=
  arena_ok s ∧ sizes_ok (chunks s) ∧ total (chunks s) = s.heap_size

instance decWellFormed (s : Heap) : Decidable (well_formed s) :=
  inferInstanceAs (Decidable (arena_ok s ∧ sizes_ok (chunks s) ∧
    total (chunks s) = s.heap_size))

/-- The start addresses of the chunks `cs` laid out from `a`. -/
def addrs : Nat → List Chunk → List Nat
  | _, [] => []
  | a, c :: cs => a :: addrs (a + c.1) cs

/-- `p` is the payload pointer of a chunk of the heap walk that is marked allocated. -/
def live (s : Heap) (p : Nat) : Bool :=
  decide (hdr_size ≤ p) && decide (payload2header p ∈ heap_walk s) &&
    load_allocated s.mem (payload2header p)

/-- The statistics `mm_checkheap` accumulates over a chunk sequence. -/
def audit : List Chunk → heap_info_t → heap_info_t
  | [], info => info
  | (sz, false) :: cs, info =>
    audit cs { info with num_free_chunks := info.num_free_chunks + 1,
                         free_size := info.free_size + sz }
  | (sz, true) :: cs, info =>
    audit cs { info with num_allocated_chunks := info.num_allocated_chunks + 1,
                         allocated_size := info.allocated_size + sz }

/-- A call of the public interface. -/
inductive Call where
  | malloc (n : Nat)
  | free (p : Nat)
  | realloc (p n : Nat)

/-- One call under the usage contract: a pointer handed to `mm_free` or `mm_realloc` is
live (`mm_realloc` also takes `NULL`); `none` when the contract is broken or the call
does not return. -/
def step (s : Heap) : Call → Option Heap
  | .malloc n => (mm_malloc s n).map Prod.snd
  | .free p => if live s p then mm_free s p else none
  | .realloc p n => if p = 0 ∨ live s p = true then (mm_realloc s p n).map Prod.snd else none

/-- A sequence of calls under the usage contract. -/
def run : Heap → List Call → Option Heap
  | s, [] => some s
  | s, c :: cs => (step s c).bind (fun s' => run s' cs)

/-- The size a call requests, if it requests one. -/
def Call.size : Call → Nat
  | .malloc n => n
  | .free _ => 0
  | .realloc _ n => n

/-- No two consecutive chunks of the sequence are both free. -/
def no_adjacent_free : List Chunk → Prop
  | [] => True
  | [_] => True
  | c :: d :: cs => ¬ (c.2 = false ∧ d.2 = false) ∧ no_adjacent_free (d :: cs)

/-- An empty heap at address 4096 in an arena of 1024 bytes. -/
def heap0 : Heap := { heap_lo := 4096, heap_size := 0, heap_max := 1024, mem := fun _ => 0 }

/-- A heap at address 4096 holding one allocated chunk of 32 bytes. -/
def heap1 : Heap :=
  { heap_lo := 4096, heap_size := 32, heap_max := 1024,
    mem := fun x => if x = 4096 then 32 else if x = 4104 then 1 else 0 }

/-- A heap at address 4096 holding an allocated chunk of 32 bytes whose payload starts
with the bytes 7 and 9, followed by two free chunks of 32 bytes and an allocated chunk
of 32 bytes. -/
def heap2 : Heap :=
  { heap_lo := 4096, heap_size := 128, heap_max := 1024,
    mem := fun x =>
      if x = 4096 then 32 else if x = 4104 then 1
      else if x = 4112 then 7 else if x = 4113 then 9
      else if x = 4128 then 32 else if x = 4160 then 32
      else if x = 4192 then 32 else if x = 4200 then 1 else 0 }

/-! ## Reading and writing headers -/

theorem load_size_store_size (m : Nat → Nat) (h v : Nat) :
    load_size (store_size m h v) h = v % 2 ^ 64 := by
  have e0 : store_size m h v h = v / 256 ^ 0 % 256 := by simp [store_size]
  have e1 : store_size m h v (h + 1) = v / 256 ^ 1 % 256 := by simp [store_size]
  have e2 : store_size m h v (h + 2) = v / 256 ^ 2 % 256 := by simp [store_size]
  have e3 : store_size m h v (h + 3) = v / 256 ^ 3 % 256 := by simp [store_size]
  have e4 : store_size m h v (h + 4) = v / 256 ^ 4 % 256 := by simp [store_size]
  have e5 : store_size m h v (h + 5) = v / 256 ^ 5 % 256 := by simp [store_size]
  have e6 : store_size m h v (h + 6) = v / 256 ^ 6 % 256 := by simp [store_size]
  have e7 : store_size m h v (h + 7) = v / 256 ^ 7 % 256 := by simp [store_size]
  unfold load_size
  rw [e0, e1, e2, e3, e4, e5, e6, e7]
  omega

theorem load_size_lt (m : Nat → Nat) (h : Nat) : load_size m h < 2 ^ 64 := by
  unfold load_size
  omega

theorem load_size_congr {m m' : Nat → Nat} {h : Nat}
    (e : ∀ x, h ≤ x → x < h + 8 → m' x = m x) : load_size m' h = load_size m h := by
  unfold load_size
  rw [e h (by omega) (by omega), e (h + 1) (by omega) (by omega),
    e (h + 2) (by omega) (by omega), e (h + 3) (by omega) (by omega),
    e (h + 4) (by omega) (by omega), e (h + 5) (by omega) (by omega),
    e (h + 6) (by omega) (by omega), e (h + 7) (by omega) (by omega)]

theorem load_allocated_congr {m m' : Nat → Nat} {h : Nat}
    (e : m' (h + 8) = m (h + 8)) : load_allocated m' h = load_allocated m h := by
  unfold load_allocated
  rw [e]

theorem store_size_other (m : Nat → Nat) (h v x : Nat) (hx : x < h ∨ h + 8 ≤ x) :
    store_size m h v x = m x := by
  unfold store_size
  rw [if_neg (by omega)]

theorem store_allocated_other (m : Nat → Nat) (h : Nat) (b : Bool) (x : Nat)
    (hx : x ≠ h + 8) : store_allocated m h b x = m x := by
  unfold store_allocated
  rw [if_neg hx]

theorem load_allocated_store_allocated (m : Nat → Nat) (h : Nat) (b : Bool) :
    load_allocated (store_allocated m h b) h = b := by
  unfold load_allocated store_allocated
  cases b <;> simp

theorem total_append (l1 l2 : List Chunk) : total (l1 ++ l2) = total l1 + total l2 := by
  induction l1 with
  | nil => simp [total]
  | cons c l ih => simp [total, ih]; omega

theorem sizes_ok_cons {c : Chunk} {cs : List Chunk} :
    sizes_ok (c :: cs) ↔ (16 ≤ c.1 ∧ c.1 % 16 = 0) ∧ sizes_ok cs := by
  simp [sizes_ok]

theorem sizes_ok_append {l1 l2 : List Chunk} :
    sizes_ok (l1 ++ l2) ↔ sizes_ok l1 ∧ sizes_ok l2 := by
  simp only [sizes_ok, List.mem_append]
  constructor
  · intro h
    exact ⟨fun c hc => h c (Or.inl hc), fun c hc => h c (Or.inr hc)⟩
  · rintro ⟨h1, h2⟩ c (hc | hc)
    · exact h1 c hc
    · exact h2 c hc

theorem Tiled_append (m : Nat → Nat) : ∀ (l1 l2 : List Chunk) (a : Nat),
    Tiled m a (l1 ++ l2) ↔ Tiled m a l1 ∧ Tiled m (a + total l1) l2
  | [], l2, a => by simp [Tiled, total]
  | c :: l1, l2, a => by
    have ih := Tiled_append m l1 l2 (a + c.1)
    show (load_size m a = c.1 ∧ load_allocated m a = c.2 ∧ Tiled m (a + c.1) (l1 ++ l2)) ↔
      (load_size m a = c.1 ∧ load_allocated m a = c.2 ∧ Tiled m (a + c.1) l1) ∧
        Tiled m (a + (c.1 + total l1)) l2
    rw [ih, Nat.add_assoc]
    tauto

theorem Tiled_congr {m m' : Nat → Nat} : ∀ (cs : List Chunk) (a : Nat),
    sizes_ok cs → (∀ x, a ≤ x → x < a + total cs → m' x = m x) →
    Tiled m a cs → Tiled m' a cs
  | [], _, _, _, _ => trivial
  | c :: cs, a, hs, e, ht => by
    obtain ⟨h1, h2, h3⟩ := ht
    rw [sizes_ok_cons] at hs
    obtain ⟨⟨hc, _⟩, hs'⟩ := hs
    simp only [total] at e
    refine ⟨?_, ?_, ?_⟩
    · rw [← h1]
      exact load_size_congr (fun x hx1 hx2 => e x hx1 (by omega))
    · rw [← h2]
      exact load_allocated_congr (e _ (by omega) (by omega))
    · exact Tiled_congr cs _ hs' (fun x hx1 hx2 => e x (by omega) (by omega)) h3

/-! ## The heap walker -/

theorem next_chunk_eq {s : Heap} {h sz : Nat} (h0 : 0 < h) (hsz : load_size s.mem h = sz)
    (hin : h + sz < s.heap_lo + s.heap_size) : next_chunk s h = h + sz := by
  unfold next_chunk mem_heap_hi
  rw [if_neg (by omega), hsz, if_neg (by omega)]

theorem next_chunk_end {s : Heap} {h sz : Nat} (h0 : 0 < h) (hsz : load_size s.mem h = sz)
    (hend : s.heap_lo + s.heap_size ≤ h + sz) : next_chunk s h = 0 := by
  unfold next_chunk mem_heap_hi
  rw [if_neg (by omega), hsz, if_pos (by omega)]

/-! ## Coalescing -/

theorem coalesce_loop_spec : ∀ (run : List Chunk) (fuel : Nat) (s : Heap) (h sz : Nat)
    (rest : List Chunk),
    0 < h → load_size s.mem h = sz → 8 ≤ sz →
    Tiled s.mem (h + sz) (run ++ rest) → sizes_ok (run ++ rest) →
    (∀ c ∈ run, c.2 = false) → (∀ c, rest.head? = some c → c.2 = true) →
    h + sz + total (run ++ rest) = s.heap_lo + s.heap_size →
    sz + total run < 2 ^ 64 → run.length < fuel →
    ∃ s', coalesce_loop fuel s h = some s' ∧ same_arena s s' ∧
      load_size s'.mem h = sz + total run ∧
      (∀ x, x < h ∨ h + 8 ≤ x → s'.mem x = s.mem x)
  | [], fuel, s, h, sz, rest, h0, hsz, _, ht, hs, _, hrest, hsum, _, hfuel => by
    obtain ⟨f, rfl⟩ : ∃ f, fuel = f + 1 := ⟨fuel - 1, by simp at hfuel; omega⟩
    refine ⟨s, ?_, ⟨rfl, rfl, rfl⟩, by simp [total, hsz], fun _ _ => rfl⟩
    cases rest with
    | nil =>
      simp only [List.append_nil, total] at hsum
      have hn : next_chunk s h = 0 := next_chunk_end h0 hsz (by omega)
      simp [coalesce_loop, hn]
    | cons c rest' =>
      have hc := hrest c rfl
      obtain ⟨_, t2, _⟩ := ht
      have hc16 := (sizes_ok_cons.1 hs).1
      simp only [List.nil_append, total] at hsum
      have hn : next_chunk s h = h + sz := next_chunk_eq h0 hsz (by omega)
      have hne : h + sz ≠ 0 := by omega
      simp [coalesce_loop, hn, t2, hc, hne]
  | c :: run, fuel, s, h, sz, rest, h0, hsz, h8, ht, hs, hfree, hrest, hsum, hlt, hfuel => by
    obtain ⟨f, rfl⟩ : ∃ f, fuel = f + 1 := ⟨fuel - 1, by simp at hfuel; omega⟩
    have hcf : c.2 = false := hfree c (List.mem_cons_self _ _)
    rw [List.cons_append] at ht hsum hs
    obtain ⟨t1, t2, t3⟩ := ht
    rw [sizes_ok_cons] at hs
    obtain ⟨⟨hc16, _⟩, hs'⟩ := hs
    simp only [total] at hsum hlt
    have hn : next_chunk s h = h + sz := next_chunk_eq h0 hsz (by omega)
    have hne : h + sz ≠ 0 := by omega
    have hmod : (sz + c.1) % 2 ^ 64 = sz + c.1 := Nat.mod_eq_of_lt (by omega)
    obtain ⟨s', e, ha, hl, hfr⟩ := coalesce_loop_spec run f
      { s with mem := store_size s.mem h (sz + c.1) } h (sz + c.1) rest h0
      (by simp only [load_size_store_size]; exact hmod) (by omega)
      (Tiled_congr _ _ hs' (fun x hx1 _ => store_size_other _ _ _ _ (by omega))
        (by rw [← Nat.add_assoc]; exact t3))
      hs' (fun d hd => hfree d (List.mem_cons_of_mem _ hd)) hrest
      (by simp only []; omega) (by omega) (by simp at hfuel; omega)
    refine ⟨s', ?_, ha, by rw [hl]; simp only [total]; omega, fun x hx => ?_⟩
    · rw [← e]
      simp only [coalesce_loop, hn, t2, hcf, hne, hsz, t1, hmod, ne_eq, not_false_eq_true,
        if_true]
    · rw [hfr x hx]
      exact store_size_other _ _ _ _ hx

/-! ## Chunk sequences -/

theorem total_mod_16 {cs : List Chunk} (hs : sizes_ok cs) : total cs % 16 = 0 := by
  induction cs with
  | nil => rfl
  | cons c cs ih =>
    rw [sizes_ok_cons] at hs
    have := ih hs.2
    simp only [total]
    omega

theorem length_le_total {cs : List Chunk} (hs : sizes_ok cs) : 16 * cs.length ≤ total cs := by
  induction cs with
  | nil => simp [total]
  | cons c cs ih =>
    rw [sizes_ok_cons] at hs
    have := ih hs.2
    simp only [total, List.length_cons]
    omega

theorem takeWhile_free {cs : List Chunk} : ∀ c ∈ cs.takeWhile is_free, c.2 = false := by
  intro c hc
  have := List.mem_takeWhile_imp hc
  simpa [is_free] using this

theorem dropWhile_free_head : ∀ (cs : List Chunk) (c : Chunk),
    (cs.dropWhile is_free).head? = some c → c.2 = true
  | [], c, h => by simp at h
  | d :: cs, c, h => by
    rw [List.dropWhile_cons] at h
    split at h
    · exact dropWhile_free_head cs c h
    · rename_i hd
      simp only [List.head?_cons, Option.some.injEq] at h
      subst h
      simpa [is_free] using hd

theorem Rep_replace {s s' : Heap} {pre u v post : List Chunk}
    (hr : Rep s (pre ++ (u ++ post))) (ha : same_arena s s')
    (ht : total v = total u) (hs : sizes_ok v)
    (hfr : ∀ x, x < s.heap_lo + total pre ∨ s.heap_lo + total pre + total u ≤ x →
      s'.mem x = s.mem x)
    (hm : Tiled s'.mem (s.heap_lo + total pre) v) :
    Rep s' (pre ++ (v ++ post)) := by
  obtain ⟨hlo, hsz, hmx⟩ := ha
  obtain ⟨⟨a1, a2, a3⟩, t, so, tt⟩ := hr
  rw [Tiled_append, Tiled_append] at t
  rw [sizes_ok_append, sizes_ok_append] at so
  refine ⟨⟨by omega, by omega, by omega⟩, ?_, ?_, ?_⟩
  · rw [Tiled_append, Tiled_append, hlo]
    refine ⟨Tiled_congr _ _ so.1 (fun x _ hx => hfr x (Or.inl hx)) t.1, hm, ?_⟩
    rw [ht]
    exact Tiled_congr _ _ so.2.2 (fun x hx _ => hfr x (Or.inr hx)) t.2.2
  · rw [sizes_ok_append, sizes_ok_append]
    exact ⟨so.1, hs, so.2.2⟩
  · rw [total_append, total_append] at tt ⊢
    omega

theorem coalesce_spec {s : Heap} {pre post : List Chunk} {sz : Nat} {al : Bool}
    (hr : Rep s (pre ++ (sz, al) :: post)) :
    ∃ s', coalesce s (s.heap_lo + total pre) = some s' ∧ same_arena s s' ∧
      Rep s' (pre ++ (sz + total (post.takeWhile is_free), al) :: post.dropWhile is_free) ∧
      (∀ x, x < s.heap_lo + total pre ∨ s.heap_lo + total pre + 8 ≤ x →
        s'.mem x = s.mem x) := by
  have hr' := hr
  obtain ⟨⟨a1, a2, a3⟩, t, so, tt⟩ := hr'
  rw [Tiled_append] at t
  obtain ⟨_, t1, t2, t3⟩ := t
  rw [sizes_ok_append, sizes_ok_cons] at so
  obtain ⟨_, ⟨hsz16, hszm⟩, sop⟩ := so
  simp only [total_append, total] at tt
  have hsplit : post.takeWhile is_free ++ post.dropWhile is_free = post :=
    List.takeWhile_append_dropWhile _ _
  have htp : total (post.takeWhile is_free) + total (post.dropWhile is_free) = total post := by
    rw [← total_append, hsplit]
  have sop' : sizes_ok (post.takeWhile is_free ++ post.dropWhile is_free) := by
    rw [hsplit]; exact sop
  have hlen := length_le_total (sizes_ok_append.1 sop').1
  obtain ⟨s', e, ha, hl, hfr⟩ := coalesce_loop_spec (post.takeWhile is_free) (s.heap_size + 1)
    s (s.heap_lo + total pre) sz (post.dropWhile is_free) (by omega) t1 (by omega)
    (by rw [hsplit]; exact t3) sop' takeWhile_free (dropWhile_free_head post)
    (by rw [hsplit]; omega) (by omega) (by omega)
  refine ⟨s', e, ha, ?_, hfr⟩
  have key : Rep s' (pre ++ ([(sz + total (post.takeWhile is_free), al)] ++
      post.dropWhile is_free)) := by
    refine Rep_replace (u := (sz, al) :: post.takeWhile is_free) ?_ ha ?_ ?_ ?_ ?_
    · rw [List.cons_append, hsplit]; exact hr
    · simp [total]
    · intro c hc
      simp only [List.mem_singleton] at hc
      subst hc
      have := total_mod_16 (sizes_ok_append.1 sop').1
      exact ⟨by simp only []; omega, by simp only []; omega⟩
    · intro x hx
      simp only [total] at hx
      exact hfr x (by omega)
    · refine ⟨hl, ?_, trivial⟩
      rw [← t2]
      exact load_allocated_congr (hfr _ (by omega))
  exact key

/-! ## Header updates on a well-formed heap -/

theorem Rep_header {s : Heap} {pre post : List Chunk} {c : Chunk}
    (hr : Rep s (pre ++ c :: post)) :
    load_size s.mem (s.heap_lo + total pre) = c.1 ∧
      load_allocated s.mem (s.heap_lo + total pre) = c.2 ∧
      16 ≤ c.1 ∧ c.1 % 16 = 0 ∧
      s.heap_lo + total pre + c.1 + total post = s.heap_lo + s.heap_size ∧
      0 < s.heap_lo ∧ s.heap_lo + s.heap_size + 32 ≤ 2 ^ 64 := by
  obtain ⟨⟨a1, a2, a3⟩, t, so, tt⟩ := hr
  rw [Tiled_append] at t
  obtain ⟨_, t1, t2, _⟩ := t
  rw [sizes_ok_append, sizes_ok_cons] at so
  simp only [total_append, total] at tt
  exact ⟨t1, t2, so.2.1.1, so.2.1.2, by omega, a1, by omega⟩

theorem Rep_set_allocated {s : Heap} {pre post : List Chunk} {sz : Nat} {al : Bool}
    (hr : Rep s (pre ++ (sz, al) :: post)) (b : Bool) :
    Rep { s with mem := store_allocated s.mem (s.heap_lo + total pre) b }
      (pre ++ (sz, b) :: post) := by
  obtain ⟨h1, _, h16, hm, _⟩ := Rep_header hr
  simp only [] at h1 h16 hm
  have key : Rep { s with mem := store_allocated s.mem (s.heap_lo + total pre) b }
      (pre ++ ([(sz, b)] ++ post)) := by
    refine Rep_replace (u := [(sz, al)]) hr ⟨rfl, rfl, rfl⟩ rfl ?_ ?_ ?_
    · intro c hc
      simp only [List.mem_singleton] at hc
      subst hc
      exact ⟨h16, hm⟩
    · intro x hx
      simp only [total] at hx
      exact store_allocated_other _ _ _ _ (by omega)
    · refine ⟨?_, load_allocated_store_allocated _ _ _, trivial⟩
      rw [← h1]
      exact load_size_congr (fun x _ _ => store_allocated_other _ _ _ _ (by omega))
  exact key

theorem split_spec {s : Heap} {pre post : List Chunk} {sz csz : Nat} {al : Bool}
    (hr : Rep s (pre ++ (sz, al) :: post)) (h16 : 16 ≤ csz) (hm : csz % 16 = 0)
    (hle : csz ≤ sz) :
    same_arena s (split s (s.heap_lo + total pre) csz) ∧
    (∀ x, x < s.heap_lo + total pre ∨ s.heap_lo + total pre + sz ≤ x →
      (split s (s.heap_lo + total pre) csz).mem x = s.mem x) ∧
    (∀ x, s.heap_lo + total pre + 8 ≤ x → x < s.heap_lo + total pre + csz →
      (split s (s.heap_lo + total pre) csz).mem x = s.mem x) ∧
    (csz + 32 ≤ sz →
      Rep (split s (s.heap_lo + total pre) csz)
        (pre ++ (csz, al) :: (sz - csz, false) :: post)) ∧
    (sz < csz + 32 → split s (s.heap_lo + total pre) csz = s) := by
  obtain ⟨h1, h2, hs16, hsm, hend, hlo, hmax⟩ := Rep_header hr
  simp only [] at h1 h2 hs16 hsm hend
  have hmod : (csz + 32) % 2 ^ 64 = csz + 32 := Nat.mod_eq_of_lt (by omega)
  by_cases hc : csz + 32 ≤ sz
  · have hsub : (sz + 2 ^ 64 - csz) % 2 ^ 64 = sz - csz := by omega
    have hsp : split s (s.heap_lo + total pre) csz =
        { s with mem := store_size (store_allocated
          (store_size s.mem (s.heap_lo + total pre + csz) (sz - csz))
          (s.heap_lo + total pre + csz) false) (s.heap_lo + total pre) csz } := by
      unfold split init_chunk
      rw [h1, hmod, if_pos hc, hsub]
    rw [hsp]
    have hfr : ∀ x, x < s.heap_lo + total pre ∨ s.heap_lo + total pre + sz ≤ x →
        store_size (store_allocated
          (store_size s.mem (s.heap_lo + total pre + csz) (sz - csz))
          (s.heap_lo + total pre + csz) false) (s.heap_lo + total pre) csz x = s.mem x := by
      intro x hx
      rw [store_size_other _ _ _ _ (by omega), store_allocated_other _ _ _ _ (by omega),
        store_size_other _ _ _ _ (by omega)]
    refine ⟨⟨rfl, rfl, rfl⟩, hfr, ?_, fun _ => ?_, fun h => absurd hc (by omega)⟩
    · intro x hx1 hx2
      show store_size _ _ _ x = s.mem x
      rw [store_size_other _ _ _ _ (by omega), store_allocated_other _ _ _ _ (by omega),
        store_size_other _ _ _ _ (by omega)]
    · have key : Rep { s with mem := store_size (store_allocated
          (store_size s.mem (s.heap_lo + total pre + csz) (sz - csz))
          (s.heap_lo + total pre + csz) false) (s.heap_lo + total pre) csz }
          (pre ++ ([(csz, al), (sz - csz, false)] ++ post)) := by
        refine Rep_replace (u := [(sz, al)]) hr ⟨rfl, rfl, rfl⟩ ?_ ?_ ?_ ?_
        · simp only [total]; omega
        · intro c hc'
          simp only [List.mem_cons, List.mem_singleton, List.not_mem_nil, or_false] at hc'
          rcases hc' with rfl | rfl
          · exact ⟨h16, hm⟩
          · exact ⟨by simp only []; omega, by simp only []; omega⟩
        · intro x hx
          simp only [total] at hx
          exact hfr x (by omega)
        · refine ⟨?_, ?_, ?_, ?_, trivial⟩
          · show load_size (store_size _ _ _) _ = csz
            rw [load_size_store_size]
            exact Nat.mod_eq_of_lt (by omega)
          · show load_allocated (store_size _ _ _) _ = al
            rw [← h2]
            refine load_allocated_congr ?_
            rw [store_size_other _ _ _ _ (by omega),
              store_allocated_other _ _ _ _ (by omega), store_size_other _ _ _ _ (by omega)]
          · show load_size (store_size _ _ _) _ = sz - csz
            have e : load_size (store_size s.mem (s.heap_lo + total pre + csz) (sz - csz))
                (s.heap_lo + total pre + csz) = sz - csz := by
              rw [load_size_store_size]
              exact Nat.mod_eq_of_lt (by omega)
            refine Eq.trans (load_size_congr (fun x hx1 hx2 => ?_)) e
            simp only [] at hx1 hx2
            rw [store_size_other _ _ _ _ (by omega),
              store_allocated_other _ _ _ _ (by omega)]
          · show load_allocated (store_size _ _ _) _ = false
            have e : load_allocated (store_allocated
                (store_size s.mem (s.heap_lo + total pre + csz) (sz - csz))
                (s.heap_lo + total pre + csz) false) (s.heap_lo + total pre + csz) = false :=
              load_allocated_store_allocated _ _ _
            refine Eq.trans (load_allocated_congr ?_) e
            rw [store_size_other _ _ _ _ (by simp only []; omega)]
      exact key
  · have hsp : split s (s.heap_lo + total pre) csz = s := by
      unfold split
      rw [h1, hmod, if_neg hc]
    rw [hsp]
    exact ⟨⟨rfl, rfl, rfl⟩, fun _ _ => rfl, fun _ _ _ => rfl, fun h => absurd h hc,
      fun _ => rfl⟩

theorem mm_free_spec {s : Heap} {pre post : List Chunk} {sz : Nat} {al : Bool}
    (hr : Rep s (pre ++ (sz, al) :: post)) :
    ∃ s', mm_free s (s.heap_lo + total pre + hdr_size) = some s' ∧ same_arena s s' ∧
      Rep s' (pre ++ (sz + total (post.takeWhile is_free), false) ::
        post.dropWhile is_free) ∧
      (∀ x, x < s.heap_lo + total pre ∨ s.heap_lo + total pre + 9 ≤ x →
        s'.mem x = s.mem x) := by
  obtain ⟨s', e, ha, hr', hfr⟩ := coalesce_spec (Rep_set_allocated hr false)
  refine ⟨s', ?_, ha, hr', fun x hx => ?_⟩
  · unfold mm_free payload2header
    rw [Nat.add_sub_cancel]
    exact e
  · rw [hfr x (by simp only []; omega)]
    exact store_allocated_other _ _ _ _ (by omega)

/-! ## The first-fit scan -/

theorem fit_nil (csz : Nat) : fit csz [] = ([], none) := by
  rw [fit]

theorem fit_cons_allocated (csz sz : Nat) (cs : List Chunk) :
    fit csz ((sz, true) :: cs) = ((sz, true) :: (fit csz cs).1, (fit csz cs).2) := by
  rw [fit]

theorem fit_cons_free (csz sz : Nat) (cs : List Chunk) :
    fit csz ((sz, false) :: cs) =
      if csz ≤ sz + total (cs.takeWhile is_free) then
        ([], some (sz + total (cs.takeWhile is_free), cs.dropWhile is_free))
      else
        ((sz + total (cs.takeWhile is_free), false) :: (fit csz (cs.dropWhile is_free)).1,
          (fit csz (cs.dropWhile is_free)).2) := by
  rw [fit]

theorem in_free_append : ∀ (l1 l2 : List Chunk) (a x : Nat),
    in_free a (l1 ++ l2) x ↔ in_free a l1 x ∨ in_free (a + total l1) l2 x
  | [], l2, a, x => by simp [in_free, total]
  | c :: l1, l2, a, x => by
    have ih := in_free_append l1 l2 (a + c.1) x
    show ((c.2 = false ∧ a ≤ x ∧ x < a + c.1) ∨ in_free (a + c.1) (l1 ++ l2) x) ↔
      ((c.2 = false ∧ a ≤ x ∧ x < a + c.1) ∨ in_free (a + c.1) l1 x) ∨
        in_free (a + (c.1 + total l1)) l2 x
    rw [ih, Nat.add_assoc]
    tauto

theorem in_free_range : ∀ (cs : List Chunk) (a x : Nat),
    in_free a cs x → a ≤ x ∧ x < a + total cs
  | [], _, _, h => h.elim
  | c :: cs, a, x, h => by
    simp only [total]
    rcases h with ⟨_, h1, h2⟩ | h
    · omega
    · have := in_free_range cs _ x h
      omega

theorem next_chunk_Rep {s : Heap} {pre post : List Chunk} {c : Chunk}
    (hr : Rep s (pre ++ c :: post)) :
    (post = [] ∧ next_chunk s (s.heap_lo + total pre) = 0) ∨
    (post ≠ [] ∧ next_chunk s (s.heap_lo + total pre) = s.heap_lo + total pre + c.1) := by
  obtain ⟨h1, _, _, _, hend, hlo, _⟩ := Rep_header hr
  cases post with
  | nil =>
    simp only [total] at hend
    exact Or.inl ⟨rfl, next_chunk_end (by omega) h1 (by omega)⟩
  | cons d post =>
    have hd : Rep s ((pre ++ [c]) ++ d :: post) := by
      rw [List.append_assoc]; exact hr
    obtain ⟨_, _, hd16, _⟩ := Rep_header hd
    simp only [total] at hend
    exact Or.inr ⟨by simp, next_chunk_eq (by omega) h1 (by omega)⟩

theorem first_fit_loop_spec (csz : Nat) : ∀ (fuel : Nat) (s : Heap) (done cs : List Chunk)
    (cur : Nat),
    Rep s (done ++ cs) → cs.length < fuel →
    (cur = s.heap_lo + total done ∨ (cur = 0 ∧ cs = [])) →
    ∃ s', first_fit_loop fuel s csz cur =
        some (if (fit csz cs).2.isSome then s.heap_lo + total done + total (fit csz cs).1
          else 0, s') ∧
      same_arena s s' ∧ Rep s' (done ++ fit_layout csz cs) ∧
      (∀ x, ¬ in_free (s.heap_lo + total done) cs x → s'.mem x = s.mem x)
  | 0, _, _, _, _, _, hf, _ => absurd hf (Nat.not_lt_zero _)
  | f + 1, s, done, [], cur, hr, _, hcur => by
    refine ⟨s, ?_, ⟨rfl, rfl, rfl⟩, ?_, fun _ _ => rfl⟩
    · have hcond : ¬ (cur ≠ 0 ∧ cur < mem_heap_hi s) := by
        obtain ⟨_, _, _, tt⟩ := hr
        rw [List.append_nil] at tt
        unfold mem_heap_hi
        rcases hcur with h | ⟨h, _⟩ <;> omega
      simp only [first_fit_loop, fit_nil, if_neg hcond]
      rfl
    · simpa [fit_layout, fit_nil] using hr
  | f + 1, s, done, (sz, true) :: cs, cur, hr, hf, hcur => by
    obtain ⟨h1, h2, h16, _, hend, hlo, _⟩ := Rep_header hr
    simp only [] at h1 h2 h16
    have hc : cur = s.heap_lo + total done := by
      rcases hcur with h | ⟨_, h⟩
      · exact h
      · simp at h
    subst hc
    have hcond : s.heap_lo + total done ≠ 0 ∧ s.heap_lo + total done < mem_heap_hi s := by
      unfold mem_heap_hi
      simp only [total] at hend
      omega
    have hr2 : Rep s ((done ++ [(sz, true)]) ++ cs) := by
      rw [List.append_assoc]; exact hr
    have htd : total (done ++ [(sz, true)]) = total done + sz := by
      simp [total_append, total]
    obtain ⟨s', e, ha, hr', hfr⟩ := first_fit_loop_spec csz f s (done ++ [(sz, true)]) cs
      (next_chunk s (s.heap_lo + total done)) hr2 (by simp at hf; omega)
      (by
        rcases next_chunk_Rep hr with ⟨hp, hn⟩ | ⟨_, hn⟩
        · exact Or.inr ⟨hn, hp⟩
        · left; rw [hn, htd]; simp only []; omega)
    refine ⟨s', ?_, ha, ?_, ?_⟩
    · rw [first_fit_loop, if_pos hcond]
      simp only [h2, Bool.true_eq_false, if_false, and_false]
      rw [e, fit_cons_allocated, htd]
      simp only [total, Nat.add_assoc]
    · rw [List.append_assoc] at hr'
      simpa [fit_layout, fit_cons_allocated] using hr'
    · intro x hx
      refine hfr x (fun hin => hx (Or.inr ?_))
      rw [htd, ← Nat.add_assoc] at hin
      exact hin
  | f + 1, s, done, (sz, false) :: cs, cur, hr, hf, hcur => by
    obtain ⟨h1, h2, h16, _, hend, hlo, _⟩ := Rep_header hr
    simp only [] at h1 h2 h16
    have hc : cur = s.heap_lo + total done := by
      rcases hcur with h | ⟨_, h⟩
      · exact h
      · simp at h
    subst hc
    have hcond : s.heap_lo + total done ≠ 0 ∧ s.heap_lo + total done < mem_heap_hi s := by
      unfold mem_heap_hi
      simp only [total] at hend
      omega
    obtain ⟨s1, e1, ha1, hr1, hfr1⟩ := coalesce_spec hr
    obtain ⟨hlo1, hsz1, hmx1⟩ := ha1
    obtain ⟨g1, g2, _⟩ := Rep_header hr1
    simp only [] at g1 g2
    rw [hlo1] at g1 g2
    have hsplit : cs.takeWhile is_free ++ cs.dropWhile is_free = cs :=
      List.takeWhile_append_dropWhile _ _
    by_cases hfit : csz ≤ sz + total (cs.takeWhile is_free)
    · refine ⟨s1, ?_, ⟨hlo1, hsz1, hmx1⟩, ?_, ?_⟩
      · rw [first_fit_loop, if_pos hcond, h2]
        simp only [if_true, e1, g1, g2, ge_iff_le, hfit, and_self, fit_cons_free, total,
          Option.isSome_some, Nat.add_zero]
      · simpa [fit_layout, fit_cons_free, hfit] using hr1
      · intro x hx
        refine hfr1 x ?_
        by_contra hcon
        exact hx (Or.inl ⟨rfl, by omega, by omega⟩)
    · have hr2 : Rep s1 ((done ++ [(sz + total (cs.takeWhile is_free), false)]) ++
          cs.dropWhile is_free) := by
        rw [List.append_assoc]; exact hr1
      have htd : total (done ++ [(sz + total (cs.takeWhile is_free), false)]) =
          total done + (sz + total (cs.takeWhile is_free)) := by
        simp [total_append, total]
      obtain ⟨s', e, ha, hr', hfr⟩ := first_fit_loop_spec csz f s1
        (done ++ [(sz + total (cs.takeWhile is_free), false)]) (cs.dropWhile is_free)
        (next_chunk s1 (s.heap_lo + total done))
        hr2 (by
          have := (List.dropWhile_sublist is_free (l := cs)).length_le
          simp at hf; omega)
        (by
          rcases next_chunk_Rep hr1 with ⟨hp, hn⟩ | ⟨_, hn⟩
          · rw [hlo1] at hn
            exact Or.inr ⟨hn, hp⟩
          · rw [hlo1] at hn
            left; rw [hn, htd, hlo1]; simp only []; omega)
      refine ⟨s', ?_, ⟨ha.1.trans hlo1, ha.2.1.trans hsz1, ha.2.2.trans hmx1⟩, ?_, ?_⟩
      · rw [first_fit_loop, if_pos hcond, h2]
        simp only [if_true, e1, g1, g2, ge_iff_le, hfit, false_and, if_false]
        rw [e, fit_cons_free, if_neg hfit, htd, hlo1]
        simp only [total, Nat.add_assoc]
      · rw [List.append_assoc] at hr'
        simpa [fit_layout, fit_cons_free, hfit] using hr'
      · intro x hx
        have hx1 : ¬ in_free (s.heap_lo + total done + sz) cs x := fun h => hx (Or.inr h)
        rw [← hsplit, in_free_append] at hx1
        rw [hfr x, hfr1 x]
        · by_contra hcon
          exact hx (Or.inl ⟨rfl, by omega, by omega⟩)
        · rw [htd, hlo1, ← Nat.add_assoc, ← Nat.add_assoc]
          exact fun h => hx1 (Or.inr (by rw [Nat.add_assoc] at h ⊢; exact h))

theorem first_fit_spec {s : Heap} {cs : List Chunk} (hr : Rep s cs) (csz : Nat) :
    ∃ s', first_fit s csz =
        some (if (fit csz cs).2.isSome then s.heap_lo + total (fit csz cs).1 else 0, s') ∧
      same_arena s s' ∧ Rep s' (fit_layout csz cs) ∧
      (∀ x, ¬ in_free s.heap_lo cs x → s'.mem x = s.mem x) := by
  have hlen := length_le_total hr.2.2.1
  have htot := hr.2.2.2
  obtain ⟨s', e, ha, hr', hfr⟩ := first_fit_loop_spec csz (s.heap_size + 1) s [] cs
    (mem_heap_lo s) hr (by omega) (Or.inl rfl)
  exact ⟨s', e, ha, hr', hfr⟩

theorem fit_found_le (csz : Nat) : ∀ (n : Nat) (cs : List Chunk), cs.length ≤ n →
    ∀ sz rest, (fit csz cs).2 = some (sz, rest) → csz ≤ sz
  | _, [], _, sz, rest, h => by simp [fit_nil] at h
  | 0, _ :: _, hl, _, _, _ => by simp at hl
  | n + 1, (a, true) :: cs, hl, sz, rest, h => by
    rw [fit_cons_allocated] at h
    exact fit_found_le csz n cs (by simp at hl; omega) sz rest h
  | n + 1, (a, false) :: cs, hl, sz, rest, h => by
    rw [fit_cons_free] at h
    split at h
    · simp only [Option.some.injEq, Prod.mk.injEq] at h
      omega
    · exact fit_found_le csz n _ (by
        have := (List.dropWhile_sublist is_free (l := cs)).length_le
        simp at hl; omega) sz rest h

theorem align_small {n : Nat} (h : n + 32 ≤ 2 ^ 64) :
    align n = (n + 15) / 16 * 16 ∧ align (align n) = align n ∧
      (hdr_size + align n) % 2 ^ 64 = hdr_size + align n ∧ n ≤ align n ∧
      align n % 16 = 0 ∧ hdr_size + align n + 16 ≤ 2 ^ 64 := by
  unfold align hdr_size
  omega

theorem align_facts (n : Nat) :
    align (align n) = align n ∧ align n % 16 = 0 ∧ align n + 16 ≤ 2 ^ 64 := by
  unfold align
  omega

theorem align_of_aligned {c : Nat} (h : c % 16 = 0) (hlt : c < 2 ^ 64) : align c = c := by
  unfold align
  omega

theorem ask_os_for_chunk_spec {s : Heap} {cs : List Chunk} {csz : Nat} (hr : Rep s cs)
    (h16 : 16 ≤ csz) (hm : csz % 16 = 0) (hfits : s.heap_size + csz ≤ s.heap_max) :
    ∃ s', ask_os_for_chunk s csz = some (s.heap_lo + s.heap_size, s') ∧
      s'.heap_lo = s.heap_lo ∧ s'.heap_size = s.heap_size + csz ∧ s'.heap_max = s.heap_max ∧
      Rep s' (cs ++ [(csz, false)]) ∧
      (∀ x, x < s.heap_lo + s.heap_size → s'.mem x = s.mem x) := by
  obtain ⟨⟨a1, a2, a3⟩, t, so, tt⟩ := hr
  have hal : align csz = csz := align_of_aligned hm (by omega)
  refine ⟨⟨s.heap_lo, s.heap_size + csz, s.heap_max, store_allocated
    (store_size s.mem (s.heap_lo + s.heap_size) csz) (s.heap_lo + s.heap_size) false⟩,
    ?_, rfl, rfl, rfl, ?_, ?_⟩
  · unfold ask_os_for_chunk mem_sbrk
    rw [hal, if_pos hfits]
    rfl
  · refine ⟨⟨a1, hfits, a3⟩, ?_, ?_, ?_⟩
    · rw [Tiled_append]
      dsimp only
      refine ⟨Tiled_congr _ _ so (fun x _ hx => ?_) t, ?_, ?_, trivial⟩
      · show store_allocated (store_size _ _ _) _ _ x = s.mem x
        rw [store_allocated_other _ _ _ _ (by omega), store_size_other _ _ _ _ (by omega)]
      · show load_size (store_allocated (store_size _ _ _) _ _) _ = csz
        rw [tt]
        have e : load_size (store_size s.mem (s.heap_lo + s.heap_size) csz)
            (s.heap_lo + s.heap_size) = csz := by
          rw [load_size_store_size]
          exact Nat.mod_eq_of_lt (by omega)
        exact Eq.trans (load_size_congr
          (fun x _ _ => store_allocated_other _ _ _ _ (by omega))) e
      · show load_allocated (store_allocated (store_size _ _ _) _ _) _ = false
        rw [tt]
        exact load_allocated_store_allocated _ _ _
    · rw [sizes_ok_append]
      refine ⟨so, fun c hc => ?_⟩
      simp only [List.mem_singleton] at hc
      subst hc
      exact ⟨h16, hm⟩
    · rw [total_append]
      simp only [total]
      omega
  · intro x hx
    dsimp only at hx ⊢
    show store_allocated (store_size _ _ _) _ _ x = s.mem x
    rw [store_allocated_other _ _ _ _ (by omega), store_size_other _ _ _ _ (by omega)]

theorem fit_layout_nil (csz : Nat) : fit_layout csz [] = [] := by
  simp [fit_layout, fit_nil]

theorem fit_layout_cons_allocated (csz sz : Nat) (cs : List Chunk) :
    fit_layout csz ((sz, true) :: cs) = (sz, true) :: fit_layout csz cs := by
  simp [fit_layout, fit_cons_allocated]

theorem fit_layout_cons_free (csz sz : Nat) (cs : List Chunk) :
    fit_layout csz ((sz, false) :: cs) =
      (sz + total (cs.takeWhile is_free), false) ::
        (if csz ≤ sz + total (cs.takeWhile is_free) then cs.dropWhile is_free
         else fit_layout csz (cs.dropWhile is_free)) := by
  unfold fit_layout
  rw [fit_cons_free]
  split <;> simp

theorem in_free_all_free : ∀ (run : List Chunk) (a x : Nat), (∀ c ∈ run, c.2 = false) →
    (in_free a run x ↔ a ≤ x ∧ x < a + total run)
  | [], a, x, _ => by
    simp only [in_free, total]
    constructor
    · exact False.elim
    · intro h'; omega
  | c :: run, a, x, h => by
    have hc : c.2 = false := h c (List.mem_cons_self _ _)
    have ih := in_free_all_free run (a + c.1) x (fun d hd => h d (List.mem_cons_of_mem _ hd))
    simp only [in_free, total, ih, hc, true_and]
    constructor <;> intro h' <;> omega

theorem in_free_merge (sz a x : Nat) (cs : List Chunk) :
    in_free a ((sz, false) :: cs) x ↔
      (a ≤ x ∧ x < a + (sz + total (cs.takeWhile is_free))) ∨
        in_free (a + (sz + total (cs.takeWhile is_free))) (cs.dropWhile is_free) x := by
  have hsplit : cs.takeWhile is_free ++ cs.dropWhile is_free = cs :=
    List.takeWhile_append_dropWhile _ _
  have h1 : in_free a ((sz, false) :: cs) x ↔
      (a ≤ x ∧ x < a + sz) ∨ in_free (a + sz) cs x := by
    simp only [in_free, true_and]
  rw [h1]
  nth_rewrite 1 [← hsplit]
  rw [in_free_append, in_free_all_free _ _ _ takeWhile_free, Nat.add_assoc]
  constructor
  · rintro (h | h | h)
    · left; omega
    · left; omega
    · right; exact h
  · rintro (h | h)
    · by_cases hx : x < a + sz
      · left; omega
      · right; left; omega
    · right; right; exact h

theorem in_free_fit_layout (csz : Nat) : ∀ (n : Nat) (cs : List Chunk), cs.length ≤ n →
    ∀ a x, in_free a (fit_layout csz cs) x ↔ in_free a cs x
  | _, [], _, a, x => by rw [fit_layout_nil]
  | 0, _ :: _, hl, _, _ => by simp at hl
  | n + 1, (sz, true) :: cs, hl, a, x => by
    rw [fit_layout_cons_allocated]
    simp only [in_free]
    rw [in_free_fit_layout csz n cs (by simp at hl; omega)]
  | n + 1, (sz, false) :: cs, hl, a, x => by
    rw [fit_layout_cons_free, in_free_merge sz a x cs]
    simp only [in_free, true_and]
    split
    · rfl
    · rw [in_free_fit_layout csz n _ (by
        have := (List.dropWhile_sublist is_free (l := cs)).length_le
        simp at hl; omega)]

/-! ## Allocation -/

theorem Rep_set_allocated_at {s : Heap} {pre post : List Chunk} {sz : Nat} {al : Bool}
    (hr : Rep s (pre ++ (sz, al) :: post)) (b : Bool) (h : Nat)
    (hh : h = s.heap_lo + total pre) :
    Rep { s with mem := store_allocated s.mem h b } (pre ++ (sz, b) :: post) := by
  subst hh
  exact Rep_set_allocated hr b

theorem mm_malloc_spec {s : Heap} {cs : List Chunk} {n : Nat} (hr : Rep s cs)
    (hn : align n + 32 ≤ 2 ^ 64)
    (hgrow : (fit (hdr_size + align n) cs).2.isSome ∨
      s.heap_size + (hdr_size + align n) ≤ s.heap_max) :
    ∃ s', mm_malloc s n =
        some (s.heap_lo + total (fit (hdr_size + align n) cs).1 + hdr_size, s') ∧
      s'.heap_lo = s.heap_lo ∧ s'.heap_max = s.heap_max ∧
      s'.heap_size = (if (fit (hdr_size + align n) cs).2.isSome then s.heap_size
        else s.heap_size + (hdr_size + align n)) ∧
      Rep s' (malloc_layout (hdr_size + align n) cs) ∧
      (∀ x, ¬ in_free s.heap_lo cs x → x < s.heap_lo + s.heap_size →
        s'.mem x = s.mem x) := by
  obtain ⟨hidem, ham, -⟩ := align_facts n
  have hmod : (hdr_size + align n) % 2 ^ 64 = hdr_size + align n := by
    unfold hdr_size; omega
  have c16 : 16 ≤ hdr_size + align n := by unfold hdr_size; omega
  have cm : (hdr_size + align n) % 16 = 0 := by unfold hdr_size; omega
  obtain ⟨s1, e1, ⟨hlo1, hsz1, hmx1⟩, hr1, hfr1⟩ := first_fit_spec hr (hdr_size + align n)
  have hunf : mm_malloc s n =
      match (if (if (fit (hdr_size + align n) cs).2.isSome then
          s.heap_lo + total (fit (hdr_size + align n) cs).1 else 0) = 0
        then ask_os_for_chunk s1 (hdr_size + align n)
        else some (if (fit (hdr_size + align n) cs).2.isSome then
          s.heap_lo + total (fit (hdr_size + align n) cs).1 else 0, s1)) with
      | none => none
      | some (p, s2) =>
        some (p + hdr_size,
          { split s2 p (hdr_size + align n) with
            mem := store_allocated (split s2 p (hdr_size + align n)).mem p true }) := by
    unfold mm_malloc
    simp only [hidem, hmod, e1]
  rw [hunf]
  have hlo := hr.1.1
  cases hfit : (fit (hdr_size + align n) cs).2 with
  | none =>
    simp only [hfit, Option.isSome_none, Bool.false_eq_true, if_false, if_true] at hgrow ⊢
    have hr1' : Rep s1 (fit (hdr_size + align n) cs).1 := by
      simpa [fit_layout, hfit] using hr1
    have hcap : s1.heap_size + (hdr_size + align n) ≤ s1.heap_max := by
      rcases hgrow with h | h
      · exact absurd h (by simp)
      · omega
    obtain ⟨s2, e2, hlo2, hsz2, hmx2, hr2, hfr2⟩ := ask_os_for_chunk_spec hr1' c16 cm hcap
    have hp : s1.heap_lo + s1.heap_size =
        s2.heap_lo + total (fit (hdr_size + align n) cs).1 := by
      rw [hlo2, hr1'.2.2.2]
    have hnosplit := (split_spec hr2 c16 cm (Nat.le_refl _)).2.2.2.2 (by omega)
    rw [e2]
    simp only []
    rw [hp, hnosplit]
    refine ⟨⟨s2.heap_lo, s2.heap_size, s2.heap_max, store_allocated s2.mem
      (s2.heap_lo + total (fit (hdr_size + align n) cs).1) true⟩, ?_, ?_, ?_, ?_, ?_, ?_⟩
    · rw [hlo2, hlo1]
    · exact hlo2.trans hlo1
    · exact hmx2.trans hmx1
    · show s2.heap_size = _
      omega
    · have := Rep_set_allocated hr2 true
      simpa [malloc_layout, hfit] using this
    · intro x hx hlt
      show store_allocated s2.mem _ true x = s.mem x
      rw [store_allocated_other _ _ _ _ (by rw [← hp]; omega), hfr2 x (by omega),
        hfr1 x hx]
  | some r =>
    obtain ⟨sz, rest⟩ := r
    have hle := fit_found_le _ _ cs (Nat.le_refl _) sz rest hfit
    have hr1' : Rep s1 ((fit (hdr_size + align n) cs).1 ++ (sz, false) :: rest) := by
      simpa [fit_layout, hfit] using hr1
    have hp : s.heap_lo + total (fit (hdr_size + align n) cs).1 =
        s1.heap_lo + total (fit (hdr_size + align n) cs).1 := by rw [hlo1]
    have hne : ¬ (s.heap_lo + total (fit (hdr_size + align n) cs).1 = 0) := by omega
    simp only [hfit, Option.isSome_some, if_true, if_neg hne]
    obtain ⟨⟨hlo2, hsz2, hmx2⟩, hfro, hfri, hsp1, hsp2⟩ := split_spec hr1' c16 cm hle
    obtain ⟨g1, g2, g16, -, gend, -⟩ := Rep_header hr1'
    simp only [] at g1 g2 g16 gend
    have hinfree : ∀ x, s1.heap_lo + total (fit (hdr_size + align n) cs).1 ≤ x →
        x < s1.heap_lo + total (fit (hdr_size + align n) cs).1 + sz →
        in_free s.heap_lo cs x := by
      intro x hx1 hx2
      rw [← in_free_fit_layout (hdr_size + align n) _ cs (Nat.le_refl _)]
      unfold fit_layout
      rw [hfit, in_free_append, hlo1.symm]
      exact Or.inr (Or.inl ⟨rfl, hx1, hx2⟩)
    rw [hp]
    refine ⟨_, rfl, ?_, ?_, ?_, ?_, ?_⟩
    · exact hlo2.trans hlo1
    · exact hmx2.trans hmx1
    · exact hsz2.trans hsz1
    · by_cases hc : hdr_size + align n + 32 ≤ sz
      · have h3 := Rep_set_allocated_at (hsp1 hc) true
          (s1.heap_lo + total (fit (hdr_size + align n) cs).1) (by rw [hlo2])
        simpa [malloc_layout, hfit, hc] using h3
      · rw [hsp2 (by omega)]
        have h3 := Rep_set_allocated hr1' true
        simpa [malloc_layout, hfit, hc] using h3
    · intro x hx hlt
      have hout : x < s1.heap_lo + total (fit (hdr_size + align n) cs).1 ∨
          s1.heap_lo + total (fit (hdr_size + align n) cs).1 + sz ≤ x := by
        by_contra hcon
        exact hx (hinfree x (by omega) (by omega))
      show store_allocated _ _ true x = s.mem x
      rw [store_allocated_other _ _ _ _ (by omega), hfro x hout, hfr1 x hx]

/-! ## The heap walk and the representation predicate -/

theorem Rep_nil_iff {s : Heap} {cs : List Chunk} (hr : Rep s cs) :
    cs = [] ↔ s.heap_size = 0 := by
  obtain ⟨_, _, so, tt⟩ := hr
  constructor
  · intro h
    subst h
    exact tt.symm
  · intro h
    cases cs with
    | nil => rfl
    | cons c cs =>
      have := (sizes_ok_cons.1 so).1.1
      simp only [total] at tt
      omega

theorem walk_Rep : ∀ (cs : List Chunk) (fuel : Nat) (s : Heap) (done : List Chunk)
    (cur : Nat), Rep s (done ++ cs) → cs.length < fuel →
    ((cs = [] ∧ cur = 0) ∨ (cs ≠ [] ∧ cur = s.heap_lo + total done)) →
    walk fuel s cur = addrs (s.heap_lo + total done) cs
  | [], fuel, s, done, cur, _, hf, hcur => by
    obtain ⟨f, rfl⟩ : ∃ f, fuel = f + 1 := ⟨fuel - 1, by simp at hf; omega⟩
    rcases hcur with ⟨_, h⟩ | ⟨h, _⟩
    · simp [walk, addrs, h]
    · exact absurd rfl h
  | c :: cs, fuel, s, done, cur, hr, hf, hcur => by
    obtain ⟨f, rfl⟩ : ∃ f, fuel = f + 1 := ⟨fuel - 1, by simp at hf; omega⟩
    have hc : cur = s.heap_lo + total done := by
      rcases hcur with ⟨h, _⟩ | ⟨_, h⟩
      · simp at h
      · exact h
    subst hc
    have hlo := hr.1.1
    have hr2 : Rep s ((done ++ [c]) ++ cs) := by
      rw [List.append_assoc]; exact hr
    have htd : total (done ++ [c]) = total done + c.1 := by
      simp [total_append, total]
    have ih := walk_Rep cs f s (done ++ [c]) (next_chunk s (s.heap_lo + total done)) hr2
      (by simp at hf; omega)
      (by
        rcases next_chunk_Rep hr with ⟨hp, hn⟩ | ⟨hp, hn⟩
        · exact Or.inl ⟨hp, hn⟩
        · exact Or.inr ⟨hp, by rw [hn, htd]; omega⟩)
    rw [walk, if_neg (by omega), ih, htd]
    simp only [addrs, Nat.add_assoc]

theorem heap_walk_Rep {s : Heap} {cs : List Chunk} (hr : Rep s cs) :
    heap_walk s = addrs s.heap_lo cs := by
  have hlen := length_le_total hr.2.2.1
  have htot := hr.2.2.2
  have hnil := Rep_nil_iff hr
  have h := walk_Rep cs (s.heap_size + 1) s [] (next_chunk s 0) hr (by omega)
    (by
      unfold next_chunk mem_heapsize mem_heap_lo
      by_cases h0 : s.heap_size = 0
      · left
        exact ⟨hnil.2 h0, by simp [h0]⟩
      · right
        exact ⟨fun h => h0 (hnil.1 h), by simp [h0, total]⟩)
  simpa [total] using h

theorem map_addrs_Tiled {m : Nat → Nat} : ∀ (cs : List Chunk) (a : Nat), Tiled m a cs →
    (addrs a cs).map (fun h => (load_size m h, load_allocated m h)) = cs
  | [], _, _ => rfl
  | c :: cs, a, ⟨h1, h2, h3⟩ => by
    simp only [addrs, List.map_cons, h1, h2, map_addrs_Tiled cs _ h3]

theorem chunks_Rep {s : Heap} {cs : List Chunk} (hr : Rep s cs) : chunks s = cs := by
  unfold chunks
  rw [heap_walk_Rep hr]
  exact map_addrs_Tiled cs _ hr.2.1

theorem Tiled_walk (s : Heap) : ∀ (fuel cur : Nat),
    Tiled s.mem cur ((walk fuel s cur).map
      (fun h => (load_size s.mem h, load_allocated s.mem h)))
  | 0, _ => trivial
  | f + 1, cur => by
    rw [walk]
    by_cases h0 : cur = 0
    · rw [if_pos h0]
      trivial
    · rw [if_neg h0]
      refine ⟨rfl, rfl, ?_⟩
      have ih := Tiled_walk s f (next_chunk s cur)
      by_cases hn : next_chunk s cur = 0
      · rw [hn]
        cases f <;> simp [walk, Tiled]
      · have : next_chunk s cur = cur + load_size s.mem cur := by
          unfold next_chunk at hn ⊢
          rw [if_neg h0] at hn ⊢
          split at hn
          · exact absurd rfl hn
          · rename_i h
            rw [if_neg h]
        show Tiled s.mem (cur + load_size s.mem cur) _
        rw [← this]
        exact ih

theorem well_formed_Rep {s : Heap} (h : well_formed s) : Rep s (chunks s) := by
  obtain ⟨ha, hs, ht⟩ := h
  refine ⟨ha, ?_, hs, ht⟩
  unfold chunks heap_walk
  by_cases h0 : s.heap_size = 0
  · have : next_chunk s 0 = 0 := by simp [next_chunk, mem_heapsize, h0]
    rw [this]
    simp [walk, Tiled]
  · have : next_chunk s 0 = s.heap_lo := by simp [next_chunk, mem_heapsize, mem_heap_lo, h0]
    rw [this]
    exact Tiled_walk s _ _

theorem Rep_iff_well_formed {s : Heap} {cs : List Chunk} :
    Rep s cs ↔ well_formed s ∧ chunks s = cs := by
  constructor
  · intro hr
    have hc := chunks_Rep hr
    refine ⟨⟨hr.1, ?_, ?_⟩, hc⟩
    · rw [hc]; exact hr.2.2.1
    · rw [hc]; exact hr.2.2.2
  · rintro ⟨hw, rfl⟩
    exact well_formed_Rep hw

theorem mem_addrs : ∀ (cs : List Chunk) (a h : Nat), h ∈ addrs a cs →
    ∃ pre c post, cs = pre ++ c :: post ∧ h = a + total pre
  | [], _, _, hm => by simp [addrs] at hm
  | c :: cs, a, h, hm => by
    simp only [addrs, List.mem_cons] at hm
    rcases hm with rfl | hm
    · exact ⟨[], c, cs, rfl, by simp [total]⟩
    · obtain ⟨pre, d, post, e, hh⟩ := mem_addrs cs _ h hm
      refine ⟨c :: pre, d, post, by rw [e]; rfl, ?_⟩
      simp only [total]
      omega

theorem live_Rep {s : Heap} {cs : List Chunk} {p : Nat} (hr : Rep s cs)
    (hl : live s p = true) :
    ∃ pre sz post, cs = pre ++ (sz, true) :: post ∧ p = s.heap_lo + total pre + hdr_size := by
  unfold live at hl
  simp only [Bool.and_eq_true, decide_eq_true_eq] at hl
  obtain ⟨⟨h16, hm⟩, hal⟩ := hl
  rw [heap_walk_Rep hr] at hm
  obtain ⟨pre, c, post, e, hh⟩ := mem_addrs cs _ _ hm
  subst e
  obtain ⟨_, h2, _⟩ := Rep_header hr
  rw [← hh, hal] at h2
  refine ⟨pre, c.1, post, ?_, ?_⟩
  · rw [h2]
  · unfold payload2header at hh
    omega

/-! ## The auditor -/

theorem checkheap_loop_spec : ∀ (cs : List Chunk) (fuel : Nat) (s : Heap)
    (done : List Chunk) (cur : Nat) (info : heap_info_t),
    Rep s (done ++ cs) → cs.length < fuel →
    ((cs = [] ∧ cur = 0) ∨ (cs ≠ [] ∧ cur = s.heap_lo + total done)) →
    checkheap_loop fuel s cur info = some (audit cs info)
  | [], fuel, s, done, cur, info, _, hf, hcur => by
    obtain ⟨f, rfl⟩ : ∃ f, fuel = f + 1 := ⟨fuel - 1, by simp at hf; omega⟩
    rcases hcur with ⟨_, h⟩ | ⟨h, _⟩
    · simp [checkheap_loop, audit, h]
    · exact absurd rfl h
  | (sz, al) :: cs, fuel, s, done, cur, info, hr, hf, hcur => by
    obtain ⟨f, rfl⟩ : ∃ f, fuel = f + 1 := ⟨fuel - 1, by simp at hf; omega⟩
    have hc : cur = s.heap_lo + total done := by
      rcases hcur with ⟨h, _⟩ | ⟨_, h⟩
      · simp at h
      · exact h
    subst hc
    have hlo := hr.1.1
    obtain ⟨h1, h2, -⟩ := Rep_header hr
    simp only [] at h1 h2
    have hr2 : Rep s ((done ++ [(sz, al)]) ++ cs) := by
      rw [List.append_assoc]; exact hr
    have htd : total (done ++ [(sz, al)]) = total done + sz := by
      simp [total_append, total]
    have ih := fun info' => checkheap_loop_spec cs f s (done ++ [(sz, al)])
      (next_chunk s (s.heap_lo + total done)) info' hr2 (by simp at hf; omega)
      (by
        rcases next_chunk_Rep hr with ⟨hp, hn⟩ | ⟨hp, hn⟩
        · exact Or.inl ⟨hp, hn⟩
        · exact Or.inr ⟨hp, by rw [hn, htd]; simp only []; omega⟩)
    have hne : s.heap_lo + total done ≠ 0 := by omega
    rw [checkheap_loop, if_pos hne, h1, h2]
    cases al
    · simp only [if_true, ih, audit]
    · simp only [Bool.true_eq_false, if_false, ih, audit]

theorem audit_sizes : ∀ (cs : List Chunk) (info : heap_info_t),
    (audit cs info).allocated_size + (audit cs info).free_size =
      info.allocated_size + info.free_size + total cs
  | [], info => by simp [audit, total]
  | (sz, false) :: cs, info => by
    rw [audit, audit_sizes cs]
    simp only [total]
    omega
  | (sz, true) :: cs, info => by
    rw [audit, audit_sizes cs]
    simp only [total]
    omega

theorem mm_checkheap_spec {s : Heap} {cs : List Chunk} (hr : Rep s cs) (hne : cs ≠ []) :
    mm_checkheap s = some (audit cs ⟨0, 0, 0, 0⟩) := by
  have hlen := length_le_total hr.2.2.1
  have htot := hr.2.2.2
  have h := checkheap_loop_spec cs (s.heap_size + 2) s [] (mem_heap_lo s) ⟨0, 0, 0, 0⟩ hr
    (by omega) (Or.inr ⟨hne, by simp [mem_heap_lo, total]⟩)
  have hsum := audit_sizes cs ⟨0, 0, 0, 0⟩
  simp only [Nat.zero_add] at hsum
  unfold mm_checkheap checkheap_scan
  rw [h]
  simp only [mem_heapsize]
  rw [if_pos (by omega)]

/-! ## Allocated chunks under the first-fit scan -/

theorem takeWhile_append_allocated (A B : List Chunk) (T : Nat) :
    (A ++ (T, true) :: B).takeWhile is_free = A.takeWhile is_free := by
  induction A with
  | nil => simp [List.takeWhile, is_free]
  | cons a A ih =>
    simp only [List.cons_append, List.takeWhile_cons, ih]

theorem dropWhile_append_allocated (A B : List Chunk) (T : Nat) :
    (A ++ (T, true) :: B).dropWhile is_free = A.dropWhile is_free ++ (T, true) :: B := by
  induction A with
  | nil => simp [List.dropWhile, is_free]
  | cons a A ih =>
    simp only [List.cons_append, List.dropWhile_cons, ih]
    split <;> rfl

theorem total_takeWhile_dropWhile (cs : List Chunk) :
    total (cs.takeWhile is_free) + total (cs.dropWhile is_free) = total cs := by
  rw [← total_append, List.takeWhile_append_dropWhile]

theorem malloc_layout_nil (csz : Nat) : malloc_layout csz [] = [(csz, true)] := by
  simp [malloc_layout, fit_nil]

theorem malloc_layout_cons_allocated (csz sz : Nat) (cs : List Chunk) :
    malloc_layout csz ((sz, true) :: cs) = (sz, true) :: malloc_layout csz cs := by
  simp [malloc_layout, fit_cons_allocated]

theorem malloc_layout_cons_free (csz sz : Nat) (cs : List Chunk) :
    malloc_layout csz ((sz, false) :: cs) =
      if csz ≤ sz + total (cs.takeWhile is_free) then
        (if csz + 32 ≤ sz + total (cs.takeWhile is_free) then
          (csz, true) :: (sz + total (cs.takeWhile is_free) - csz, false) ::
            cs.dropWhile is_free
         else (sz + total (cs.takeWhile is_free), true) :: cs.dropWhile is_free)
      else (sz + total (cs.takeWhile is_free), false) ::
        malloc_layout csz (cs.dropWhile is_free) := by
  unfold malloc_layout
  rw [fit_cons_free]
  split <;> simp

theorem malloc_layout_keeps_allocated (csz T : Nat) (B : List Chunk) :
    ∀ (n : Nat) (A : List Chunk), A.length ≤ n →
    ∃ X Y, malloc_layout csz (A ++ (T, true) :: B) = X ++ (T, true) :: Y ∧
      total X = total A
  | _, [], _ => by
    refine ⟨[], malloc_layout csz B, ?_, rfl⟩
    rw [List.nil_append, malloc_layout_cons_allocated]
    rfl
  | 0, _ :: _, hl => by simp at hl
  | n + 1, (a, true) :: A, hl => by
    obtain ⟨X, Y, e, ht⟩ := malloc_layout_keeps_allocated csz T B n A (by simp at hl; omega)
    refine ⟨(a, true) :: X, Y, ?_, by simp only [total, ht]⟩
    rw [List.cons_append, malloc_layout_cons_allocated, e]
    rfl
  | n + 1, (a, false) :: A, hl => by
    have hsum := total_takeWhile_dropWhile A
    rw [List.cons_append, malloc_layout_cons_free, takeWhile_append_allocated,
      dropWhile_append_allocated]
    split
    · split
      · refine ⟨(csz, true) :: (a + total (A.takeWhile is_free) - csz, false) ::
          A.dropWhile is_free, B, rfl, ?_⟩
        simp only [total]
        omega
      · refine ⟨(a + total (A.takeWhile is_free), true) :: A.dropWhile is_free, B, rfl, ?_⟩
        simp only [total]
        omega
    · obtain ⟨X, Y, e, ht⟩ := malloc_layout_keeps_allocated csz T B n (A.dropWhile is_free)
        (by
          have := (List.dropWhile_sublist is_free (l := A)).length_le
          simp at hl; omega)
      refine ⟨(a + total (A.takeWhile is_free), false) :: X, Y, ?_, ?_⟩
      · rw [e]; rfl
      · simp only [total, ht]
        omega

theorem malloc_layout_new_chunk (csz : Nat) (cs : List Chunk) :
    ∃ c B, malloc_layout csz cs = (fit csz cs).1 ++ (c, true) :: B ∧ csz ≤ c := by
  unfold malloc_layout
  cases hfit : (fit csz cs).2 with
  | none => exact ⟨csz, [], rfl, Nat.le_refl _⟩
  | some r =>
    obtain ⟨sz, rest⟩ := r
    have hle := fit_found_le csz _ cs (Nat.le_refl _) sz rest hfit
    by_cases hc : csz + 32 ≤ sz
    · exact ⟨csz, (sz - csz, false) :: rest, by simp [hc], Nat.le_refl _⟩
    · exact ⟨sz, rest, by simp [hc], hle⟩

theorem chunks_apart : ∀ (A X B Y : List Chunk) (c d : Chunk),
    A ++ c :: B = X ++ d :: Y → sizes_ok (A ++ c :: B) → total A < total X →
    total A + c.1 ≤ total X
  | [], [], _, _, _, _, _, _, h => by simp [total] at h
  | [], x :: X, B, Y, c, d, e, _, _ => by
    simp only [List.nil_append, List.cons_append, List.cons.injEq] at e
    simp only [total, e.1]
    omega
  | a :: A, [], _, _, _, _, _, _, h => by simp [total] at h
  | a :: A, x :: X, B, Y, c, d, e, hs, h => by
    simp only [List.cons_append, List.cons.injEq] at e
    have := chunks_apart A X B Y c d e.2 (sizes_ok_cons.1 hs).2
      (by simp only [total, e.1] at h; omega)
    simp only [total, e.1]
    omega

theorem chunks_same : ∀ (A X B Y : List Chunk) (c d : Chunk),
    A ++ c :: B = X ++ d :: Y → sizes_ok (A ++ c :: B) → total A = total X → c = d
  | [], [], _, _, _, _, e, _, _ => by
    simp only [List.nil_append, List.cons.injEq] at e
    exact e.1
  | [], x :: X, B, Y, c, d, e, hs, h => by
    simp only [List.nil_append, List.cons_append, List.cons.injEq] at e
    have := (sizes_ok_cons.1 hs).1.1
    simp only [total] at h
    rw [e.1] at this
    omega
  | a :: A, [], B, Y, c, d, e, hs, h => by
    have := (sizes_ok_cons.1 hs).1.1
    simp only [total] at h
    omega
  | a :: A, x :: X, B, Y, c, d, e, hs, h => by
    simp only [List.cons_append, List.cons.injEq] at e
    exact chunks_same A X B Y c d e.2 (sizes_ok_cons.1 hs).2
      (by simp only [total, e.1] at h; omega)

theorem not_in_free_allocated {A B : List Chunk} {T a x : Nat}
    (h1 : a + total A ≤ x) (h2 : x < a + total A + T) :
    ¬ in_free a (A ++ (T, true) :: B) x := by
  rw [in_free_append]
  rintro (h | h)
  · have := in_free_range _ _ _ h
    omega
  · rcases h with ⟨hf, _⟩ | h
    · simp at hf
    · have := in_free_range _ _ _ h
      omega

/-! ## Resizing -/

theorem Rep_payload_write {s s' : Heap} {A B : List Chunk} {c : Chunk}
    (hr : Rep s (A ++ c :: B)) (ha : same_arena s s')
    (hfr : ∀ x, x < s.heap_lo + total A + 9 ∨ s.heap_lo + total A + c.1 ≤ x →
      s'.mem x = s.mem x) :
    Rep s' (A ++ c :: B) := by
  obtain ⟨h1, h2, h16, hm, -⟩ := Rep_header hr
  have key : Rep s' (A ++ ([c] ++ B)) := by
    refine Rep_replace (u := [c]) hr ha rfl ?_ ?_ ?_
    · intro d hd
      simp only [List.mem_singleton] at hd
      subst hd
      exact ⟨h16, hm⟩
    · intro x hx
      simp only [total] at hx
      exact hfr x (by omega)
    · refine ⟨?_, ?_, trivial⟩
      · rw [← h1]
        exact load_size_congr (fun x _ _ => hfr x (by omega))
      · rw [← h2]
        exact load_allocated_congr (hfr _ (by omega))
  exact key

theorem mm_realloc_in_place {s : Heap} {pre post : List Chunk} {sz M : Nat}
    (hr : Rep s (pre ++ (sz, true) :: post)) (ha0 : ¬ (align M = 0))
    (hb : align M + 32 ≤ 2 ^ 64)
    (hT : hdr_size + align M ≤ sz + total (post.takeWhile is_free)) :
    ∃ s', mm_realloc s (s.heap_lo + total pre + hdr_size) M =
        some (s.heap_lo + total pre + hdr_size, s') ∧ same_arena s s' ∧
      Rep s' (pre ++
        (if hdr_size + align M + 32 ≤ sz + total (post.takeWhile is_free) then
          (hdr_size + align M, true) ::
            (sz + total (post.takeWhile is_free) - (hdr_size + align M), false) ::
            post.dropWhile is_free
         else (sz + total (post.takeWhile is_free), true) :: post.dropWhile is_free)) ∧
      (∀ x, x < s.heap_lo + total pre ∨
          (s.heap_lo + total pre + 8 ≤ x ∧ x < s.heap_lo + total pre + (hdr_size + align M)) ∨
          s.heap_lo + total pre + (sz + total (post.takeWhile is_free)) ≤ x →
        s'.mem x = s.mem x) := by
  obtain ⟨-, ham, -⟩ := align_facts M
  have c16 : 16 ≤ hdr_size + align M := by unfold hdr_size; omega
  have cm : (hdr_size + align M) % 16 = 0 := by unfold hdr_size; omega
  have hmod : (align M + hdr_size) % 2 ^ 64 = hdr_size + align M := by
    unfold hdr_size; omega
  obtain ⟨s1, e1, ⟨hlo1, hsz1, hmx1⟩, hr1, hfr1⟩ := coalesce_spec hr
  obtain ⟨g1, -⟩ := Rep_header hr1
  simp only [] at g1
  rw [hlo1] at g1
  have hlo := hr.1.1
  have hp : ¬ (s.heap_lo + total pre + hdr_size = 0) := by omega
  have hunf : mm_realloc s (s.heap_lo + total pre + hdr_size) M =
      some (s.heap_lo + total pre + hdr_size,
        split s1 (s.heap_lo + total pre) (hdr_size + align M)) := by
    unfold mm_realloc payload2header
    simp only [if_neg hp, if_neg ha0, Nat.add_sub_cancel, e1, g1, hmod]
    rw [if_neg (by omega)]
  obtain ⟨⟨hlo2, hsz2, hmx2⟩, hfro, hfri, hsp1, hsp2⟩ := split_spec hr1 c16 cm hT
  rw [hlo1] at hfro hfri hsp1 hsp2 hlo2 hsz2 hmx2
  refine ⟨_, hunf, ⟨hlo2, hsz2.trans hsz1, hmx2.trans hmx1⟩, ?_, ?_⟩
  · by_cases hc : hdr_size + align M + 32 ≤ sz + total (post.takeWhile is_free)
    · rw [if_pos hc]
      exact hsp1 hc
    · rw [if_neg hc, hsp2 (by omega)]
      exact hr1
  · intro x hx
    rcases hx with hx | ⟨hx1, hx2⟩ | hx
    · rw [hfro x (Or.inl hx), hfr1 x (Or.inl hx)]
    · rw [hfri x hx1 hx2, hfr1 x (Or.inr hx1)]
    · rw [hfro x (Or.inr hx), hfr1 x (Or.inr (by omega))]

theorem mm_realloc_move {s : Heap} {pre post : List Chunk} {sz M : Nat}
    (hr : Rep s (pre ++ (sz, true) :: post)) (ha0 : ¬ (align M = 0))
    (hb' : align M + 32 ≤ 2 ^ 64)
    (hT : sz + total (post.takeWhile is_free) < hdr_size + align M)
    (hgrow : (fit (hdr_size + align M) (pre ++ (sz + total (post.takeWhile is_free), true) ::
        post.dropWhile is_free)).2.isSome ∨
      s.heap_size + (hdr_size + align M) ≤ s.heap_max) :
    ∃ s' cs' A c X Y T',
      mm_realloc s (s.heap_lo + total pre + hdr_size) M =
        some (s.heap_lo + total A + hdr_size, s') ∧
      Rep s' cs' ∧ s'.heap_lo = s.heap_lo ∧ s'.heap_max = s.heap_max ∧
      s.heap_size ≤ s'.heap_size ∧
      load_size s'.mem (s.heap_lo + total A) = c ∧
      load_allocated s'.mem (s.heap_lo + total A) = true ∧ hdr_size + align M ≤ c ∧
      cs' = X ++ (T', false) :: Y ∧ total X = total pre ∧
      total A ≠ total pre ∧
      (∀ i, i < sz - hdr_size →
        s'.mem (s.heap_lo + total A + hdr_size + i) =
          s.mem (s.heap_lo + total pre + hdr_size + i)) := by
  have h16 : hdr_size = 16 := rfl
  obtain ⟨hidem, ham, -⟩ := align_facts M
  have hmod : (align M + hdr_size) % 2 ^ 64 = hdr_size + align M := by
    unfold hdr_size; omega
  obtain ⟨s1, e1, ⟨hlo1, hsz1, hmx1⟩, hr1, hfr1⟩ := coalesce_spec hr
  obtain ⟨f1, -, f16, -, fend, hlo, -⟩ := Rep_header hr
  simp only [] at f1 f16 fend
  obtain ⟨g1, -, -, -, gend, -⟩ := Rep_header hr1
  simp only [] at g1 gend
  rw [hlo1] at g1
  have hms := mm_malloc_spec (n := align M) hr1 (by rw [hidem]; exact hb')
    (by rw [hidem, hsz1, hmx1]; exact hgrow)
  rw [hidem] at hms
  obtain ⟨s2, e2, hlo2, hmx2, hsz2, hr2, hfr2⟩ := hms
  obtain ⟨c, B, eL, hc⟩ := malloc_layout_new_chunk (hdr_size + align M)
    (pre ++ (sz + total (post.takeWhile is_free), true) :: post.dropWhile is_free)
  obtain ⟨X, Y, eX, hX⟩ := malloc_layout_keeps_allocated (hdr_size + align M)
    (sz + total (post.takeWhile is_free)) (post.dropWhile is_free) _ pre (Nat.le_refl _)
  have hs2 := hr2.2.2.1
  have hneq : total (fit (hdr_size + align M)
      (pre ++ (sz + total (post.takeWhile is_free), true) :: post.dropWhile is_free)).1 ≠
      total X := by
    intro h
    have := chunks_same _ X B Y (c, true) (sz + total (post.takeWhile is_free), true)
      (eL.symm.trans eX) (by rw [← eL]; exact hs2) h
    simp only [Prod.mk.injEq, and_true] at this
    omega
  have hdis : total (fit (hdr_size + align M)
      (pre ++ (sz + total (post.takeWhile is_free), true) :: post.dropWhile is_free)).1 + c ≤
        total X ∨
      total X + (sz + total (post.takeWhile is_free)) ≤ total (fit (hdr_size + align M)
      (pre ++ (sz + total (post.takeWhile is_free), true) :: post.dropWhile is_free)).1 := by
    rcases Nat.lt_or_gt_of_ne hneq with h | h
    · left
      exact chunks_apart _ X B Y (c, true) (sz + total (post.takeWhile is_free), true)
        (eL.symm.trans eX) (by rw [← eL]; exact hs2) h
    · right
      exact chunks_apart X _ Y B (sz + total (post.takeWhile is_free), true) (c, true)
        (eX.symm.trans eL) (by rw [← eX]; exact hs2) h
  generalize hA : (fit (hdr_size + align M)
      (pre ++ (sz + total (post.takeWhile is_free), true) :: post.dropWhile is_free)).1 = A
      at e2 eL hneq hdis
  rw [eL] at hr2
  have hr3 : Rep { s2 with mem := (memcpy s2.mem (s1.heap_lo + total A + hdr_size)
      (s.heap_lo + total pre + hdr_size) (sz - 16)) } (A ++ (c, true) :: B) := by
    refine Rep_payload_write hr2 ⟨rfl, rfl, rfl⟩ (fun x hx => ?_)
    show memcpy _ _ _ _ x = s2.mem x
    unfold memcpy
    rw [if_neg]
    rw [hlo2] at hx
    simp only [h16] at hx hc hT ⊢
    omega
  obtain ⟨k1, k2, -⟩ := Rep_header hr3
  simp only [] at k1 k2
  have hr3X := hr3
  rw [← eL, eX] at hr3X
  obtain ⟨s4, e4, ⟨hlo4, hsz4, hmx4⟩, hr4, hfr4⟩ := mm_free_spec hr3X
  simp only [] at e4 hlo4 hsz4 hmx4 hfr4
  have hpp : s2.heap_lo + total X + hdr_size = s.heap_lo + total pre + hdr_size := by
    rw [hlo2, hlo1, hX]
  rw [hpp] at e4
  rw [hlo2, hlo1, hX] at hfr4
  rw [hlo2, hlo1] at k1 k2
  have hp : ¬ (s.heap_lo + total pre + hdr_size = 0) := by omega
  have hsub : (sz + 2 ^ 64 - 16) % 2 ^ 64 = sz - 16 := by
    have := load_size_lt s.mem (s.heap_lo + total pre)
    omega
  have hq : s1.heap_lo + total A + hdr_size - hdr_size + hdr_size =
      s1.heap_lo + total A + hdr_size := by omega
  have hunf : mm_realloc s (s.heap_lo + total pre + hdr_size) M =
      some (s1.heap_lo + total A + hdr_size, s4) := by
    unfold mm_realloc payload2header
    simp only [if_neg hp, if_neg ha0, Nat.add_sub_cancel, e1, g1, hmod, if_pos hT, e2, f1,
      hsub, hq, e4]
  rw [hlo1] at hunf
  have hsz2' : s.heap_size ≤ s2.heap_size := by
    rw [hsz2]
    split <;> omega
  rw [hX] at hdis hneq
  simp only [h16] at hc hT hdis ⊢
  have hmem : ∀ x, s.heap_lo + total A ≤ x → x < s.heap_lo + total A + c →
      s4.mem x = memcpy s2.mem (s.heap_lo + total A + 16) (s.heap_lo + total pre + 16)
        (sz - 16) x := fun x hx1 hx2 => hfr4 x (by omega)
  refine ⟨s4, _, A, c, X, _, _, hunf, hr4, ?_, ?_, ?_, ?_, ?_, hc, rfl, hX, hneq, ?_⟩
  · rw [hlo4, hlo2, hlo1]
  · rw [hmx4, hmx2, hmx1]
  · rw [hsz4]; exact hsz2'
  · rw [← k1]
    exact load_size_congr (fun x hx1 hx2 => hmem x hx1 (by omega))
  · rw [← k2]
    exact load_allocated_congr (hmem _ (by omega) (by omega))
  · intro i hi
    rw [hmem _ (by omega) (by omega)]
    unfold memcpy
    rw [if_pos (by omega)]
    have e : s.heap_lo + total pre + 16 + (s.heap_lo + total A + 16 + i -
        (s.heap_lo + total A + 16)) = s.heap_lo + total pre + 16 + i := by omega
    rw [e, hfr2 _ (by rw [hlo1]; exact not_in_free_allocated (by omega) (by omega))
      (by rw [hlo1]; omega), hfr1 _ (Or.inr (by omega))]

theorem mm_malloc_none {s : Heap} {cs : List Chunk} {n : Nat} (hr : Rep s cs)
    (hn : align n + 32 ≤ 2 ^ 64)
    (hfit : (fit (hdr_size + align n) cs).2 = none)
    (hcap : s.heap_max < s.heap_size + (hdr_size + align n)) :
    mm_malloc s n = none := by
  obtain ⟨hidem, ham, -⟩ := align_facts n
  have hmod : (hdr_size + align n) % 2 ^ 64 = hdr_size + align n := by
    unfold hdr_size; omega
  have cm : (hdr_size + align n) % 16 = 0 := by unfold hdr_size; omega
  obtain ⟨s1, e1, ⟨hlo1, hsz1, hmx1⟩, -, -⟩ := first_fit_spec hr (hdr_size + align n)
  have hal : align (hdr_size + align n) = hdr_size + align n :=
    align_of_aligned cm (by unfold hdr_size; omega)
  unfold mm_malloc
  simp only [hidem, hmod, e1, hfit, Option.isSome_none, Bool.false_eq_true, if_false, if_true]
  unfold ask_os_for_chunk mem_sbrk
  rw [hal, if_neg (by omega)]

theorem mm_realloc_null (s : Heap) (n : Nat) :
    mm_realloc s 0 n = (mm_malloc s (align n)).map (fun r => (0, r.2)) := by
  unfold mm_realloc
  simp only [if_true]
  cases mm_malloc s (align n) <;> rfl

theorem mm_realloc_zero (s : Heap) {p n : Nat} (hp : p ≠ 0) (hn : align n = 0) :
    mm_realloc s p n = (mm_free s p).map (fun s' => (0, s')) := by
  unfold mm_realloc
  simp only [if_neg hp, hn, if_true]
  cases mm_free s p <;> rfl

theorem mm_realloc_move_none {s : Heap} {pre post : List Chunk} {sz M : Nat}
    (hr : Rep s (pre ++ (sz, true) :: post)) (ha0 : ¬ (align M = 0))
    (hb' : align M + 32 ≤ 2 ^ 64)
    (hT : sz + total (post.takeWhile is_free) < hdr_size + align M)
    (hfit : (fit (hdr_size + align M) (pre ++ (sz + total (post.takeWhile is_free), true) ::
        post.dropWhile is_free)).2 = none)
    (hcap : s.heap_max < s.heap_size + (hdr_size + align M)) :
    mm_realloc s (s.heap_lo + total pre + hdr_size) M = none := by
  obtain ⟨hidem, ham, -⟩ := align_facts M
  have hmod : (align M + hdr_size) % 2 ^ 64 = hdr_size + align M := by
    unfold hdr_size; omega
  obtain ⟨s1, e1, ⟨hlo1, hsz1, hmx1⟩, hr1, -⟩ := coalesce_spec hr
  obtain ⟨g1, -⟩ := Rep_header hr1
  simp only [] at g1
  rw [hlo1] at g1
  have hlo := hr.1.1
  have hm := mm_malloc_none (n := align M) hr1 (by rw [hidem]; exact hb')
    (by rw [hidem]; exact hfit) (by rw [hidem, hsz1, hmx1]; exact hcap)
  have hp : ¬ (s.heap_lo + total pre + hdr_size = 0) := by omega
  unfold mm_realloc payload2header
  simp only [if_neg hp, if_neg ha0, Nat.add_sub_cancel, e1, g1, hmod, if_pos hT, hm]

theorem split_frame (s : Heap) (h csz x : Nat) (h1 : x < h ∨ h + 8 ≤ x)
    (h2 : x < h + csz ∨ h + csz + 9 ≤ x) : (split s h csz).mem x = s.mem x := by
  unfold split init_chunk
  split
  · show store_size (store_allocated (store_size _ _ _) _ _) _ _ x = s.mem x
    rw [store_size_other _ _ _ _ h1, store_allocated_other _ _ _ _ (by omega),
      store_size_other _ _ _ _ (by omega)]
  · rfl

theorem mm_realloc_wrap {s : Heap} {pre post : List Chunk} {sz M : Nat}
    (hr : Rep s (pre ++ (sz, true) :: post)) (hb : 2 ^ 64 < align M + 32) :
    ∃ s', mm_realloc s (s.heap_lo + total pre + hdr_size) M =
        some (s.heap_lo + total pre + hdr_size, s') ∧
      (∀ x, x < s.heap_lo + total pre ∨ s.heap_lo + total pre + 9 ≤ x →
        s'.mem x = s.mem x) := by
  obtain ⟨-, ham, hlt⟩ := align_facts M
  have hmod : (align M + hdr_size) % 2 ^ 64 = 0 := by
    unfold hdr_size; omega
  obtain ⟨s1, e1, -, -, hfr1⟩ := coalesce_spec hr
  have hlo := hr.1.1
  have hp : ¬ (s.heap_lo + total pre + hdr_size = 0) := by omega
  have ha0 : ¬ (align M = 0) := by omega
  refine ⟨split s1 (s.heap_lo + total pre) 0, ?_, fun x hx => ?_⟩
  · unfold mm_realloc payload2header
    simp only [if_neg hp, if_neg ha0, Nat.add_sub_cancel, e1, hmod, Nat.not_lt_zero, if_false]
  · rw [split_frame _ _ _ _ (by omega) (by omega), hfr1 x (by omega)]

/-! ## Sequences of calls -/

theorem Rep_empty {s : Heap} (ha : arena_ok s) (h0 : s.heap_size = 0) : Rep s [] :=
  ⟨ha, trivial, fun _ hc => absurd hc (List.not_mem_nil _), h0.symm⟩

theorem malloc_layout_ne_nil (csz : Nat) (cs : List Chunk) : malloc_layout csz cs ≠ [] := by
  obtain ⟨c, B, e, -⟩ := malloc_layout_new_chunk csz cs
  rw [e]
  simp

theorem mm_malloc_some {s s' : Heap} {cs : List Chunk} {n p : Nat} (hr : Rep s cs)
    (hn : align n + 32 ≤ 2 ^ 64) (h : mm_malloc s n = some (p, s')) :
    ((fit (hdr_size + align n) cs).2.isSome ∨
      s.heap_size + (hdr_size + align n) ≤ s.heap_max) ∧
    p = s.heap_lo + total (fit (hdr_size + align n) cs).1 + hdr_size ∧
    Rep s' (malloc_layout (hdr_size + align n) cs) := by
  by_cases hgrow : (fit (hdr_size + align n) cs).2.isSome ∨
      s.heap_size + (hdr_size + align n) ≤ s.heap_max
  · obtain ⟨s'', e, -, -, -, hr', -⟩ := mm_malloc_spec hr hn hgrow
    rw [e] at h
    simp only [Option.some.injEq, Prod.mk.injEq] at h
    obtain ⟨h1, h2⟩ := h
    subst h2
    exact ⟨hgrow, h1.symm, hr'⟩
  · rw [not_or] at hgrow
    have hnone := mm_malloc_none hr hn (by simpa using hgrow.1) (by omega)
    rw [hnone] at h
    exact absurd h (by simp)

theorem align_bound {n : Nat} (h : n + 32 ≤ 2 ^ 64) : align n + 32 ≤ 2 ^ 64 := by
  unfold align
  omega

theorem step_Rep {s s' : Heap} {cs : List Chunk} {c : Call} (hr : Rep s cs)
    (hb : c.size + 32 ≤ 2 ^ 64) (h : step s c = some s') :
    ∃ cs', Rep s' cs' ∧ cs' ≠ [] := by
  cases c with
  | malloc n =>
    simp only [step, Option.map_eq_some', Prod.exists, exists_eq_right] at h
    obtain ⟨p, h⟩ := h
    exact ⟨_, (mm_malloc_some hr (align_bound hb) h).2.2, malloc_layout_ne_nil _ _⟩
  | free p =>
    simp only [step] at h
    split at h
    · rename_i hl
      obtain ⟨pre, sz, post, rfl, rfl⟩ := live_Rep hr hl
      obtain ⟨s'', e, -, hr', -⟩ := mm_free_spec hr
      rw [e] at h
      simp only [Option.some.injEq] at h
      subst h
      exact ⟨_, hr', by simp⟩
    · exact absurd h (by simp)
  | realloc p n =>
    simp only [step] at h
    have hn : n + 32 ≤ 2 ^ 64 := hb
    split at h
    · rename_i hl
      simp only [Option.map_eq_some', Prod.exists, exists_eq_right] at h
      obtain ⟨q, h⟩ := h
      by_cases hp : p = 0
      · subst hp
        rw [mm_realloc_null] at h
        simp only [Option.map_eq_some', Prod.mk.injEq, Prod.exists] at h
        obtain ⟨a, b, hm, -, rfl⟩ := h
        have hidem := (align_facts n).1
        exact ⟨_, (mm_malloc_some hr (by rw [hidem]; exact align_bound hn) hm).2.2,
          malloc_layout_ne_nil _ _⟩
      · have hlive : live s p = true := by
          rcases hl with h0 | h1
          · exact absurd h0 hp
          · exact h1
        obtain ⟨pre, sz, post, rfl, rfl⟩ := live_Rep hr hlive
        by_cases ha0 : align n = 0
        · rw [mm_realloc_zero s hp ha0] at h
          obtain ⟨s'', e, -, hr', -⟩ := mm_free_spec hr
          rw [e] at h
          simp only [Option.map_some', Option.some.injEq, Prod.mk.injEq] at h
          obtain ⟨-, rfl⟩ := h
          exact ⟨_, hr', by simp⟩
        · by_cases hT : hdr_size + align n ≤ sz + total (post.takeWhile is_free)
          · obtain ⟨s'', e, -, hr', -⟩ := mm_realloc_in_place hr ha0 (align_bound hn) hT
            rw [e] at h
            simp only [Option.some.injEq, Prod.mk.injEq] at h
            obtain ⟨-, rfl⟩ := h
            refine ⟨_, hr', ?_⟩
            split <;> simp
          · by_cases hgrow : (fit (hdr_size + align n)
                (pre ++ (sz + total (post.takeWhile is_free), true) ::
                  post.dropWhile is_free)).2.isSome ∨
                s.heap_size + (hdr_size + align n) ≤ s.heap_max
            · obtain ⟨s'', cs', A, c, X, Y, T', e, hr', -, -, -, -, -, -, hcs, -⟩ :=
                mm_realloc_move hr ha0 (align_bound hn) (by omega) hgrow
              rw [e] at h
              simp only [Option.some.injEq, Prod.mk.injEq] at h
              obtain ⟨-, rfl⟩ := h
              exact ⟨_, hr', by rw [hcs]; simp⟩
            · rw [not_or] at hgrow
              have hnone := mm_realloc_move_none hr ha0 (align_bound hn) (by omega)
                (by simpa using hgrow.1) (by omega)
              rw [hnone] at h
              exact absurd h (by simp)
    · exact absurd h (by simp)

theorem run_Rep : ∀ (calls : List Call) (s0 s : Heap) (cs : List Chunk), Rep s0 cs →
    (∀ c ∈ calls, c.size + 32 ≤ 2 ^ 64) → run s0 calls = some s →
    ∃ cs', Rep s cs' ∧ (calls ≠ [] → cs' ≠ [])
  | [], s0, s, cs, hr, _, h => by
    simp only [run, Option.some.injEq] at h
    subst h
    exact ⟨cs, hr, fun h => absurd rfl h⟩
  | c :: calls, s0, s, cs, hr, hb, h => by
    simp only [run, Option.bind_eq_some] at h
    obtain ⟨s1, h1, h2⟩ := h
    obtain ⟨cs1, hr1, hne1⟩ := step_Rep hr (hb c (List.mem_cons_self _ _)) h1
    obtain ⟨cs', hr', hne'⟩ := run_Rep calls s1 s cs1 hr1
      (fun d hd => hb d (List.mem_cons_of_mem _ hd)) h2
    refine ⟨cs', hr', fun _ => ?_⟩
    cases calls with
    | nil =>
      simp only [run, Option.some.injEq] at h2
      subst h2
      have := (chunks_Rep hr1).symm.trans (chunks_Rep hr')
      rw [← this]
      exact hne1
    | cons d calls => exact hne' (by simp)

/-! ## C1: conservation -/

/-- C1, as stated, fails: from the empty heap the calls `mm_malloc(16)`, `mm_free` of the
block and `mm_malloc(2^64 - 16)` respect the usage contract and all return, yet the chunk
size computed by the last call wraps to `0`, the first chunk is left with size `0`, the
walk of `mm_checkheap` never leaves it (`next_chunk` returns the chunk itself) and
`mm_checkheap` yields no statistics. -/
theorem conservation_fails_on_size_overflow :
    (run heap0 [.malloc 16, .free 4112, .malloc 18446744073709551600]).isSome = true ∧
    (run heap0 [.malloc 16, .free 4112, .malloc 18446744073709551600]).map
      (fun s => (load_size s.mem 4096, next_chunk s 4096, mem_heapsize s)) =
        some (0, 4096, 32) ∧
    (run heap0 [.malloc 16, .free 4112, .malloc 18446744073709551600]).bind mm_checkheap =
      none := by
  decide

/-- C1, amended: starting from an empty heap, after every non-empty sequence of
`mm_malloc` / `mm_free` / `mm_realloc` calls that respects the usage contract, returns, and
requests sizes of at most `2^64 - 32` bytes, the heap walk covers the heap exactly (the
heap is well formed), `mm_checkheap` returns, its assertion holds, and
`allocated_size + free_size` equals `mem_heapsize()`; the assertion of `mm_init` holds
too. -/
theorem conservation (s0 s : Heap) (calls : List Call) (ha : arena_ok s0)
    (h0 : mem_heapsize s0 = 0) (hne : calls ≠ [])
    (hb : ∀ c ∈ calls, c.size + 32 ≤ 2 ^ 64) (h : run s0 calls = some s) :
    mm_init = some 0 ∧ well_formed s ∧ total (chunks s) = mem_heapsize s ∧
      ∃ info, mm_checkheap s = some info ∧
        info.allocated_size + info.free_size = mem_heapsize s := by
  obtain ⟨cs, hr, hcs⟩ := run_Rep calls s0 s [] (Rep_empty ha h0) hb h
  have hw := (Rep_iff_well_formed.1 hr).1
  refine ⟨by decide, hw, hw.2.2, audit cs ⟨0, 0, 0, 0⟩, mm_checkheap_spec hr (hcs hne), ?_⟩
  have := audit_sizes cs ⟨0, 0, 0, 0⟩
  have ht := hr.2.2.2
  simp only [Nat.zero_add] at this
  unfold mem_heapsize
  omega

/-- C1, amended, at a concrete input: four calls on the empty heap `heap0`. -/
theorem conservation_witness :
    ∃ s, run heap0 [.malloc 8, .malloc 100, .free 4112, .realloc 4144 300] = some s ∧
      mm_init = some 0 ∧ well_formed s ∧ total (chunks s) = mem_heapsize s ∧
      ∃ info, mm_checkheap s = some info ∧
        info.allocated_size + info.free_size = mem_heapsize s := by
  obtain ⟨s, hs⟩ := Option.isSome_iff_exists.1
    (by decide : (run heap0 [.malloc 8, .malloc 100, .free 4112, .realloc 4144 300]).isSome
      = true)
  exact ⟨s, hs, conservation heap0 s _ (by decide) rfl (List.cons_ne_nil _ _) (by decide) hs⟩

/-! ## C2: the postcondition of `mm_malloc` -/

theorem addrs_mem : ∀ (A B : List Chunk) (c : Chunk) (a : Nat),
    a + total A ∈ addrs a (A ++ c :: B)
  | [], _, _, _ => by simp [addrs, total]
  | d :: A, B, c, a => by
    have ih := addrs_mem A B c (a + d.1)
    simp only [List.cons_append, addrs, total, List.mem_cons]
    right
    rw [← Nat.add_assoc]
    exact ih

theorem first_fit_found {s s1 : Heap} {cs : List Chunk} {csz h : Nat} (hr : Rep s cs)
    (e : first_fit s csz = some (h, s1)) (hne : h ≠ 0) : (fit csz cs).2.isSome = true := by
  obtain ⟨s', e', -⟩ := first_fit_spec hr csz
  rw [e] at e'
  simp only [Option.some.injEq, Prod.mk.injEq] at e'
  by_contra hcon
  rw [if_neg hcon] at e'
  exact hne e'.1

theorem mem_sbrk_isSome {s : Heap} {incr : Nat} (h : (mem_sbrk s incr).isSome = true) :
    s.heap_size + incr ≤ s.heap_max := by
  unfold mem_sbrk at h
  split at h
  · assumption
  · simp at h

/-- C2, as stated, fails: on the well-formed heap reached by `mm_malloc(16)` and `mm_free`
of the block (one free chunk of 32 bytes; no arena growth is needed), `mm_malloc(2^64 - 16)`
computes the chunk size `16 + (2^64 - 16)`, which wraps to `0`, and returns the payload
pointer of a chunk whose size is then `0`, not at least `16 + align(n)`. -/
theorem malloc_post_fails_on_size_overflow :
    (run heap0 [.malloc 16, .free 4112]).map
      (fun s => decide (well_formed s ∧ chunks s = [(32, false)])) = some true ∧
    ((run heap0 [.malloc 16, .free 4112]).bind
      (fun s => mm_malloc s 18446744073709551600)).map
      (fun r => (r.1, load_size r.2.mem (payload2header r.1))) = some (4112, 0) ∧
    hdr_size + align 18446744073709551600 = 18446744073709551616 := by
  decide

/-- C2, amended: for every requested size `n` of at most `2^64 - 32` bytes, on a
well-formed heap on which `first_fit` finds a chunk or the arena can grow by
`16 + align(n)` bytes, `mm_malloc(n)` returns a pointer `p` exactly `hdr_size` bytes past
`payload2header p`, which is the header of a chunk of the heap walk after the call, marked
allocated, of size at least `hdr_size + align(n)`, hence with a payload of at least `n`
bytes; the heap stays well formed. -/
theorem mm_malloc_post (s : Heap) (n : Nat) (hw : well_formed s) (hn : n + 32 ≤ 2 ^ 64)
    (hgrow : (∃ h s1, first_fit s (hdr_size + align n) = some (h, s1) ∧ h ≠ 0) ∨
      (mem_sbrk s (hdr_size + align n)).isSome = true) :
    ∃ p s', mm_malloc s n = some (p, s') ∧ well_formed s' ∧
      p = payload2header p + hdr_size ∧ payload2header p ∈ heap_walk s' ∧
      load_allocated s'.mem (payload2header p) = true ∧
      hdr_size + align n ≤ load_size s'.mem (payload2header p) ∧
      n + hdr_size ≤ load_size s'.mem (payload2header p) := by
  have hr := well_formed_Rep hw
  have hg : (fit (hdr_size + align n) (chunks s)).2.isSome ∨
      s.heap_size + (hdr_size + align n) ≤ s.heap_max := by
    rcases hgrow with ⟨h, s1, e, hne⟩ | h
    · exact Or.inl (first_fit_found hr e hne)
    · exact Or.inr (mem_sbrk_isSome h)
  obtain ⟨s', e, hlo, -, -, hr', -⟩ := mm_malloc_spec hr (align_bound hn) hg
  obtain ⟨c, B, eL, hc⟩ := malloc_layout_new_chunk (hdr_size + align n) (chunks s)
  rw [eL] at hr'
  obtain ⟨k1, k2, -⟩ := Rep_header hr'
  simp only [] at k1 k2
  rw [hlo] at k1 k2
  have hle := (align_small hn).2.2.2.1
  have hp : payload2header (s.heap_lo + total (fit (hdr_size + align n) (chunks s)).1 +
      hdr_size) = s.heap_lo + total (fit (hdr_size + align n) (chunks s)).1 := by
    unfold payload2header
    exact Nat.add_sub_cancel _ _
  refine ⟨_, s', e, (Rep_iff_well_formed.1 hr').1, ?_, ?_, ?_, ?_, ?_⟩
  · rw [hp]
  · rw [hp, heap_walk_Rep hr', hlo]
    exact addrs_mem _ _ _ _
  · rw [hp]; exact k2
  · rw [hp, k1]; exact hc
  · rw [hp, k1]; omega

/-- C2, amended, at a concrete input: `mm_malloc(40)` on `heap2`, which has a free fit. -/
theorem mm_malloc_post_witness :
    ∃ p s', mm_malloc heap2 40 = some (p, s') ∧ well_formed s' ∧
      p = payload2header p + hdr_size ∧ payload2header p ∈ heap_walk s' ∧
      load_allocated s'.mem (payload2header p) = true ∧
      hdr_size + align 40 ≤ load_size s'.mem (payload2header p) ∧
      40 + hdr_size ≤ load_size s'.mem (payload2header p) :=
  mm_malloc_post heap2 40 (by decide) (by decide) (Or.inr (by decide))

/-! ## C3: payload preservation on resize -/

theorem le_align {M : Nat} (h64 : M < 2 ^ 64) (h0 : ¬ (align M = 0)) : M ≤ align M := by
  unfold align at h0 ⊢
  omega

/-- C3, as stated, fails: on `heap2` the pointer 4112 is live, its payload starts with the
byte 7 and has capacity 16, and `M = 2^64 - 1` is a new size `M > 0` for which `align(M)`
wraps to `0`; `mm_realloc(4112, M)` then takes the `size == 0` branch, frees the block and
returns `NULL`, and the byte at the returned pointer is not the first byte of the old
payload. -/
theorem realloc_frees_block_on_align_overflow :
    well_formed heap2 ∧ live heap2 4112 = true ∧ 0 < 18446744073709551615 ∧
    align 18446744073709551615 = 0 ∧
    0 < min (load_size heap2.mem (payload2header 4112) - hdr_size) 18446744073709551615 ∧
    (mm_realloc heap2 4112 18446744073709551615).map
      (fun r => (r.1, r.2.mem (r.1 + 0), load_allocated r.2.mem (payload2header 4112))) =
      some (0, 0, false) ∧
    heap2.mem (4112 + 0) = 7 := by
  decide

/-- C3, amended: for every live payload pointer `p`, whose chunk has size `sz` (payload
capacity `sz - 16`), and every new size `M` with `0 < M <= 2^64 - 16`, if
`mm_realloc(p, M)` returns `q`, then `q` is not `NULL` and the first `min(sz - 16, M)`
bytes at `q` after the call are the first `min(sz - 16, M)` bytes at `p` before the call;
this covers the in-place path and the allocate-copy-free path. -/
theorem realloc_preserves_payload (s s' : Heap) (pre post : List Chunk) (sz M q : Nat)
    (hw : well_formed s) (hc : chunks s = pre ++ (sz, true) :: post)
    (hM : 0 < M) (hM64 : M + 16 ≤ 2 ^ 64)
    (h : mm_realloc s (s.heap_lo + total pre + hdr_size) M = some (q, s')) :
    q ≠ 0 ∧ ∀ i, i < min (sz - hdr_size) M →
      s'.mem (q + i) = s.mem (s.heap_lo + total pre + hdr_size + i) := by
  have hr : Rep s (pre ++ (sz, true) :: post) := Rep_iff_well_formed.2 ⟨hw, hc⟩
  have hlo := hr.1.1
  have h16 : hdr_size = 16 := rfl
  have hp : s.heap_lo + total pre + hdr_size ≠ 0 := by omega
  have ha0 : ¬ (align M = 0) := by
    unfold align
    omega
  have hle := le_align (by omega : M < 2 ^ 64) ha0
  by_cases hb : align M + 32 ≤ 2 ^ 64
  · by_cases hT : hdr_size + align M ≤ sz + total (post.takeWhile is_free)
    · obtain ⟨s'', e, -, -, hfr⟩ := mm_realloc_in_place hr ha0 hb hT
      rw [e] at h
      simp only [Option.some.injEq, Prod.mk.injEq] at h
      obtain ⟨rfl, rfl⟩ := h
      refine ⟨hp, fun i hi => ?_⟩
      exact hfr _ (Or.inr (Or.inl (by rw [h16] at hi ⊢; omega)))
    · by_cases hgrow : (fit (hdr_size + align M)
          (pre ++ (sz + total (post.takeWhile is_free), true) ::
            post.dropWhile is_free)).2.isSome ∨
          s.heap_size + (hdr_size + align M) ≤ s.heap_max
      · obtain ⟨s'', cs', A, c, X, Y, T', e, -, -, -, -, -, -, -, -, -, -, hbytes⟩ :=
          mm_realloc_move hr ha0 hb (by omega) hgrow
        rw [e] at h
        simp only [Option.some.injEq, Prod.mk.injEq] at h
        obtain ⟨rfl, rfl⟩ := h
        refine ⟨by omega, fun i hi => ?_⟩
        exact hbytes i (by omega)
      · rw [not_or] at hgrow
        have hnone := mm_realloc_move_none hr ha0 hb (by omega)
          (by simpa using hgrow.1) (by omega)
        rw [hnone] at h
        exact absurd h (by simp)
  · obtain ⟨s'', e, hfr⟩ := mm_realloc_wrap (M := M) hr (by omega)
    rw [e] at h
    simp only [Option.some.injEq, Prod.mk.injEq] at h
    obtain ⟨rfl, rfl⟩ := h
    refine ⟨hp, fun i hi => ?_⟩
    exact hfr _ (Or.inr (by rw [h16]; omega))

/-- C3, amended, at a concrete input: `mm_realloc(4112, 100)` on `heap2` moves the block,
whose payload starts with the bytes 7 and 9, to 4240. -/
theorem realloc_preserves_payload_witness :
    ∃ s', mm_realloc heap2 4112 100 = some (4240, s') ∧
      (4240 ≠ 0 ∧
        ∀ i, i < min (32 - hdr_size) 100 → s'.mem (4240 + i) = heap2.mem (4112 + i)) ∧
      heap2.mem 4112 = 7 ∧ heap2.mem 4113 = 9 := by
  obtain ⟨r, hr⟩ := Option.isSome_iff_exists.1
    (by decide : (mm_realloc heap2 4112 100).isSome = true)
  have h1 : (mm_realloc heap2 4112 100).map Prod.fst = some 4240 := by decide
  rw [hr] at h1
  simp only [Option.map_some', Option.some.injEq] at h1
  obtain ⟨q, s'⟩ := r
  simp only [] at h1
  subst h1
  exact ⟨s', hr, realloc_preserves_payload heap2 s' [] [(32, false), (32, false), (32, true)]
    32 100 4240 (by decide) (by decide) (by decide) (by decide) hr, by decide, by decide⟩

/-! ## C4: adjacent free chunks -/

theorem no_adjacent_free_cons_allocated (sz : Nat) (l : List Chunk) :
    no_adjacent_free ((sz, true) :: l) ↔ no_adjacent_free l := by
  cases l with
  | nil => simp [no_adjacent_free]
  | cons d l => simp [no_adjacent_free]

theorem no_adjacent_free_cons_cons_allocated (x : Chunk) (sz : Nat) (l : List Chunk) :
    no_adjacent_free (x :: (sz, true) :: l) ↔ no_adjacent_free ((sz, true) :: l) := by
  simp [no_adjacent_free]

theorem no_adjacent_free_fit (csz c : Nat) : ∀ (n : Nat) (cs : List Chunk), cs.length ≤ n →
    no_adjacent_free ((fit csz cs).1 ++ [(c, true)])
  | _, [], _ => by simp [fit_nil, no_adjacent_free]
  | 0, _ :: _, hl => by simp at hl
  | n + 1, (a, true) :: cs, hl => by
    rw [fit_cons_allocated]
    show no_adjacent_free ((a, true) :: ((fit csz cs).1 ++ [(c, true)]))
    rw [no_adjacent_free_cons_allocated]
    exact no_adjacent_free_fit csz c n cs (by simp at hl; omega)
  | n + 1, (a, false) :: cs, hl => by
    rw [fit_cons_free]
    split
    · simp [no_adjacent_free]
    · have ih := no_adjacent_free_fit csz c n (cs.dropWhile is_free) (by
        have := (List.dropWhile_sublist is_free (l := cs)).length_le
        simp at hl; omega)
      show no_adjacent_free ((a + total (cs.takeWhile is_free), false) ::
        ((fit csz (cs.dropWhile is_free)).1 ++ [(c, true)]))
      have hd := dropWhile_free_head cs
      cases hD : cs.dropWhile is_free with
      | nil =>
        rw [fit_nil]
        simp [no_adjacent_free]
      | cons d D =>
        rw [hD] at ih hd
        obtain ⟨b, fl⟩ := d
        have hfl : fl = true := hd (b, fl) rfl
        subst hfl
        rw [fit_cons_allocated] at ih ⊢
        exact (no_adjacent_free_cons_cons_allocated _ b _).2 ih

/-- C4, as stated, fails: from the empty heap, `mm_malloc(8)` twice and then `mm_free` of
the first and of the second block leave two consecutive free chunks (freeing the second
block does not merge it into the free chunk before it); and a later `mm_malloc` that finds
its fit early leaves a pair of adjacent free chunks further on untouched. -/
theorem adjacent_free_chunks_after_free :
    (run heap0 [.malloc 8, .malloc 8, .free 4112, .free 4144]).map chunks =
      some [(32, false), (32, false)] ∧
    (run heap0 [.malloc 8, .malloc 8, .malloc 8, .malloc 8, .free 4112, .free 4176,
      .free 4208, .malloc 8]).map chunks =
      some [(32, true), (32, true), (32, false), (32, false)] := by
  decide

/-- C4, amended (coalescing is forward-only): in every heap state reached from the empty
heap by valid calls with sizes of at most `2^64 - 32` bytes, `mm_free(p)` of a live
pointer returns and the chunk it frees is not immediately followed by a free chunk, and
after an `mm_malloc(n)` that returns there are no two consecutive free chunks among the
chunks up to and including the returned one. -/
theorem forward_coalescing (s0 s : Heap) (calls : List Call) (ha : arena_ok s0)
    (h0 : mem_heapsize s0 = 0) (hb : ∀ c ∈ calls, c.size + 32 ≤ 2 ^ 64)
    (h : run s0 calls = some s) :
    (∀ p, live s p = true → ∃ s' pre sz rest, mm_free s p = some s' ∧
      chunks s' = pre ++ (sz, false) :: rest ∧ p = s'.heap_lo + total pre + hdr_size ∧
      (∀ c, rest.head? = some c → c.2 = true)) ∧
    (∀ n p s', n + 32 ≤ 2 ^ 64 → mm_malloc s n = some (p, s') → ∃ pre c rest,
      chunks s' = pre ++ (c, true) :: rest ∧ p = s'.heap_lo + total pre + hdr_size ∧
      no_adjacent_free (pre ++ [(c, true)])) := by
  obtain ⟨cs, hr, -⟩ := run_Rep calls s0 s [] (Rep_empty ha h0) hb h
  constructor
  · intro p hl
    obtain ⟨pre, sz, post, rfl, rfl⟩ := live_Rep hr hl
    obtain ⟨s', e, ⟨hlo, -, -⟩, hr', -⟩ := mm_free_spec hr
    exact ⟨s', pre, _, _, e, chunks_Rep hr', by rw [hlo], dropWhile_free_head post⟩
  · intro n p s' hn e
    obtain ⟨hg, hp, hr'⟩ := mm_malloc_some hr (align_bound hn) e
    obtain ⟨s'', e', hlo, -⟩ := mm_malloc_spec hr (align_bound hn) hg
    rw [e] at e'
    simp only [Option.some.injEq, Prod.mk.injEq] at e'
    obtain ⟨-, rfl⟩ := e'
    obtain ⟨c, B, eL, -⟩ := malloc_layout_new_chunk (hdr_size + align n) cs
    refine ⟨_, c, B, ?_, by rw [hp, hlo], no_adjacent_free_fit _ _ _ cs (Nat.le_refl _)⟩
    rw [chunks_Rep hr', eL]

/-- C4, amended, at a concrete input: the heap after three calls on `heap0`. -/
theorem forward_coalescing_witness :
    ∃ s, run heap0 [.malloc 8, .malloc 8, .free 4112] = some s ∧
      (∀ p, live s p = true → ∃ s' pre sz rest, mm_free s p = some s' ∧
        chunks s' = pre ++ (sz, false) :: rest ∧ p = s'.heap_lo + total pre + hdr_size ∧
        (∀ c, rest.head? = some c → c.2 = true)) ∧
      (∀ n p s', n + 32 ≤ 2 ^ 64 → mm_malloc s n = some (p, s') → ∃ pre c rest,
        chunks s' = pre ++ (c, true) :: rest ∧ p = s'.heap_lo + total pre + hdr_size ∧
        no_adjacent_free (pre ++ [(c, true)])) := by
  obtain ⟨s, hs⟩ := Option.isSome_iff_exists.1
    (by decide : (run heap0 [.malloc 8, .malloc 8, .free 4112]).isSome = true)
  exact ⟨s, hs, forward_coalescing heap0 s _ (by decide) rfl (by decide) hs⟩

/-! ## C5, C6: the degenerate cases of `mm_realloc` -/

/-- C5 (the code departs from it): `mm_realloc(NULL, 8)` on the empty heap `heap0` leaves
the heap as `mm_malloc(8)` does (one allocated chunk of 32 bytes) but returns `NULL`, while
`mm_malloc(8)` returns the payload pointer 4112: the result of the inner `mm_malloc` call
is dropped. -/
theorem realloc_null_returns_null :
    (mm_realloc heap0 0 8).map (fun r => (r.1, chunks r.2)) = some (0, [(32, true)]) ∧
    (mm_malloc heap0 8).map (fun r => (r.1, chunks r.2)) = some (4112, [(32, true)]) := by
  decide

/-- C6: for every live payload pointer `p` of a well-formed heap, `mm_free(p)` returns some
state `s'`, and `mm_realloc(p, 0)` returns `NULL` and leaves exactly that state. -/
theorem realloc_zero_is_free (s : Heap) (pre post : List Chunk) (sz : Nat)
    (hw : well_formed s) (hc : chunks s = pre ++ (sz, true) :: post) :
    ∃ s', mm_free s (s.heap_lo + total pre + hdr_size) = some s' ∧
      mm_realloc s (s.heap_lo + total pre + hdr_size) 0 = some (0, s') := by
  have hr : Rep s (pre ++ (sz, true) :: post) := Rep_iff_well_formed.2 ⟨hw, hc⟩
  have hlo := hr.1.1
  obtain ⟨s', e, -⟩ := mm_free_spec hr
  refine ⟨s', e, ?_⟩
  rw [mm_realloc_zero s (by omega) (by decide), e]
  rfl

/-- C6 at a concrete input: the allocated chunk of `heap1`. -/
theorem realloc_zero_is_free_witness :
    ∃ s', mm_free heap1 (heap1.heap_lo + total [] + hdr_size) = some s' ∧
      mm_realloc heap1 (heap1.heap_lo + total [] + hdr_size) 0 = some (0, s') :=
  realloc_zero_is_free heap1 [] [] 32 (by decide) (by decide)

/-! ## C7: in-place resize -/

/-- C7, as stated, fails: on `heap1` (one allocated chunk of 32 bytes, nothing after it)
`mm_realloc(4112, 2^64 - 16)` returns the old pointer although the chunk cannot reach
`16 + align(M)` bytes: the sum `align(M) + 16` wraps to `0`, the in-place branch is taken,
and `split` leaves the chunk with size `0`, marked free. -/
theorem realloc_in_place_on_size_overflow :
    (well_formed heap1 ∧ chunks heap1 = [(32, true)]) ∧
    (mm_realloc heap1 4112 18446744073709551600).map
      (fun r => (r.1, load_size r.2.mem 4096, load_allocated r.2.mem 4096)) =
        some (4112, 0, false) ∧
    ¬ (hdr_size + align 18446744073709551600 ≤ 32) := by
  decide

/-- C7, amended: for every live payload pointer `p`, with chunk size `sz` and free chunks
`post.takeWhile is_free` right after the chunk, and every `0 < M ≤ 2^64 - 32`:
when `sz` plus the sizes of that run reaches `16 + align(M)`, `mm_realloc(p, M)` returns
`p` and leaves the chunk allocated with a size of at least `16 + align(M)`; whenever
`mm_realloc(p, M)` returns, it returns `p` exactly in that case; and that case includes
every `M` with `align(M)` at most the payload capacity `sz - 16`. -/
theorem realloc_same_pointer (s : Heap) (pre post : List Chunk) (sz M : Nat)
    (hw : well_formed s) (hc : chunks s = pre ++ (sz, true) :: post)
    (hM : 0 < M) (hb : M + 32 ≤ 2 ^ 64) :
    (hdr_size + align M ≤ sz + total (post.takeWhile is_free) →
      ∃ s' c rest, mm_realloc s (s.heap_lo + total pre + hdr_size) M =
          some (s.heap_lo + total pre + hdr_size, s') ∧
        well_formed s' ∧ chunks s' = pre ++ (c, true) :: rest ∧
        hdr_size + align M ≤ c) ∧
    (∀ q s', mm_realloc s (s.heap_lo + total pre + hdr_size) M = some (q, s') →
      (q = s.heap_lo + total pre + hdr_size ↔
        hdr_size + align M ≤ sz + total (post.takeWhile is_free))) ∧
    (align M ≤ sz - hdr_size →
      hdr_size + align M ≤ sz + total (post.takeWhile is_free)) := by
  have hr : Rep s (pre ++ (sz, true) :: post) := Rep_iff_well_formed.2 ⟨hw, hc⟩
  obtain ⟨-, -, f16, -⟩ := Rep_header hr
  simp only [] at f16
  have h16 : hdr_size = 16 := rfl
  have ha0 : ¬ (align M = 0) := by
    have := (align_small hb).2.2.2.1
    omega
  have hb' := align_bound hb
  have hin : hdr_size + align M ≤ sz + total (post.takeWhile is_free) →
      ∃ s' c rest, mm_realloc s (s.heap_lo + total pre + hdr_size) M =
          some (s.heap_lo + total pre + hdr_size, s') ∧
        well_formed s' ∧ chunks s' = pre ++ (c, true) :: rest ∧
        hdr_size + align M ≤ c := by
    intro hT
    obtain ⟨s', e, -, hr', -⟩ := mm_realloc_in_place hr ha0 hb' hT
    by_cases hsp : hdr_size + align M + 32 ≤ sz + total (post.takeWhile is_free)
    · rw [if_pos hsp] at hr'
      have := Rep_iff_well_formed.1 hr'
      exact ⟨s', _, _, e, this.1, this.2, Nat.le_refl _⟩
    · rw [if_neg hsp] at hr'
      have := Rep_iff_well_formed.1 hr'
      exact ⟨s', _, _, e, this.1, this.2, hT⟩
  refine ⟨hin, ?_, fun h => by rw [h16] at h ⊢; omega⟩
  intro q s' e
  constructor
  · intro hq
    by_contra hT
    by_cases hgrow : (fit (hdr_size + align M)
        (pre ++ (sz + total (post.takeWhile is_free), true) ::
          post.dropWhile is_free)).2.isSome ∨
        s.heap_size + (hdr_size + align M) ≤ s.heap_max
    · obtain ⟨s'', cs', A, c, X, Y, T', e', -, -, -, -, -, -, -, -, -, hne, -⟩ :=
        mm_realloc_move hr ha0 hb' (by omega) hgrow
      rw [e] at e'
      simp only [Option.some.injEq, Prod.mk.injEq] at e'
      rw [hq] at e'
      exact hne (by omega)
    · rw [not_or] at hgrow
      have hnone := mm_realloc_move_none hr ha0 hb' (by omega)
        (by simpa using hgrow.1) (by omega)
      rw [hnone] at e
      exact absurd e (by simp)
  · intro hT
    obtain ⟨s'', c, rest, e', -⟩ := hin hT
    rw [e] at e'
    simp only [Option.some.injEq, Prod.mk.injEq] at e'
    exact e'.1

/-- C7, amended, at a concrete input: `mm_realloc(4112, 60)` on `heap2`, whose first chunk
is followed by two free chunks. -/
theorem realloc_same_pointer_witness :
    (hdr_size + align 60 ≤ 32 + total ([(32, false), (32, false), (32, true)].takeWhile
        is_free) →
      ∃ s' c rest, mm_realloc heap2 (heap2.heap_lo + total [] + hdr_size) 60 =
          some (heap2.heap_lo + total [] + hdr_size, s') ∧
        well_formed s' ∧ chunks s' = [] ++ (c, true) :: rest ∧
        hdr_size + align 60 ≤ c) ∧
    (∀ q s', mm_realloc heap2 (heap2.heap_lo + total [] + hdr_size) 60 = some (q, s') →
      (q = heap2.heap_lo + total [] + hdr_size ↔
        hdr_size + align 60 ≤ 32 + total ([(32, false), (32, false), (32, true)].takeWhile
          is_free))) ∧
    (align 60 ≤ 32 - hdr_size →
      hdr_size + align 60 ≤ 32 + total ([(32, false), (32, false), (32, true)].takeWhile
        is_free)) :=
  realloc_same_pointer heap2 [] [(32, false), (32, false), (32, true)] 32 60 (by decide)
    (by decide) (by decide) (by decide)

/-! ## C8: first-fit reuse -/

theorem mem_le_total : ∀ (l : List Chunk) (c : Chunk), c ∈ l → c.1 ≤ total l
  | [], _, h => absurd h (List.not_mem_nil _)
  | d :: l, c, h => by
    simp only [total]
    rcases List.mem_cons.1 h with rfl | h'
    · omega
    · have := mem_le_total l c h'
      omega

theorem fit_isSome_of_free (csz : Nat) : ∀ (n : Nat) (cs : List Chunk), cs.length ≤ n →
    ∀ c ∈ cs, c.2 = false → csz ≤ c.1 → (fit csz cs).2.isSome = true
  | _, [], _, c, hc, _, _ => absurd hc (List.not_mem_nil _)
  | 0, _ :: _, hl, _, _, _, _ => by simp at hl
  | n + 1, (a, true) :: cs, hl, c, hc, hf, hle => by
    rw [fit_cons_allocated]
    rcases List.mem_cons.1 hc with rfl | h'
    · simp at hf
    · exact fit_isSome_of_free csz n cs (by simp at hl; omega) c h' hf hle
  | n + 1, (a, false) :: cs, hl, c, hc, hf, hle => by
    rw [fit_cons_free]
    split
    · rfl
    · rename_i hno
      rcases List.mem_cons.1 hc with rfl | h'
      · exact absurd (by simp only [] at hle; omega) hno
      · rw [← List.takeWhile_append_dropWhile is_free cs, List.mem_append] at h'
        rcases h' with h' | h'
        · have := mem_le_total _ c h'
          exact absurd (by omega) hno
        · exact fit_isSome_of_free csz n _ (by
            have := (List.dropWhile_sublist is_free (l := cs)).length_le
            simp at hl; omega) c h' hf hle

/-- C8: on every well-formed heap that contains a free chunk of size at least
`16 + align(n)`, `first_fit` returns a chunk (not `NULL`), so `mm_malloc(n)` does not reach
`ask_os_for_chunk`: it returns the payload of that chunk and `mem_heapsize()` is unchanged.
In particular, on every empty heap whose arena can hold 64 bytes, after `mm_malloc(8)`,
`mm_malloc(8)` and `mm_free` of the first block, the next `mm_malloc(8)` returns the first
pointer again and does not grow the heap. -/
theorem first_fit_reuse :
    (∀ (s : Heap) (n : Nat), well_formed s →
      (∃ c ∈ chunks s, c.2 = false ∧ hdr_size + align n ≤ c.1) →
      ∃ h s1 s', first_fit s (hdr_size + align n) = some (h, s1) ∧ h ≠ 0 ∧
        mm_malloc s n = some (h + hdr_size, s') ∧ mem_heapsize s' = mem_heapsize s) ∧
    (∀ s0 : Heap, arena_ok s0 → mem_heapsize s0 = 0 → 64 ≤ s0.heap_max →
      ∃ p1 s1 p2 s2 s3 s4, mm_malloc s0 8 = some (p1, s1) ∧
        mm_malloc s1 8 = some (p2, s2) ∧ mm_free s2 p1 = some s3 ∧
        mm_malloc s3 8 = some (p1, s4) ∧ mem_heapsize s4 = mem_heapsize s3) := by
  constructor
  · intro s n hw ⟨c, hc, hf, hle⟩
    have hr := well_formed_Rep hw
    have hfit := fit_isSome_of_free (hdr_size + align n) _ (chunks s) (Nat.le_refl _) c hc
      hf hle
    have hct := mem_le_total _ c hc
    obtain ⟨a1, a2, a3⟩ := hr.1
    have htot := hr.2.2.2
    have hn : align n + 32 ≤ 2 ^ 64 := by
      have h16 : hdr_size = 16 := rfl
      rw [h16] at hle
      omega
    obtain ⟨s1, e1, -⟩ := first_fit_spec hr (hdr_size + align n)
    obtain ⟨s', e, -, -, hsz, -⟩ := mm_malloc_spec hr hn (Or.inl hfit)
    rw [if_pos hfit] at e1 hsz
    exact ⟨_, s1, s', e1, by omega, e, hsz⟩
  · intro s0 ha h0 hmax
    have hr0 := Rep_empty ha h0
    have h32 : hdr_size + align 8 = 32 := by decide
    have ha8 : align 8 + 32 ≤ 2 ^ 64 := by decide
    have hs0 : s0.heap_size = 0 := h0
    obtain ⟨s1, e1, hlo1, hmx1, hsz1, hr1, -⟩ := mm_malloc_spec (n := 8) hr0 ha8
      (Or.inr (by rw [h32]; omega))
    rw [h32] at e1 hsz1 hr1
    simp only [fit_nil, malloc_layout_nil, total, Option.isSome_none, Bool.false_eq_true,
      if_false] at e1 hsz1 hr1
    obtain ⟨s2, e2, hlo2, hmx2, hsz2, hr2, -⟩ := mm_malloc_spec (n := 8) hr1 ha8
      (Or.inr (by rw [h32]; omega))
    rw [h32] at e2 hsz2 hr2
    simp only [fit_cons_allocated, fit_nil, malloc_layout_cons_allocated, malloc_layout_nil,
      total, Option.isSome_none, Bool.false_eq_true, if_false] at e2 hsz2 hr2
    have hr2' : Rep s2 ([] ++ (32, true) :: [(32, true)]) := hr2
    obtain ⟨s3, e3, ⟨hlo3, hsz3, hmx3⟩, hr3, -⟩ := mm_free_spec hr2'
    simp only [List.nil_append, total, List.takeWhile, List.dropWhile, is_free,
      Bool.not_true, Nat.add_zero] at e3 hr3
    obtain ⟨s4, e4, hlo4, hmx4, hsz4, -, -⟩ := mm_malloc_spec (n := 8) hr3 ha8
      (Or.inl (by rw [h32]; simp [fit_cons_free, total, is_free]))
    rw [h32] at e4 hsz4
    simp only [fit_cons_free, total, List.takeWhile, List.dropWhile, is_free,
      Bool.not_true, Nat.add_zero, Nat.le_refl, if_true, Option.isSome_some] at e4 hsz4
    refine ⟨_, s1, _, s2, s3, s4, e1, e2, ?_, ?_, hsz4⟩
    · rw [← hlo1, ← hlo2]
      exact e3
    · rw [← hlo1, ← hlo2, ← hlo3]
      exact e4

/-- C8 at a concrete input: `mm_malloc(8)` on `heap2`, which holds free chunks of
32 bytes; and the scenario on `heap0`. -/
theorem first_fit_reuse_witness :
    (∃ h s1 s', first_fit heap2 (hdr_size + align 8) = some (h, s1) ∧ h ≠ 0 ∧
        mm_malloc heap2 8 = some (h + hdr_size, s') ∧ mem_heapsize s' = mem_heapsize heap2) ∧
    (∃ p1 s1 p2 s2 s3 s4, mm_malloc heap0 8 = some (p1, s1) ∧
        mm_malloc s1 8 = some (p2, s2) ∧ mm_free s2 p1 = some s3 ∧
        mm_malloc s3 8 = some (p1, s4) ∧ mem_heapsize s4 = mem_heapsize s3) :=
  ⟨first_fit_reuse.1 heap2 8 (by decide) ⟨(32, false), by decide, by decide, by decide⟩,
    first_fit_reuse.2 heap0 (by decide) rfl (by decide)⟩

/-! ## C9: the split policy -/

/-- C9, as stated, fails for the aligned size `csz = 0`: on `heap1` (one allocated chunk
of 32 bytes at 4096) `split(c, 0)` sees `32 >= 0 + 32`, stamps the remainder header onto
the chunk itself and then sets the size to `0`: the chunk at `c` ends free, although `c`
was allocated, and the size found at `c + csz` is `0`, not `c.size - csz = 32`. -/
theorem split_fails_for_zero_size :
    (well_formed heap1 ∧ chunks heap1 = [(32, true)]) ∧ 0 % 16 = 0 ∧ 0 ≤ 32 ∧
    load_allocated (split heap1 4096 0).mem 4096 = false ∧
    load_size (split heap1 4096 0).mem (4096 + 0) = 0 := by
  decide

/-- C9, amended: for every chunk `c` of a well-formed heap (size `sz`, flag `al`) and every
aligned `csz` with `hdr_size <= csz <= sz`: when `sz >= csz + 32`, `split(c, csz)` leaves at
`c`'s address a chunk of size exactly `csz` with `c`'s flag, immediately followed by a free
chunk of size `sz - csz`, which is at least 32, all other chunks being as before; when
`sz < csz + 32` it changes nothing; either way the sizes add up to `sz`. -/
theorem split_policy (s : Heap) (pre post : List Chunk) (sz csz : Nat) (al : Bool)
    (hw : well_formed s) (hc : chunks s = pre ++ (sz, al) :: post)
    (h16 : hdr_size ≤ csz) (hm : csz % 16 = 0) (hle : csz ≤ sz) :
    (csz + 32 ≤ sz →
      well_formed (split s (s.heap_lo + total pre) csz) ∧
      chunks (split s (s.heap_lo + total pre) csz) =
        pre ++ (csz, al) :: (sz - csz, false) :: post ∧
      32 ≤ sz - csz ∧ csz + (sz - csz) = sz) ∧
    (sz < csz + 32 → split s (s.heap_lo + total pre) csz = s) := by
  have hr : Rep s (pre ++ (sz, al) :: post) := Rep_iff_well_formed.2 ⟨hw, hc⟩
  obtain ⟨-, -, -, hsp1, hsp2⟩ := split_spec hr h16 hm hle
  refine ⟨fun h => ?_, hsp2⟩
  have := Rep_iff_well_formed.1 (hsp1 h)
  exact ⟨this.1, this.2, by omega, by omega⟩

/-- C9, amended, at a concrete input: the free chunk of 96 bytes left by `mm_free(4112)` on
`heap2` is too small to be cut at 80 bytes and is cut at 32 bytes. -/
theorem split_policy_witness :
    ∃ s, mm_free heap2 4112 = some s ∧
      ((80 + 32 ≤ 96 →
        well_formed (split s (s.heap_lo + total []) 80) ∧
        chunks (split s (s.heap_lo + total []) 80) =
          [] ++ (80, false) :: (96 - 80, false) :: [(32, true)] ∧
        32 ≤ 96 - 80 ∧ 80 + (96 - 80) = 96) ∧
      (96 < 80 + 32 → split s (s.heap_lo + total []) 80 = s)) ∧
      ((32 + 32 ≤ 96 →
        well_formed (split s (s.heap_lo + total []) 32) ∧
        chunks (split s (s.heap_lo + total []) 32) =
          [] ++ (32, false) :: (96 - 32, false) :: [(32, true)] ∧
        32 ≤ 96 - 32 ∧ 32 + (96 - 32) = 96) ∧
      (96 < 32 + 32 → split s (s.heap_lo + total []) 32 = s)) := by
  obtain ⟨s, hs⟩ := Option.isSome_iff_exists.1 (by decide : (mm_free heap2 4112).isSome = true)
  have hw : (mm_free heap2 4112).map (fun s => decide (well_formed s ∧
      chunks s = [] ++ (96, false) :: [(32, true)])) = some true := by decide
  rw [hs] at hw
  simp only [Option.map_some', Option.some.injEq, decide_eq_true_eq] at hw
  exact ⟨s, hs, split_policy s [] [(32, true)] 96 80 false hw.1 hw.2 (by decide) (by decide)
    (by decide), split_policy s [] [(32, true)] 96 32 false hw.1 hw.2 (by decide) (by decide)
    (by decide)⟩

/-! ## C10: forward coalescing on free -/

/-- C10: for every well-formed heap and every live payload pointer `p`, whose chunk `h` has
size `sz` and is followed by the chunks `post`, `mm_free(p)` returns; afterwards the heap
is well formed and `h` is free with size `sz` plus the sizes of `post.takeWhile is_free`,
the maximal run of free chunks that followed it; the chunk now following `h`, if any, is
allocated; the chunks before `h` and those after the run are the same; and no byte
outside the `size` and `allocated` fields of `h` has changed. -/
theorem free_coalesces_forward (s : Heap) (pre post : List Chunk) (sz : Nat)
    (hw : well_formed s) (hc : chunks s = pre ++ (sz, true) :: post) :
    ∃ s', mm_free s (s.heap_lo + total pre + hdr_size) = some s' ∧
      well_formed s' ∧ same_arena s s' ∧
      chunks s' = pre ++ (sz + total (post.takeWhile is_free), false) ::
        post.dropWhile is_free ∧
      post.takeWhile is_free ++ post.dropWhile is_free = post ∧
      (∀ c ∈ post.takeWhile is_free, c.2 = false) ∧
      (∀ c, (post.dropWhile is_free).head? = some c → c.2 = true) ∧
      (∀ x, x < s.heap_lo + total pre ∨ s.heap_lo + total pre + 9 ≤ x →
        s'.mem x = s.mem x) := by
  have hr : Rep s (pre ++ (sz, true) :: post) := Rep_iff_well_formed.2 ⟨hw, hc⟩
  obtain ⟨s', e, ha, hr', hfr⟩ := mm_free_spec hr
  have := Rep_iff_well_formed.1 hr'
  exact ⟨s', e, this.1, ha, this.2, List.takeWhile_append_dropWhile _ _, takeWhile_free,
    dropWhile_free_head post, hfr⟩

/-- C10 at a concrete input: `mm_free(4112)` on `heap2` merges the first chunk with the two
free chunks after it. -/
theorem free_coalesces_forward_witness :
    ∃ s', mm_free heap2 (heap2.heap_lo + total [] + hdr_size) = some s' ∧
      well_formed s' ∧ same_arena heap2 s' ∧
      chunks s' = [] ++ (32 + total ([(32, false), (32, false), (32, true)].takeWhile
        is_free), false) :: [(32, false), (32, false), (32, true)].dropWhile is_free ∧
      [(32, false), (32, false), (32, true)].takeWhile is_free ++
        [(32, false), (32, false), (32, true)].dropWhile is_free =
          [(32, false), (32, false), (32, true)] ∧
      (∀ c ∈ [(32, false), (32, false), (32, true)].takeWhile is_free, c.2 = false) ∧
      (∀ c, ([(32, false), (32, false), (32, true)].dropWhile is_free).head? = some c →
        c.2 = true) ∧
      (∀ x, x < heap2.heap_lo + total [] ∨ heap2.heap_lo + total [] + 9 ≤ x →
        s'.mem x = heap2.mem x) :=
  free_coalesces_forward heap2 [] [(32, false), (32, false), (32, true)] 32 (by decide)
    (by decide)

/-! ## C11: the allocation path on which the arena cannot grow -/

theorem fit_layout_keeps_allocated (csz T : Nat) (B : List Chunk) :
    ∀ (n : Nat) (A : List Chunk), A.length ≤ n →
    ∃ X Y, fit_layout csz (A ++ (T, true) :: B) = X ++ (T, true) :: Y ∧
      total X = total A
  | _, [], _ => by
    refine ⟨[], fit_layout csz B, ?_, rfl⟩
    rw [List.nil_append, fit_layout_cons_allocated]
    rfl
  | 0, _ :: _, hl => by simp at hl
  | n + 1, (a, true) :: A, hl => by
    obtain ⟨X, Y, e, ht⟩ := fit_layout_keeps_allocated csz T B n A (by simp at hl; omega)
    refine ⟨(a, true) :: X, Y, ?_, by simp only [total, ht]⟩
    rw [List.cons_append, fit_layout_cons_allocated, e]
    rfl
  | n + 1, (a, false) :: A, hl => by
    have hsum := total_takeWhile_dropWhile A
    rw [List.cons_append, fit_layout_cons_free, takeWhile_append_allocated,
      dropWhile_append_allocated]
    split
    · refine ⟨(a + total (A.takeWhile is_free), false) :: A.dropWhile is_free, B, rfl, ?_⟩
      simp only [total]
      omega
    · obtain ⟨X, Y, e, ht⟩ := fit_layout_keeps_allocated csz T B n (A.dropWhile is_free)
        (by
          have := (List.dropWhile_sublist is_free (l := A)).length_le
          simp at hl; omega)
      refine ⟨(a + total (A.takeWhile is_free), false) :: X, Y, ?_, ?_⟩
      · rw [e]; rfl
      · simp only [total, ht]
        omega

theorem first_fit_null {s s1 : Heap} {cs : List Chunk} {csz : Nat} (hr : Rep s cs)
    (e : first_fit s csz = some (0, s1)) :
    (fit csz cs).2 = none ∧ same_arena s s1 ∧ Rep s1 (fit_layout csz cs) ∧
      (∀ x, ¬ in_free s.heap_lo cs x → s1.mem x = s.mem x) := by
  obtain ⟨s', e', ha, hr', hfr⟩ := first_fit_spec hr csz
  rw [e] at e'
  simp only [Option.some.injEq, Prod.mk.injEq] at e'
  obtain ⟨e0, rfl⟩ := e'
  have hlo := hr.1.1
  refine ⟨?_, ha, hr', hfr⟩
  by_contra hcon
  have hs : (fit csz cs).2.isSome = true := by
    cases h : (fit csz cs).2 with
    | none => exact absurd h hcon
    | some _ => rfl
  rw [if_pos hs] at e0
  omega

/-- C11, as stated, fails: on the heap reached by `mm_malloc(8)` twice and `mm_free` of
both blocks (two adjacent free chunks of 32 bytes, arena of 1024 bytes), `mm_malloc(2000)`
finds no fit and the arena cannot grow by 2016 bytes; by then `first_fit` has merged the
two free chunks, so the header at 4096 holds size 64 instead of 32. The code hands the
failed result of `mem_sbrk` to `init_chunk` without a check, and the call has no result. -/
theorem headers_change_before_growth_fails :
    (run heap0 [.malloc 8, .malloc 8, .free 4112, .free 4144]).map
      (fun s => (chunks s, load_size s.mem 4096)) = some ([(32, false), (32, false)], 32) ∧
    (hdr_size + align (align 2000)) % 2 ^ 64 = 2016 ∧
    ((run heap0 [.malloc 8, .malloc 8, .free 4112, .free 4144]).bind
      (fun s => first_fit s 2016)).map
      (fun r => (r.1, (mem_sbrk r.2 (align 2016)).isSome, chunks r.2,
        load_size r.2.mem 4096)) = some (0, false, [(64, false)], 64) ∧
    ((run heap0 [.malloc 8, .malloc 8, .free 4112, .free 4144]).bind
      (fun s => mm_malloc s 2000)).isSome = false := by
  decide

/-- C11, amended: on a well-formed heap, if `first_fit` finds no chunk for the chunk size
`mm_malloc(n)` computes and `mem_sbrk` then fails, `mm_malloc(n)` returns no payload
pointer; at that point the arena bounds are unchanged, the heap is well formed, every
allocated chunk is where it was with the same size, no byte outside the free chunks has
changed, and the chunk sequence is the one left by the scan: every free chunk merged
with the free chunks that followed it. -/
theorem malloc_out_of_memory (s s1 : Heap) (n : Nat) (hw : well_formed s)
    (h1 : first_fit s ((hdr_size + align (align n)) % 2 ^ 64) = some (0, s1))
    (h2 : mem_sbrk s1 (align ((hdr_size + align (align n)) % 2 ^ 64)) = none) :
    mm_malloc s n = none ∧ same_arena s s1 ∧ well_formed s1 ∧
      chunks s1 = fit_layout ((hdr_size + align (align n)) % 2 ^ 64) (chunks s) ∧
      (∀ pre sz post, chunks s = pre ++ (sz, true) :: post →
        ∃ pre' post', chunks s1 = pre' ++ (sz, true) :: post' ∧ total pre' = total pre) ∧
      (∀ x, ¬ in_free s.heap_lo (chunks s) x → s1.mem x = s.mem x) := by
  have hr := well_formed_Rep hw
  obtain ⟨-, ha, hr1, hfr⟩ := first_fit_null hr h1
  have hw1 := Rep_iff_well_formed.1 hr1
  refine ⟨?_, ha, hw1.1, hw1.2, ?_, hfr⟩
  · unfold mm_malloc
    simp only [h1, if_true]
    unfold ask_os_for_chunk
    rw [h2]
  · intro pre sz post hc
    rw [hw1.2, hc]
    exact fit_layout_keeps_allocated _ sz post _ pre (Nat.le_refl _)

/-- C11, amended, at a concrete input: a full arena holding two adjacent free chunks and
an allocated chunk. -/
theorem malloc_out_of_memory_witness :
    ∃ s1, first_fit { heap2 with heap_max := 128 } ((hdr_size + align (align 100)) % 2 ^ 64) =
        some (0, s1) ∧
      mm_malloc { heap2 with heap_max := 128 } 100 = none ∧
      same_arena { heap2 with heap_max := 128 } s1 ∧ well_formed s1 ∧
      chunks s1 = fit_layout ((hdr_size + align (align 100)) % 2 ^ 64)
        (chunks { heap2 with heap_max := 128 }) ∧
      (∀ pre sz post, chunks { heap2 with heap_max := 128 } = pre ++ (sz, true) :: post →
        ∃ pre' post', chunks s1 = pre' ++ (sz, true) :: post' ∧ total pre' = total pre) ∧
      (∀ x, ¬ in_free heap2.heap_lo (chunks { heap2 with heap_max := 128 }) x →
        s1.mem x = heap2.mem x) := by
  obtain ⟨r, hr⟩ := Option.isSome_iff_exists.1 (by decide :
    (first_fit { heap2 with heap_max := 128 }
      ((hdr_size + align (align 100)) % 2 ^ 64)).isSome = true)
  have h0 : (first_fit { heap2 with heap_max := 128 }
      ((hdr_size + align (align 100)) % 2 ^ 64)).map
      (fun r => (r.1, (mem_sbrk r.2 (align ((hdr_size + align (align 100)) % 2 ^ 64))).isSome))
      = some (0, false) := by decide
  rw [hr] at h0
  obtain ⟨p, s1⟩ := r
  simp only [Option.map_some', Option.some.injEq, Prod.mk.injEq] at h0
  obtain ⟨rfl, hs⟩ := h0
  have h2 : mem_sbrk s1 (align ((hdr_size + align (align 100)) % 2 ^ 64)) = none := by
    cases h : mem_sbrk s1 (align ((hdr_size + align (align 100)) % 2 ^ 64)) with
    | none => rfl
    | some v => rw [h] at hs; simp at hs
  exact ⟨s1, hr, malloc_out_of_memory { heap2 with heap_max := 128 } s1 100 (by decide) hr h2⟩

/-! ## C12: exact arena growth -/

/-- C12, as stated, fails: on the empty heap `heap0`, `mm_malloc(2^64 - 16)` computes the
chunk size `16 + (2^64 - 16)`, which wraps to `0`; `first_fit` finds no chunk, the arena is
asked for `0` bytes, the heap does not grow, and the chunk stamped at the old heap end has
size `0`, not `16 + align(n)`. And on `heap2` in an arena that is full, `first_fit(128)`
finds no chunk for `mm_malloc(100)`, `mem_sbrk` fails, and the call has no result. -/
theorem exact_growth_fails_on_size_overflow :
    hdr_size + align 18446744073709551600 = 18446744073709551616 ∧
    (hdr_size + align (align 18446744073709551600)) % 2 ^ 64 = 0 ∧
    (first_fit heap0 0).map Prod.fst = some 0 ∧
    (mm_malloc heap0 18446744073709551600).map
      (fun r => (r.1, mem_heapsize r.2, load_size r.2.mem 4096)) = some (4112, 0, 0) ∧
    well_formed { heap2 with heap_max := 128 } ∧ hdr_size + align 100 = 128 ∧
    (first_fit { heap2 with heap_max := 128 } 128).map Prod.fst = some 0 ∧
    (mm_malloc { heap2 with heap_max := 128 } 100).map Prod.fst = none := by
  decide

/-- C12, amended: for every well-formed heap and every size `n` of at most `2^64 - 32`
bytes: if `first_fit(16 + align(n))` finds no chunk and the arena can grow by that much,
`mm_malloc(n)` grows the heap by exactly `16 + align(n)` bytes and the returned payload
belongs to a chunk of the heap walk that starts at the old heap end, is allocated and has
size exactly `16 + align(n)`; and whenever `mm_malloc(n)` returns, the heap size is either
unchanged or larger by exactly `16 + align(n)`, never smaller. -/
theorem exact_arena_growth (s : Heap) (n : Nat) (hw : well_formed s)
    (hn : n + 32 ≤ 2 ^ 64) :
    (∀ s1, first_fit s (hdr_size + align n) = some (0, s1) →
      (mem_sbrk s1 (hdr_size + align n)).isSome = true →
      ∃ p s', mm_malloc s n = some (p, s') ∧
        mem_heapsize s' = mem_heapsize s + (hdr_size + align n) ∧
        payload2header p = mem_heap_lo s + mem_heapsize s ∧
        p = payload2header p + hdr_size ∧ payload2header p ∈ heap_walk s' ∧
        load_size s'.mem (payload2header p) = hdr_size + align n ∧
        load_allocated s'.mem (payload2header p) = true) ∧
    (∀ p s', mm_malloc s n = some (p, s') →
      (mem_heapsize s' = mem_heapsize s ∨
        mem_heapsize s' = mem_heapsize s + (hdr_size + align n)) ∧
      mem_heapsize s ≤ mem_heapsize s') := by
  have hr := well_formed_Rep hw
  have hb := align_bound hn
  constructor
  · intro s1 h1 h2
    obtain ⟨hnone, ⟨-, hsz1, hmx1⟩, hr1, -⟩ := first_fit_null hr h1
    have hcap := mem_sbrk_isSome h2
    rw [hsz1, hmx1] at hcap
    obtain ⟨s', e, hlo, -, hsz, hr', -⟩ := mm_malloc_spec hr hb (Or.inr hcap)
    have ht : total (fit (hdr_size + align n) (chunks s)).1 = s.heap_size := by
      have := hr1.2.2.2
      unfold fit_layout at this
      rw [hnone, List.append_nil] at this
      rw [this, hsz1]
    have hL : malloc_layout (hdr_size + align n) (chunks s) =
        (fit (hdr_size + align n) (chunks s)).1 ++ (hdr_size + align n, true) :: [] := by
      unfold malloc_layout
      rw [hnone]
    rw [hL] at hr'
    obtain ⟨k1, k2, -⟩ := Rep_header hr'
    simp only [] at k1 k2
    rw [hlo, ht] at k1 k2
    have hp : payload2header (s.heap_lo + total (fit (hdr_size + align n) (chunks s)).1 +
        hdr_size) = s.heap_lo + s.heap_size := by
      unfold payload2header
      rw [Nat.add_sub_cancel, ht]
    refine ⟨_, s', e, ?_, hp, ?_, ?_, ?_, ?_⟩
    · rw [hnone] at hsz
      exact hsz
    · rw [hp, ht]
    · rw [hp, heap_walk_Rep hr', hlo, ← ht]
      exact addrs_mem _ _ _ _
    · rw [hp]; exact k1
    · rw [hp]; exact k2
  · intro p s' e
    obtain ⟨hg, -, -⟩ := mm_malloc_some hr hb e
    obtain ⟨s'', e', -, -, hsz, -⟩ := mm_malloc_spec hr hb hg
    rw [e] at e'
    simp only [Option.some.injEq, Prod.mk.injEq] at e'
    obtain ⟨-, rfl⟩ := e'
    unfold mem_heapsize
    split at hsz
    · exact ⟨Or.inl hsz, by omega⟩
    · exact ⟨Or.inr hsz, by omega⟩

/-- C12, amended, at a concrete input: `mm_malloc(100)` on `heap2`, where no chunk fits. -/
theorem exact_arena_growth_witness :
    (∀ s1, first_fit heap2 (hdr_size + align 100) = some (0, s1) →
      (mem_sbrk s1 (hdr_size + align 100)).isSome = true →
      ∃ p s', mm_malloc heap2 100 = some (p, s') ∧
        mem_heapsize s' = mem_heapsize heap2 + (hdr_size + align 100) ∧
        payload2header p = mem_heap_lo heap2 + mem_heapsize heap2 ∧
        p = payload2header p + hdr_size ∧ payload2header p ∈ heap_walk s' ∧
        load_size s'.mem (payload2header p) = hdr_size + align 100 ∧
        load_allocated s'.mem (payload2header p) = true) ∧
    (∀ p s', mm_malloc heap2 100 = some (p, s') →
      (mem_heapsize s' = mem_heapsize heap2 ∨
        mem_heapsize s' = mem_heapsize heap2 + (hdr_size + align 100)) ∧
      mem_heapsize heap2 ≤ mem_heapsize s') ∧
    (first_fit heap2 (hdr_size + align 100)).map
      (fun r => (r.1, (mem_sbrk r.2 (hdr_size + align 100)).isSome)) = some (0, true) ∧
    (mm_malloc heap2 100).map (fun r => (r.1, mem_heapsize r.2)) = some (4240, 256) :=
  ⟨(exact_arena_growth heap2 100 (by decide) (by decide)).1,
    (exact_arena_growth heap2 100 (by decide) (by decide)).2, by decide, by decide⟩

/-! ## C13: the audit after `mm_free` -/

theorem audit_add : ∀ (cs : List Chunk) (info : heap_info_t),
    audit cs info =
      ⟨info.num_allocated_chunks + (audit cs ⟨0, 0, 0, 0⟩).num_allocated_chunks,
        info.num_free_chunks + (audit cs ⟨0, 0, 0, 0⟩).num_free_chunks,
        info.allocated_size + (audit cs ⟨0, 0, 0, 0⟩).allocated_size,
        info.free_size + (audit cs ⟨0, 0, 0, 0⟩).free_size⟩
  | [], info => by simp [audit]
  | (sz, false) :: cs, info => by
    rw [audit, audit, audit_add cs, audit_add cs ⟨0, 0 + 1, 0, 0 + sz⟩]
    simp only [heap_info_t.mk.injEq]
    omega
  | (sz, true) :: cs, info => by
    rw [audit, audit, audit_add cs, audit_add cs ⟨0 + 1, 0, 0 + sz, 0⟩]
    simp only [heap_info_t.mk.injEq]
    omega

theorem audit_append : ∀ (l1 l2 : List Chunk) (info : heap_info_t),
    audit (l1 ++ l2) info = audit l2 (audit l1 info)
  | [], _, _ => rfl
  | (sz, false) :: l1, l2, info => by
    rw [List.cons_append, audit, audit, audit_append l1 l2]
  | (sz, true) :: l1, l2, info => by
    rw [List.cons_append, audit, audit, audit_append l1 l2]

theorem audit_free_run : ∀ (run : List Chunk), (∀ c ∈ run, c.2 = false) →
    audit run ⟨0, 0, 0, 0⟩ = ⟨0, run.length, 0, total run⟩
  | [], _ => rfl
  | (sz, true) :: run, h => by
    have := h (sz, true) (List.mem_cons_self _ _)
    simp at this
  | (sz, false) :: run, h => by
    rw [audit, audit_add, audit_free_run run (fun d hd => h d (List.mem_cons_of_mem _ hd))]
    simp only [heap_info_t.mk.injEq, total, List.length_cons]
    exact ⟨trivial, by omega, trivial, by omega⟩

theorem audit_after_free (pre post : List Chunk) (sz : Nat) :
    (audit (pre ++ (sz + total (post.takeWhile is_free), false) ::
        post.dropWhile is_free) ⟨0, 0, 0, 0⟩).num_allocated_chunks + 1 =
      (audit (pre ++ (sz, true) :: post) ⟨0, 0, 0, 0⟩).num_allocated_chunks ∧
    (audit (pre ++ (sz + total (post.takeWhile is_free), false) ::
        post.dropWhile is_free) ⟨0, 0, 0, 0⟩).allocated_size + sz =
      (audit (pre ++ (sz, true) :: post) ⟨0, 0, 0, 0⟩).allocated_size ∧
    (audit (pre ++ (sz + total (post.takeWhile is_free), false) ::
        post.dropWhile is_free) ⟨0, 0, 0, 0⟩).free_size =
      (audit (pre ++ (sz, true) :: post) ⟨0, 0, 0, 0⟩).free_size + sz ∧
    1 ≤ (audit (pre ++ (sz + total (post.takeWhile is_free), false) ::
        post.dropWhile is_free) ⟨0, 0, 0, 0⟩).num_free_chunks := by
  have hsplit : post.takeWhile is_free ++ post.dropWhile is_free = post :=
    List.takeWhile_append_dropWhile _ _
  have h1 : audit (pre ++ (sz, true) :: post) ⟨0, 0, 0, 0⟩ =
      audit (post.dropWhile is_free) (audit (post.takeWhile is_free)
        (audit [(sz, true)] (audit pre ⟨0, 0, 0, 0⟩))) := by
    rw [← audit_append, ← audit_append, ← audit_append, hsplit]
    rfl
  have h2 : audit (pre ++ (sz + total (post.takeWhile is_free), false) ::
      post.dropWhile is_free) ⟨0, 0, 0, 0⟩ =
      audit (post.dropWhile is_free) (audit [(sz + total (post.takeWhile is_free), false)]
        (audit pre ⟨0, 0, 0, 0⟩)) := by
    rw [← audit_append, ← audit_append]
    rfl
  rw [h1, h2, audit_add (post.dropWhile is_free),
    audit_add (post.dropWhile is_free) (audit (post.takeWhile is_free) _),
    audit_add (post.takeWhile is_free), audit_free_run _ takeWhile_free]
  simp only [audit]
  refine ⟨?_, ?_, ?_, ?_⟩
  · omega
  · omega
  · omega
  · omega

/-- C13: for every well-formed heap and every live payload pointer `p` whose chunk has
size `sz`, `mm_checkheap` returns before the call, `mm_free(p)` returns, and `mm_checkheap`
returns afterwards with `num_allocated_chunks` one less than before, `allocated_size`
smaller by exactly `sz`, `free_size` larger by exactly `sz` and `num_free_chunks >= 1`.
In particular, on every empty heap whose arena can hold the three chunks, after
`mm_malloc` of `a`, `b` and `c` bytes and `mm_free` of the second block the audit reports
2 allocated chunks, at least 1 free chunk and a `free_size` of at least the size of the
second chunk. -/
theorem audit_after_mm_free :
    (∀ (s : Heap) (pre post : List Chunk) (sz : Nat), well_formed s →
      chunks s = pre ++ (sz, true) :: post →
      ∃ s' i0 i1, mm_checkheap s = some i0 ∧
        mm_free s (s.heap_lo + total pre + hdr_size) = some s' ∧
        mm_checkheap s' = some i1 ∧
        i1.num_allocated_chunks + 1 = i0.num_allocated_chunks ∧
        i1.allocated_size + sz = i0.allocated_size ∧
        i1.free_size = i0.free_size + sz ∧ 1 ≤ i1.num_free_chunks) ∧
    (∀ (s0 : Heap) (a b c : Nat), arena_ok s0 → mem_heapsize s0 = 0 →
      a + 32 ≤ 2 ^ 64 → b + 32 ≤ 2 ^ 64 → c + 32 ≤ 2 ^ 64 →
      (hdr_size + align a) + (hdr_size + align b) + (hdr_size + align c) ≤ s0.heap_max →
      ∃ pA sA pB sB pC sC sF info, mm_malloc s0 a = some (pA, sA) ∧
        mm_malloc sA b = some (pB, sB) ∧ mm_malloc sB c = some (pC, sC) ∧
        mm_free sC pB = some sF ∧ mm_checkheap sF = some info ∧
        info.num_allocated_chunks = 2 ∧ 1 ≤ info.num_free_chunks ∧
        hdr_size + align b ≤ info.free_size) := by
  constructor
  · intro s pre post sz hw hc
    have hr : Rep s (pre ++ (sz, true) :: post) := Rep_iff_well_formed.2 ⟨hw, hc⟩
    obtain ⟨s', e, -, hr', -⟩ := mm_free_spec hr
    obtain ⟨k1, k2, k3, k4⟩ := audit_after_free pre post sz
    exact ⟨s', _, _, mm_checkheap_spec hr (by simp), e, mm_checkheap_spec hr' (by simp),
      k1, k2, k3, k4⟩
  · intro s0 a b c ha h0 hba hbb hbc hcap
    have hr0 := Rep_empty ha h0
    have hs0 : s0.heap_size = 0 := h0
    obtain ⟨s1, e1, hlo1, hmx1, hsz1, hr1, -⟩ := mm_malloc_spec hr0 (align_bound hba)
      (Or.inr (by omega))
    simp only [fit_nil, malloc_layout_nil, total, Option.isSome_none, Bool.false_eq_true,
      if_false] at e1 hsz1 hr1
    obtain ⟨s2, e2, hlo2, hmx2, hsz2, hr2, -⟩ := mm_malloc_spec hr1 (align_bound hbb)
      (Or.inr (by omega))
    simp only [fit_cons_allocated, fit_nil, malloc_layout_cons_allocated, malloc_layout_nil,
      total, Option.isSome_none, Bool.false_eq_true, if_false] at e2 hsz2 hr2
    obtain ⟨s3, e3, hlo3, hmx3, hsz3, hr3, -⟩ := mm_malloc_spec hr2 (align_bound hbc)
      (Or.inr (by omega))
    simp only [fit_cons_allocated, fit_nil, malloc_layout_cons_allocated, malloc_layout_nil,
      total, Option.isSome_none, Bool.false_eq_true, if_false] at e3 hsz3 hr3
    have hr3' : Rep s3 ([(hdr_size + align a, true)] ++ (hdr_size + align b, true) ::
        [(hdr_size + align c, true)]) := hr3
    obtain ⟨s4, e4, -, hr4, -⟩ := mm_free_spec hr3'
    simp only [total, List.takeWhile, List.dropWhile, is_free, Bool.not_true,
      Nat.add_zero] at e4 hr4
    have hck := mm_checkheap_spec hr4 (by simp)
    refine ⟨_, s1, _, s2, _, s3, s4, _, e1, e2, e3, ?_, hck, ?_, ?_, ?_⟩
    · have hp : s1.heap_lo + (hdr_size + align a + 0) + hdr_size =
          s3.heap_lo + (hdr_size + align a) + hdr_size := by rw [hlo3, hlo2, Nat.add_zero]
      rw [hp]
      exact e4
    · simp [audit]
    · simp [audit]
    · simp [audit]

/-- C13 at a concrete input: the allocated first chunk of `heap2`, and the scenario with
sizes 8, 100 and 24 on `heap0`. -/
theorem audit_after_mm_free_witness :
    (∃ s' i0 i1, mm_checkheap heap2 = some i0 ∧
        mm_free heap2 (heap2.heap_lo + total [] + hdr_size) = some s' ∧
        mm_checkheap s' = some i1 ∧
        i1.num_allocated_chunks + 1 = i0.num_allocated_chunks ∧
        i1.allocated_size + 32 = i0.allocated_size ∧
        i1.free_size = i0.free_size + 32 ∧ 1 ≤ i1.num_free_chunks) ∧
    (∃ pA sA pB sB pC sC sF info, mm_malloc heap0 8 = some (pA, sA) ∧
        mm_malloc sA 100 = some (pB, sB) ∧ mm_malloc sB 24 = some (pC, sC) ∧
        mm_free sC pB = some sF ∧ mm_checkheap sF = some info ∧
        info.num_allocated_chunks = 2 ∧ 1 ≤ info.num_free_chunks ∧
        hdr_size + align 100 ≤ info.free_size) :=
  ⟨audit_after_mm_free.1 heap2 [] [(32, false), (32, false), (32, true)] 32 (by decide)
      (by decide),
    audit_after_mm_free.2 heap0 8 100 24 (by decide) rfl (by decide) (by decide) (by decide)
      (by decide)⟩

/-! ## C14: the chunk size invariant -/

/-- C14, as stated, fails: from the empty heap, `mm_malloc(16)` followed by
`mm_realloc` of the block to `2^64 - 16` bytes (a valid call on a live pointer) leaves the
chunk at the heap start, which the heap walk visits, with size `0`: `size + hdr_size`
wraps to `0` and `split` is asked to cut at `0`. -/
theorem chunk_size_invariant_fails_on_size_overflow :
    (run heap0 [.malloc 16, .realloc 4112 18446744073709551600]).map
      (fun s => (decide (4096 ∈ heap_walk s), load_size s.mem 4096)) = some (true, 0) := by
  decide

/-- C14, amended: in every heap state reached from the empty heap by valid `mm_malloc` /
`mm_free` / `mm_realloc` calls that request at most `2^64 - 32` bytes, every chunk visited
by the heap walk has a size that is a multiple of 16 and at least the header size. -/
theorem chunk_size_invariant (s0 s : Heap) (calls : List Call) (ha : arena_ok s0)
    (h0 : mem_heapsize s0 = 0) (hb : ∀ c ∈ calls, c.size + 32 ≤ 2 ^ 64)
    (h : run s0 calls = some s) :
    ∀ c ∈ heap_walk s, hdr_size ≤ load_size s.mem c ∧ load_size s.mem c % 16 = 0 := by
  obtain ⟨cs, hr, -⟩ := run_Rep calls s0 s [] (Rep_empty ha h0) hb h
  have hw := (Rep_iff_well_formed.1 hr).1
  intro c hc
  have hm : (load_size s.mem c, load_allocated s.mem c) ∈ chunks s := by
    unfold chunks
    exact List.mem_map.2 ⟨c, hc, rfl⟩
  exact hw.2.1 _ hm

/-- C14, amended, at a concrete input: the heap after four calls on `heap0`. -/
theorem chunk_size_invariant_witness :
    ∃ s, run heap0 [.malloc 8, .malloc 100, .free 4112, .realloc 4144 300] = some s ∧
      heap_walk s ≠ [] ∧
      ∀ c ∈ heap_walk s, hdr_size ≤ load_size s.mem c ∧ load_size s.mem c % 16 = 0 := by
  obtain ⟨s, hs⟩ := Option.isSome_iff_exists.1
    (by decide : (run heap0 [.malloc 8, .malloc 100, .free 4112, .realloc 4144 300]).isSome
      = true)
  have hne : (run heap0 [.malloc 8, .malloc 100, .free 4112, .realloc 4144 300]).map
      (fun s => decide (heap_walk s ≠ [])) = some true := by decide
  rw [hs] at hne
  simp only [Option.map_some', Option.some.injEq, decide_eq_true_eq] at hne
  exact ⟨s, hs, hne, chunk_size_invariant heap0 s _ (by decide) rfl (by decide) hs⟩

/-! ## C15: the heap walker -/

theorem next_chunk_of_ne_zero {s : Heap} {cur : Nat} (h0 : cur ≠ 0)
    (hn : next_chunk s cur ≠ 0) : next_chunk s cur = cur + load_size s.mem cur := by
  unfold next_chunk at hn ⊢
  rw [if_neg h0] at hn ⊢
  split at hn
  · exact absurd rfl hn
  · rename_i h
    rw [if_neg h]

theorem walk_chain (s : Heap) : ∀ (fuel cur : Nat),
    List.Chain' (fun a b => b = a + load_size s.mem a) (walk fuel s cur)
  | 0, _ => List.chain'_nil
  | f + 1, cur => by
    rw [walk]
    by_cases h0 : cur = 0
    · rw [if_pos h0]
      exact List.chain'_nil
    · rw [if_neg h0, List.chain'_cons']
      refine ⟨?_, walk_chain s f _⟩
      intro y hy
      cases f with
      | zero => simp [walk] at hy
      | succ f =>
        rw [walk] at hy
        by_cases hn : next_chunk s cur = 0
        · rw [if_pos hn] at hy
          simp at hy
        · rw [if_neg hn] at hy
          simp only [List.head?_cons, Option.mem_def, Option.some.injEq] at hy
          rw [← hy]
          exact next_chunk_of_ne_zero h0 hn

/-- C15: in a well-formed heap, for every chunk header `h` of the heap walk,
`next_chunk(h)` is `h + h.size` when that address is not past the last valid heap byte
and `NULL` otherwise, and it is `NULL` exactly for the chunk that ends at the heap end;
`next_chunk(NULL)` is the heap's low address when the heap is not empty and `NULL` when it
is; hence in the full walk each chunk's end address is the next chunk's start address. -/
theorem next_chunk_walks (s : Heap) (hw : well_formed s) :
    (∀ h ∈ heap_walk s, h ≠ 0 ∧
      next_chunk s h =
        (if h + load_size s.mem h ≤ mem_heap_hi s then h + load_size s.mem h else 0) ∧
      (next_chunk s h = 0 ↔ h + load_size s.mem h = mem_heap_lo s + mem_heapsize s)) ∧
    next_chunk s 0 = (if mem_heapsize s ≠ 0 then mem_heap_lo s else 0) ∧
    List.Chain' (fun a b => b = a + load_size s.mem a) (heap_walk s) := by
  have hr := well_formed_Rep hw
  refine ⟨?_, by simp [next_chunk], walk_chain s _ _⟩
  intro h hh
  rw [heap_walk_Rep hr] at hh
  obtain ⟨pre, c, post, e, rfl⟩ := mem_addrs _ _ _ hh
  rw [e] at hr
  obtain ⟨h1, -, h16, -, hend, hlo, -⟩ := Rep_header hr
  have hne : s.heap_lo + total pre ≠ 0 := by omega
  refine ⟨hne, ?_, ?_⟩
  · unfold next_chunk
    rw [if_neg hne]
    by_cases hc : s.heap_lo + total pre + load_size s.mem (s.heap_lo + total pre) ≤
        mem_heap_hi s
    · rw [if_pos hc, if_neg (by omega)]
    · rw [if_neg hc, if_pos (by omega)]
  · unfold mem_heap_lo mem_heapsize
    rcases next_chunk_Rep hr with ⟨hp, hn⟩ | ⟨hp, hn⟩
    · subst hp
      simp only [total] at hend
      rw [hn, h1]
      exact ⟨fun _ => by omega, fun _ => rfl⟩
    · rw [hn, h1]
      have hpos : 0 < total post := by
        cases post with
        | nil => exact absurd rfl hp
        | cons d post =>
          have hr2 : Rep s ((pre ++ [c]) ++ d :: post) := by
            rw [List.append_assoc]; exact hr
          obtain ⟨-, -, hd16, -⟩ := Rep_header hr2
          simp only [total]
          omega
      exact ⟨fun h => by omega, fun h => by omega⟩

/-- C15 at a concrete input: the four chunks of `heap2`. -/
theorem next_chunk_walks_witness :
    ((∀ h ∈ heap_walk heap2, h ≠ 0 ∧
      next_chunk heap2 h =
        (if h + load_size heap2.mem h ≤ mem_heap_hi heap2 then h + load_size heap2.mem h
         else 0) ∧
      (next_chunk heap2 h = 0 ↔
        h + load_size heap2.mem h = mem_heap_lo heap2 + mem_heapsize heap2)) ∧
    next_chunk heap2 0 = (if mem_heapsize heap2 ≠ 0 then mem_heap_lo heap2 else 0) ∧
    List.Chain' (fun a b => b = a + load_size heap2.mem a) (heap_walk heap2)) ∧
    heap_walk heap2 = [4096, 4128, 4160, 4192] ∧ next_chunk heap2 4192 = 0 ∧
    next_chunk heap0 0 = 0 :=
  ⟨next_chunk_walks heap2 (by decide), by decide, by decide, by decide⟩

/-! ## C17: what `first_fit` returns (the scan lemmas also serve C16) -/

theorem takeWhile_dropWhile_free (cs : List Chunk) :
    (cs.dropWhile is_free).takeWhile is_free = [] := by
  have hd := dropWhile_free_head cs
  cases h : cs.dropWhile is_free with
  | nil => rfl
  | cons d D =>
    rw [h] at hd
    have := hd d rfl
    simp [List.takeWhile, is_free, this]

theorem prefix_total_mono : ∀ (P P1 X Y : List Chunk), P ++ X = P1 ++ Y →
    P.length ≤ P1.length → total P ≤ total P1
  | [], _, _, _, _, _ => by simp [total]
  | x :: P, [], _, _, _, h => by simp at h
  | x :: P, y :: P1, X, Y, e, h => by
    simp only [List.cons_append, List.cons.injEq] at e
    have := prefix_total_mono P P1 X Y e.2 (by simp at h; omega)
    simp only [total, e.1]
    omega

theorem free_step_allocated {a b : Nat} {cs P1 Q1 : List Chunk}
    (e : (a, true) :: cs = P1 ++ (b, false) :: Q1) :
    ∃ P1', P1 = (a, true) :: P1' ∧ cs = P1' ++ (b, false) :: Q1 := by
  cases P1 with
  | nil => simp at e
  | cons x P1' =>
    simp only [List.cons_append, List.cons.injEq] at e
    exact ⟨P1', by rw [e.1], e.2⟩

theorem free_step_free {a b csz : Nat} {cs P1 Q1 : List Chunk}
    (hno : a + total (cs.takeWhile is_free) < csz)
    (e : (a, false) :: cs = P1 ++ (b, false) :: Q1) :
    b + total (Q1.takeWhile is_free) < csz ∨
      ∃ c, P1 = (a, false) :: (cs.takeWhile is_free ++ c) ∧
        cs.dropWhile is_free = c ++ (b, false) :: Q1 := by
  cases P1 with
  | nil =>
    simp only [List.nil_append, List.cons.injEq, Prod.mk.injEq, and_true] at e
    left
    rw [← e.1, ← e.2]
    exact hno
  | cons x P1' =>
    simp only [List.cons_append, List.cons.injEq] at e
    obtain ⟨rfl, e2⟩ := e
    have hsplit : cs.takeWhile is_free ++ cs.dropWhile is_free = cs :=
      List.takeWhile_append_dropWhile _ _
    rw [← hsplit] at e2
    rcases List.append_eq_append_iff.1 e2 with ⟨c, h1, h2⟩ | ⟨c, h1, h2⟩
    · right
      exact ⟨c, by rw [h1], h2⟩
    · cases c with
      | nil =>
        right
        refine ⟨[], by rw [h1]; simp, ?_⟩
        rw [List.nil_append] at h2
        rw [List.nil_append, h2]
      | cons y c =>
        left
        simp only [List.cons_append, List.cons.injEq] at h2
        obtain ⟨rfl, rfl⟩ := h2
        have hall : ∀ d ∈ c, is_free d = true := by
          intro d hd
          have : d ∈ cs.takeWhile is_free := by
            rw [h1]
            simp [hd]
          exact List.mem_takeWhile_imp this
        rw [List.takeWhile_append_of_pos hall, takeWhile_dropWhile_free, List.append_nil]
        have ht : total (cs.takeWhile is_free) = total P1' + (b + total c) := by
          rw [h1, total_append]
          simp only [total]
        omega

theorem fit_spec (csz : Nat) : ∀ (n : Nat) (cs : List Chunk), cs.length ≤ n →
    (∀ sz rest, (fit csz cs).2 = some (sz, rest) →
      ∃ P a Q, cs = P ++ (a, false) :: Q ∧ total P = total (fit csz cs).1 ∧
        sz = a + total (Q.takeWhile is_free) ∧ rest = Q.dropWhile is_free ∧ csz ≤ sz ∧
        ∀ P1 b Q1, cs = P1 ++ (b, false) :: Q1 → P1.length < P.length →
          b + total (Q1.takeWhile is_free) < csz) ∧
    ((fit csz cs).2 = none →
      ∀ P1 b Q1, cs = P1 ++ (b, false) :: Q1 → b + total (Q1.takeWhile is_free) < csz)
  | _, [], _ => by
    refine ⟨fun sz rest h => by simp [fit_nil] at h, fun _ P1 b Q1 e => ?_⟩
    simp at e
  | 0, _ :: _, hl => by simp at hl
  | n + 1, (a, true) :: cs, hl => by
    obtain ⟨ih1, ih2⟩ := fit_spec csz n cs (by simp at hl; omega)
    rw [fit_cons_allocated]
    constructor
    · intro sz rest h
      obtain ⟨P, a', Q, e, ht, hsz, hrest, hle, hearly⟩ := ih1 sz rest h
      refine ⟨(a, true) :: P, a', Q, by rw [e]; rfl, by simp only [total, ht], hsz, hrest,
        hle, ?_⟩
      intro P1 b Q1 e1 hlen
      obtain ⟨P1', rfl, e1'⟩ := free_step_allocated e1
      exact hearly P1' b Q1 e1' (by simp at hlen; omega)
    · intro h P1 b Q1 e1
      obtain ⟨P1', rfl, e1'⟩ := free_step_allocated e1
      exact ih2 h P1' b Q1 e1'
  | n + 1, (a, false) :: cs, hl => by
    obtain ⟨ih1, ih2⟩ := fit_spec csz n (cs.dropWhile is_free) (by
      have := (List.dropWhile_sublist is_free (l := cs)).length_le
      simp at hl; omega)
    have hsplit : cs.takeWhile is_free ++ cs.dropWhile is_free = cs :=
      List.takeWhile_append_dropWhile _ _
    rw [fit_cons_free]
    by_cases hfit : csz ≤ a + total (cs.takeWhile is_free)
    · rw [if_pos hfit]
      refine ⟨fun sz rest h => ?_, fun h => by simp at h⟩
      simp only [Option.some.injEq, Prod.mk.injEq] at h
      obtain ⟨rfl, rfl⟩ := h
      exact ⟨[], a, cs, rfl, rfl, rfl, rfl, hfit, fun P1 b Q1 _ hlen => by simp at hlen⟩
    · rw [if_neg hfit]
      have hno : a + total (cs.takeWhile is_free) < csz := by omega
      constructor
      · intro sz rest h
        obtain ⟨P, a', Q, e, ht, hsz, hrest, hle, hearly⟩ := ih1 sz rest h
        refine ⟨(a, false) :: (cs.takeWhile is_free ++ P), a', Q, ?_, ?_, hsz, hrest, hle, ?_⟩
        · rw [List.cons_append, List.append_assoc, ← e, hsplit]
        · simp only [total, total_append, ht]
          omega
        · intro P1 b Q1 e1 hlen
          rcases free_step_free hno e1 with h' | ⟨c, rfl, hc⟩
          · exact h'
          · exact hearly c b Q1 hc (by simp at hlen; omega)
      · intro h P1 b Q1 e1
        rcases free_step_free hno e1 with h' | ⟨c, rfl, hc⟩
        · exact h'
        · exact ih2 h c b Q1 hc

theorem fit_none_of_not_isSome {csz : Nat} {cs : List Chunk}
    (h : ¬ (fit csz cs).2.isSome = true) : (fit csz cs).2 = none := by
  cases hf : (fit csz cs).2 with
  | none => rfl
  | some x => rw [hf] at h; simp at h

/-- C17: on a well-formed heap, for every `csz`, `first_fit(csz)` returns and leaves the
heap well formed. A non-`NULL` result is the address of a free chunk of the heap whose
size plus the sizes of the free chunks immediately after it is at least `csz`, while every
free chunk at a lower address stays below `csz` even with the free chunks after it; the
returned chunk is in the heap walk afterwards, is free, and its header holds that merged
size, which is at least `csz`. The result is `NULL` exactly when no free chunk of the heap
reaches `csz` together with the free chunks immediately after it. -/
theorem first_fit_returns_first_fit (s : Heap) (csz : Nat) (hw : well_formed s) :
    ∃ p s', first_fit s csz = some (p, s') ∧ well_formed s' ∧
      (p ≠ 0 → ∃ P a Q, chunks s = P ++ (a, false) :: Q ∧ p = s.heap_lo + total P ∧
          csz ≤ a + total (Q.takeWhile is_free) ∧
          (∀ P1 b Q1, chunks s = P1 ++ (b, false) :: Q1 → s.heap_lo + total P1 < p →
            b + total (Q1.takeWhile is_free) < csz) ∧
          p ∈ heap_walk s' ∧ load_allocated s'.mem p = false ∧
          load_size s'.mem p = a + total (Q.takeWhile is_free) ∧
          csz ≤ load_size s'.mem p) ∧
      (p = 0 ↔ ∀ P1 b Q1, chunks s = P1 ++ (b, false) :: Q1 →
          b + total (Q1.takeWhile is_free) < csz) := by
  have hr := well_formed_Rep hw
  obtain ⟨s', e, ha, hr', -⟩ := first_fit_spec hr csz
  obtain ⟨h1, h2⟩ := fit_spec csz (chunks s).length (chunks s) (Nat.le_refl _)
  have hlo : 0 < s.heap_lo := hr.1.1
  refine ⟨_, s', e, (Rep_iff_well_formed.1 hr').1, ?_, ?_⟩
  · intro hp
    by_cases hs : (fit csz (chunks s)).2.isSome = true
    · obtain ⟨⟨sz, rest⟩, hf⟩ := Option.isSome_iff_exists.1 hs
      obtain ⟨P, a, Q, e1, ht, hsz, hrest, hle, hearly⟩ := h1 sz rest hf
      rw [if_pos hs]
      refine ⟨P, a, Q, e1, by rw [ht], by omega, ?_, ?_⟩
      · intro P1 b Q1 e2 hlt
        apply hearly P1 b Q1 e2
        by_contra hcon
        have := prefix_total_mono P P1 _ _ (e1.symm.trans e2) (by omega)
        omega
      · have hl : fit_layout csz (chunks s) = (fit csz (chunks s)).1 ++ (sz, false) :: rest := by
          unfold fit_layout
          rw [hf]
        rw [hl] at hr'
        obtain ⟨l1, l2, -⟩ := Rep_header hr'
        rw [ha.1] at l1 l2
        refine ⟨?_, l2, by rw [l1, hsz], by rw [l1]; exact hle⟩
        rw [heap_walk_Rep hr', ha.1]
        exact addrs_mem _ _ _ _
    · rw [if_neg hs] at hp
      exact absurd rfl hp
  · by_cases hs : (fit csz (chunks s)).2.isSome = true
    · obtain ⟨⟨sz, rest⟩, hf⟩ := Option.isSome_iff_exists.1 hs
      obtain ⟨P, a, Q, e1, ht, hsz, hrest, hle, hearly⟩ := h1 sz rest hf
      rw [if_pos hs]
      constructor
      · intro h0
        omega
      · intro hall
        have := hall P a Q e1
        omega
    · rw [if_neg hs]
      exact ⟨fun _ => h2 (fit_none_of_not_isSome hs), fun _ => rfl⟩

/-- C17 at a concrete input: on `heap2` with `csz = 48` the scan returns the free chunk at
4128, merged with the free chunk after it to 64 bytes; with `csz = 80` it returns `NULL`. -/
theorem first_fit_returns_first_fit_witness :
    (∃ p s', first_fit heap2 48 = some (p, s') ∧ well_formed s' ∧
      (p ≠ 0 → ∃ P a Q, chunks heap2 = P ++ (a, false) :: Q ∧ p = heap2.heap_lo + total P ∧
          48 ≤ a + total (Q.takeWhile is_free) ∧
          (∀ P1 b Q1, chunks heap2 = P1 ++ (b, false) :: Q1 → heap2.heap_lo + total P1 < p →
            b + total (Q1.takeWhile is_free) < 48) ∧
          p ∈ heap_walk s' ∧ load_allocated s'.mem p = false ∧
          load_size s'.mem p = a + total (Q.takeWhile is_free) ∧
          48 ≤ load_size s'.mem p) ∧
      (p = 0 ↔ ∀ P1 b Q1, chunks heap2 = P1 ++ (b, false) :: Q1 →
          b + total (Q1.takeWhile is_free) < 48)) ∧
    (first_fit heap2 48).map (fun r => (r.1, load_size r.2.mem r.1, chunks r.2)) =
      some (4128, 64, [(32, true), (64, false), (32, true)]) ∧
    (first_fit heap2 80).map (fun r => (r.1, chunks r.2)) =
      some (0, [(32, true), (64, false), (32, true)]) :=
  ⟨first_fit_returns_first_fit heap2 48 (by decide), by decide, by decide⟩

/-! ## C16: allocated chunks across `mm_malloc` -/

theorem fit_start_not_allocated {s : Heap} {pre post : List Chunk} {sz : Nat} (csz : Nat)
    (hr : Rep s (pre ++ (sz, true) :: post)) :
    total (fit csz (pre ++ (sz, true) :: post)).1 ≠ total pre := by
  obtain ⟨h1, -⟩ := fit_spec csz _ (pre ++ (sz, true) :: post) (Nat.le_refl _)
  intro hcon
  cases hf : (fit csz (pre ++ (sz, true) :: post)).2 with
  | none =>
    obtain ⟨s1, -, ⟨-, hsz1, -⟩, hr1, -⟩ := first_fit_spec hr csz
    have ht := hr1.2.2.2
    unfold fit_layout at ht
    rw [hf, List.append_nil, hsz1, ← hr.2.2.2, hcon, total_append] at ht
    have h16 := (Rep_header hr).2.2.1
    simp only [total] at ht h16
    omega
  | some r =>
    obtain ⟨P, a, Q, e, ht, -⟩ := h1 r.1 r.2 hf
    have := chunks_same _ _ _ _ _ _ e hr.2.2.1 (by rw [ht, hcon])
    simp at this

/-- C16, as stated, fails: on the well-formed heap reached by two `mm_malloc(16)` calls and
`mm_free` of the first block (a free chunk of 32 bytes at 4096, then an allocated chunk of
32 bytes at 4128), `mm_malloc(2^64 - 16)` computes the chunk size `0`, takes the free chunk
and sets its size to `0`; afterwards the heap walk never leaves 4096, so the allocated
chunk at 4128 is no longer in the walk. -/
theorem live_chunk_lost_on_size_overflow :
    (run heap0 [.malloc 16, .malloc 16, .free 4112]).map
      (fun s => decide (well_formed s ∧ chunks s = [(32, false), (32, true)] ∧
        4128 ∈ heap_walk s)) = some true ∧
    ((run heap0 [.malloc 16, .malloc 16, .free 4112]).bind
      (fun s => mm_malloc s 18446744073709551600)).map
      (fun r => (r.1, load_size r.2.mem 4096, decide (4128 ∈ heap_walk r.2),
        load_allocated r.2.mem 4128)) = some (4112, 0, false, true) := by
  decide

/-- C16, amended: for every well-formed heap and every size `n` of at most `2^64 - 32`
bytes, when `mm_malloc(n)` returns, the heap is well formed and every chunk that was marked
allocated before the call is still a chunk of the heap walk at the same address, with the
same size, still marked allocated, with every byte of the chunk unchanged; and the chunk
returned by `mm_malloc` is disjoint from each of them. -/
theorem malloc_keeps_live_chunks (s s' : Heap) (n p : Nat) (hw : well_formed s)
    (hn : n + 32 ≤ 2 ^ 64) (h : mm_malloc s n = some (p, s')) :
    well_formed s' ∧
    ∀ pre sz post, chunks s = pre ++ (sz, true) :: post →
      (∃ pre' post', chunks s' = pre' ++ (sz, true) :: post' ∧ total pre' = total pre) ∧
      s.heap_lo + total pre ∈ heap_walk s' ∧
      load_size s'.mem (s.heap_lo + total pre) = sz ∧
      load_allocated s'.mem (s.heap_lo + total pre) = true ∧
      (∀ x, s.heap_lo + total pre ≤ x → x < s.heap_lo + total pre + sz →
        s'.mem x = s.mem x) ∧
      (payload2header p + load_size s'.mem (payload2header p) ≤ s.heap_lo + total pre ∨
        s.heap_lo + total pre + sz ≤ payload2header p) := by
  have hr := well_formed_Rep hw
  have hb := align_bound hn
  obtain ⟨hg, -, -⟩ := mm_malloc_some hr hb h
  obtain ⟨s'', e, hlo, -, -, hr', hfr⟩ := mm_malloc_spec hr hb hg
  rw [h] at e
  simp only [Option.some.injEq, Prod.mk.injEq] at e
  obtain ⟨hp, rfl⟩ := e
  refine ⟨(Rep_iff_well_formed.1 hr').1, ?_⟩
  intro pre sz post hcs
  rw [hcs] at hr hr' hfr hp
  obtain ⟨X, Y, eX, hX⟩ := malloc_layout_keeps_allocated (hdr_size + align n) sz post
    pre.length pre (Nat.le_refl _)
  obtain ⟨c, B, eF, -⟩ := malloc_layout_new_chunk (hdr_size + align n)
    (pre ++ (sz, true) :: post)
  have hne := fit_start_not_allocated (hdr_size + align n) hr
  have hrX := hr'
  rw [eX] at hrX
  have hrF := hr'
  rw [eF] at hrF
  obtain ⟨k1, k2, -⟩ := Rep_header hrX
  obtain ⟨f1, -⟩ := Rep_header hrF
  obtain ⟨-, -, -, -, hend, -⟩ := Rep_header hr
  rw [hlo, hX] at k1 k2
  rw [hlo] at f1
  have hq : payload2header p =
      s.heap_lo + total (fit (hdr_size + align n) (pre ++ (sz, true) :: post)).1 := by
    rw [hp]
    unfold payload2header
    rw [Nat.add_sub_cancel]
  refine ⟨⟨X, Y, (chunks_Rep hr').trans eX, hX⟩, ?_, k1, k2, ?_, ?_⟩
  · rw [heap_walk_Rep hrX, hlo, ← hX]
    exact addrs_mem _ _ _ _
  · intro x hx1 hx2
    exact hfr x (not_in_free_allocated hx1 hx2) (by omega)
  · rw [hq, f1]
    have hso : sizes_ok (X ++ (sz, true) :: Y) := hrX.2.2.1
    rcases Nat.lt_or_ge (total X) (total (fit (hdr_size + align n)
      (pre ++ (sz, true) :: post)).1) with hlt | hge
    · right
      have := chunks_apart X _ Y B (sz, true) (c, true) (eX.symm.trans eF) hso hlt
      simp only [] at this
      omega
    · left
      have hlt : total (fit (hdr_size + align n) (pre ++ (sz, true) :: post)).1 < total X := by
        omega
      have := chunks_apart _ X B Y (c, true) (sz, true) (eF.symm.trans eX) hrF.2.2.1 hlt
      simp only [] at this
      omega

/-- C16 at a concrete input: `mm_malloc(16)` on `heap2` returns the free chunk at 4128
(payload 4144); the allocated chunks at 4096 and 4192 stay as they were. -/
theorem malloc_keeps_live_chunks_witness :
    ∃ s', mm_malloc heap2 16 = some (4144, s') ∧ well_formed s' ∧
    ∀ pre sz post, chunks heap2 = pre ++ (sz, true) :: post →
      (∃ pre' post', chunks s' = pre' ++ (sz, true) :: post' ∧ total pre' = total pre) ∧
      heap2.heap_lo + total pre ∈ heap_walk s' ∧
      load_size s'.mem (heap2.heap_lo + total pre) = sz ∧
      load_allocated s'.mem (heap2.heap_lo + total pre) = true ∧
      (∀ x, heap2.heap_lo + total pre ≤ x → x < heap2.heap_lo + total pre + sz →
        s'.mem x = heap2.mem x) ∧
      (payload2header 4144 + load_size s'.mem (payload2header 4144) ≤
          heap2.heap_lo + total pre ∨
        heap2.heap_lo + total pre + sz ≤ payload2header 4144) := by
  obtain ⟨r, hr⟩ := Option.isSome_iff_exists.1 (by decide :
    (mm_malloc heap2 16).isSome = true)
  have h0 : (mm_malloc heap2 16).map Prod.fst = some 4144 := by decide
  rw [hr] at h0
  obtain ⟨p, s'⟩ := r
  simp only [Option.map_some', Option.some.injEq] at h0
  subst h0
  exact ⟨s', hr, malloc_keeps_live_chunks heap2 s' 16 4144 (by decide) (by decide) hr⟩

/-! ## C18: the copy length of `mm_realloc` -/

theorem no_adjacent_free_prefix : ∀ (l : List Chunk) (x : Chunk),
    no_adjacent_free (l ++ [x]) → no_adjacent_free l
  | [], _, _ => trivial
  | [_], _, _ => trivial
  | a :: b :: l, x, h => by
    simp only [List.cons_append, no_adjacent_free] at h ⊢
    exact ⟨h.1, no_adjacent_free_prefix (b :: l) x h.2⟩

theorem no_adjacent_free_fit_null {csz : Nat} {cs : List Chunk}
    (h : (fit csz cs).2 = none) : no_adjacent_free (fit_layout csz cs) := by
  unfold fit_layout
  rw [h, List.append_nil]
  exact no_adjacent_free_prefix _ _ (no_adjacent_free_fit csz 0 cs.length cs (Nat.le_refl _))

theorem mm_malloc_wrap_null {s s1 s' : Heap} {cs : List Chunk} {n p : Nat}
    (hr : Rep s cs) (hn : ¬ align n + 32 ≤ 2 ^ 64)
    (h1 : first_fit s ((hdr_size + align (align n)) % 2 ^ 64) = some (0, s1))
    (h : mm_malloc s n = some (p, s')) :
    Rep s' (fit_layout ((hdr_size + align (align n)) % 2 ^ 64) cs) := by
  obtain ⟨hidem, ham, hle⟩ := align_facts n
  have hcsz : (hdr_size + align (align n)) % 2 ^ 64 = 0 := by
    rw [hidem]
    unfold hdr_size
    omega
  rw [hcsz] at h1 ⊢
  obtain ⟨-, ⟨hlo1, hsz1, hmx1⟩, hr1, -⟩ := first_fit_null hr h1
  obtain ⟨⟨a1, a2, a3⟩, t, so, tt⟩ := hr1
  have hal0 : align 0 = 0 := by decide
  have hcap : s1.heap_size + 0 ≤ s1.heap_max := by omega
  unfold mm_malloc at h
  simp only [hcsz, h1, if_true, ask_os_for_chunk, mem_sbrk, hal0, if_pos hcap] at h
  simp only [Option.some.injEq, Prod.mk.injEq] at h
  obtain ⟨-, rfl⟩ := h
  have hsp : split (init_chunk { s1 with heap_size := s1.heap_size + 0 }
      (s1.heap_lo + s1.heap_size) 0 false) (s1.heap_lo + s1.heap_size) 0 =
      init_chunk { s1 with heap_size := s1.heap_size + 0 }
        (s1.heap_lo + s1.heap_size) 0 false := by
    unfold split
    rw [if_neg]
    unfold init_chunk
    dsimp only
    rw [load_size_congr (m := store_size s1.mem (s1.heap_lo + s1.heap_size) 0)
      (fun x _ _ => store_allocated_other _ _ _ _ (by omega)), load_size_store_size]
    decide
  rw [hsp]
  unfold init_chunk
  dsimp only
  have b2 : s1.heap_size + 0 ≤ s1.heap_max := hcap
  have b4 : total (fit_layout 0 cs) = s1.heap_size + 0 := tt
  refine ⟨⟨a1, b2, a3⟩, ?_, so, b4⟩
  refine Tiled_congr _ s1.heap_lo so ?_ t
  intro x (hx1 : s1.heap_lo ≤ x) (hx2 : x < s1.heap_lo + total (fit_layout 0 cs))
  show store_allocated (store_allocated (store_size s1.mem (s1.heap_lo + s1.heap_size) 0)
    (s1.heap_lo + s1.heap_size) false) (s1.heap_lo + s1.heap_size) true x = s1.mem x
  rw [store_allocated_other _ _ _ _ (by omega), store_allocated_other _ _ _ _ (by omega),
    store_size_other _ _ _ _ (by omega)]

/-- C19: on a well-formed heap (which may hold adjacent free chunks), for every `csz`, if
`first_fit(csz)` returns `NULL`, the heap it leaves is well formed and no two consecutive
chunks of its walk are both free; and for every `n`, after an `mm_malloc(n)` whose
`first_fit` returned `NULL`, so that it asked for more arena, the heap is well formed
and no two consecutive chunks of its walk are both free. -/
theorem lazy_repair_by_full_scan (s : Heap) (hw : well_formed s) :
    (∀ csz s1, first_fit s csz = some (0, s1) →
      well_formed s1 ∧ no_adjacent_free (chunks s1)) ∧
    (∀ n s1 p s', first_fit s ((hdr_size + align (align n)) % 2 ^ 64) = some (0, s1) →
      mm_malloc s n = some (p, s') → well_formed s' ∧ no_adjacent_free (chunks s')) := by
  have hr := well_formed_Rep hw
  constructor
  · intro csz s1 h1
    obtain ⟨hnone, -, hr1, -⟩ := first_fit_null hr h1
    rw [chunks_Rep hr1]
    exact ⟨(Rep_iff_well_formed.1 hr1).1, no_adjacent_free_fit_null hnone⟩
  · intro n s1 p s' h1 h
    by_cases hb : align n + 32 ≤ 2 ^ 64
    · obtain ⟨hidem, ham, -⟩ := align_facts n
      have hmod : (hdr_size + align (align n)) % 2 ^ 64 = hdr_size + align n := by
        rw [hidem]
        unfold hdr_size
        omega
      rw [hmod] at h1
      obtain ⟨hnone, -⟩ := first_fit_null hr h1
      obtain ⟨-, -, hr'⟩ := mm_malloc_some hr hb h
      rw [chunks_Rep hr']
      refine ⟨(Rep_iff_well_formed.1 hr').1, ?_⟩
      unfold malloc_layout
      rw [hnone]
      exact no_adjacent_free_fit _ _ _ _ (Nat.le_refl _)
    · have hr' := mm_malloc_wrap_null hr hb h1 h
      obtain ⟨hnone, -⟩ := first_fit_null hr h1
      rw [chunks_Rep hr']
      exact ⟨(Rep_iff_well_formed.1 hr').1, no_adjacent_free_fit_null hnone⟩

/-- C19 at a concrete input: `heap2` holds two adjacent free chunks; `first_fit(80)`
returns `NULL` and leaves them merged, and `mm_malloc(100)` grows the heap. -/
theorem lazy_repair_by_full_scan_witness :
    ((∀ csz s1, first_fit heap2 csz = some (0, s1) →
      well_formed s1 ∧ no_adjacent_free (chunks s1)) ∧
    (∀ n s1 p s', first_fit heap2 ((hdr_size + align (align n)) % 2 ^ 64) = some (0, s1) →
      mm_malloc heap2 n = some (p, s') → well_formed s' ∧ no_adjacent_free (chunks s'))) ∧
    ¬ no_adjacent_free (chunks heap2) ∧
    (first_fit heap2 80).map (fun r => (r.1, chunks r.2)) =
      some (0, [(32, true), (64, false), (32, true)]) ∧
    (first_fit heap2 ((hdr_size + align (align 100)) % 2 ^ 64)).map Prod.fst = some 0 ∧
    (mm_malloc heap2 100).map (fun r => (r.1, chunks r.2)) =
      some (4240, [(32, true), (64, false), (32, true), (128, true)]) :=
  ⟨lazy_repair_by_full_scan heap2 (by decide),
    (by
      have h : chunks heap2 = [(32, true), (32, false), (32, false), (32, true)] := by decide
      rw [h]
      simp [no_adjacent_free]),
    by decide, by decide, by decide⟩

/-! ## C20: the audit of the empty heap -/

/-- C20 fails in the code: `mm_checkheap` starts its loop at `mem_heap_lo()`, which is not
`NULL` on the empty heap, instead of at `next_chunk(NULL)`. On the empty heap `heap0` it
therefore reads the header at address 4096, which lies outside the heap, and counts it as a
chunk: with zeroed memory it returns `num_free_chunks = 1`; when the byte of the
`allocated` field there is set it returns `num_allocated_chunks = 1`; when the bytes of
the `size` field there are not zero its assertion fails. Whatever the memory holds, the
result is never the four zeros. -/
theorem checkheap_empty_heap_reads_header :
    mem_heapsize heap0 = 0 ∧ next_chunk heap0 0 = 0 ∧
    mm_checkheap heap0 = some ⟨0, 1, 0, 0⟩ ∧
    mm_checkheap { heap0 with mem := fun x => if x = 4104 then 1 else 0 } =
      some ⟨1, 0, 0, 0⟩ ∧
    mm_checkheap { heap0 with mem := fun x => if x = 4096 then 32 else 0 } = none ∧
    ∀ m : Nat → Nat, mm_checkheap { heap0 with mem := m } ≠ some ⟨0, 0, 0, 0⟩ := by
  refine ⟨by decide, by decide, by decide, by decide, by decide, ?_⟩
  intro m
  have hn : next_chunk { heap0 with mem := m } 4096 = 0 := by
    unfold next_chunk mem_heap_hi
    rw [if_neg (by decide), if_pos]
    show 4096 + load_size m 4096 > 4096 + 0 - 1
    omega
  have hs : checkheap_scan { heap0 with mem := m } =
      some (if load_allocated m 4096 = false then ⟨0, 0 + 1, 0, 0 + load_size m 4096⟩
        else ⟨0 + 1, 0, 0 + load_size m 4096, 0⟩) := by
    show checkheap_loop 2 { heap0 with mem := m } 4096 ⟨0, 0, 0, 0⟩ = _
    unfold checkheap_loop
    rw [if_pos (by decide), hn]
    unfold checkheap_loop
    simp only [ne_eq, not_true_eq_false, if_false]
    split <;> rfl
  unfold mm_checkheap
  rw [hs]
  dsimp only
  split <;> split <;> simp

end MMImplicit
